import Mathlib

/-!
# Verification of the `std_random_flaws` engines

Shallow embedding of `uint128.hpp`, `philox_engine.hpp` and
`subtract_with_carry_engine.hpp`.

Machine integers are natural numbers; every operation that can wrap in the
source is followed by an explicit `% 2 ^ digits`, where `digits` is the bit
width of the C++ type the operation is carried out in.  Fixed-size arrays are
lists, read with `List.getD` and written with `List.set`.
-/

set_option linter.unusedVariables false

namespace stdmock

/-! ## `uint128.hpp` -/

/-- The class `uint128`: two 64-bit halves, the value being `high * 2^64 + low`. -/
structure uint128 where
  high : Nat
  low : Nat
deriving DecidableEq, Repr

namespace uint128

/-- Constructor `uint128(T v)`: `high(0), low(static_cast<uint64_t>(v))`. -/
def ofWord (v : Nat) : uint128 := ⟨0, v % 2 ^ 64⟩

/-- Constructor `uint128(T h, T l)`: both arguments cast to `uint64_t`. -/
def ofHalves (h l : Nat) : uint128 := ⟨h % 2 ^ 64, l % 2 ^ 64⟩

/-- Conversion `explicit operator std::uint64_t()`: returns `low`. -/
def toWord (a : uint128) : Nat := a.low

/-- The mathematical value of a `uint128`. -/
def toNat (a : uint128) : Nat := a.high * 2 ^ 64 + a.low

/-- The `operator+=` of the source (also `operator+`, which copies and calls it). -/
def add (a v : uint128) : uint128 :=
  let o := a.low
  let low := (a.low + v.low) % 2 ^ 64
  let high := (a.high + v.high) % 2 ^ 64
  let high := (high + (if low < o then 1 else 0)) % 2 ^ 64
  ⟨high, low⟩

/-- The `operator-=` of the source (also `operator-`).  Unsigned subtraction wraps,
so `x - y` on 64-bit words is `(x + 2^64 - y) % 2^64`. -/
def sub (a v : uint128) : uint128 :=
  let o := a.low
  let low := (a.low + 2 ^ 64 - v.low) % 2 ^ 64
  let high := (a.high + 2 ^ 64 - v.high) % 2 ^ 64
  let high := (high + 2 ^ 64 - (if low > o then 1 else 0)) % 2 ^ 64
  ⟨high, low⟩

/-- The `operator<<(unsigned int amount)` of the source, with its three cases.
A native 64-bit shift is modelled by the mathematical shift reduced mod `2^64`;
`shlChecked` below is the same operator with each native shift checked to be defined. -/
def shl (a : uint128) (amount : Nat) : uint128 :=
  if amount ≥ 64 then ofHalves ((a.low <<< (amount - 64)) % 2 ^ 64) 0
  else if amount = 0 then a
  else ofHalves (((a.high <<< amount) % 2 ^ 64) ||| (a.low >>> (64 - amount)))
    ((a.low <<< amount) % 2 ^ 64)

/-- The `operator*` of the source: schoolbook product over 32-bit limbs. -/
def mul (a rhs : uint128) : uint128 :=
  let a32 := a.low >>> 32
  let a00 := a.low &&& 0xffffffff
  let b32 := rhs.low >>> 32
  let b00 := rhs.low &&& 0xffffffff
  let result := ofHalves
    ((((a.high * rhs.low) % 2 ^ 64 + (a.low * rhs.high) % 2 ^ 64) % 2 ^ 64
      + (a32 * b32) % 2 ^ 64) % 2 ^ 64)
    ((a00 * b00) % 2 ^ 64)
  let result := add result (shl (ofWord ((a32 * b00) % 2 ^ 64)) 32)
  let result := add result (shl (ofWord ((a00 * b32) % 2 ^ 64)) 32)
  result

/-- The `operator>>=(std::size_t amount)` of the source (also `operator>>`), each native
shift being the mathematical shift reduced mod `2^64`; `shrChecked` below is the same
operator with each native shift checked to be defined. -/
def shr (a : uint128) (amount : Nat) : uint128 :=
  if amount ≥ 64 then ⟨0, a.high >>> (amount - 64)⟩
  else ⟨a.high >>> amount, ((a.high <<< (64 - amount)) % 2 ^ 64) ||| (a.low >>> amount)⟩

end uint128

/-! ## `philox_engine.hpp` -/

/-- Template parameters of `philox_engine<UIntType, w, n, r, consts...>` together with
the bit widths of the integer types the code computes in: `digits` is
`std::numeric_limits<UIntType>::digits`, and `fast16`, `fast32`, `fast64` are the
widths of `std::uint_fast16_t`, `std::uint_fast32_t`, `std::uint_fast64_t`. -/
structure PhiloxParams where
  digits : Nat
  fast16 : Nat
  fast32 : Nat
  fast64 : Nat
  w : Nat
  n : Nat
  r : Nat
  consts : List Nat
deriving DecidableEq, Repr

/-- Data members `X`, `K`, `Y`, `j` of `philox_engine`. -/
structure philox_engine where
  X : List Nat
  K : List Nat
  Y : List Nat
  j : Nat
deriving DecidableEq, Repr

namespace philox_engine

/-- The four `static_assert`s at the head of the class. -/
def accepted (p : PhiloxParams) : Bool :=
  p.consts.length == p.n &&
  (p.n == 2 || p.n == 4 || p.n == 8 || p.n == 16) &&
  decide (0 < p.r) &&
  (decide (0 < p.w) && decide (p.w ≤ p.digits))

/-- Static member `min()`. -/
def min (p : PhiloxParams) : Nat := 0

/-- Static member `max()`: `result_type(~result_type(0)) >> (digits - w)`. -/
def max (p : PhiloxParams) : Nat := (2 ^ p.digits - 1) >>> (p.digits - p.w)

/-- The do-while loop of `increase_counter`; the first argument bounds the number of
iterations (the loop runs at most `n` times because `i < n` is part of its test). -/
def increase_counter_loop (p : PhiloxParams) : Nat → Nat → List Nat → List Nat
  | 0, _, X => X
  | fuel + 1, i, X =>
    let X1 := X.set i (((X.getD i 0 + 1) % 2 ^ p.digits) &&& max p)
    if i + 1 < p.n ∧ X1.getD i 0 = 0 then increase_counter_loop p fuel (i + 1) X1 else X1

/-- The member `increase_counter`. -/
def increase_counter (p : PhiloxParams) (e : philox_engine) : philox_engine :=
  { e with X := increase_counter_loop p p.n 0 e.X }

/-- Width of the native `upgraded_type` that `mulhilo` selects when `w ≤ 32`. -/
def upgradedDigits (p : PhiloxParams) : Nat :=
  if p.w ≤ 8 then p.fast16 else if p.w ≤ 16 then p.fast32 else p.fast64

/-- The member `mulhilo`: for `w ≤ 32` the product is formed in a native type, above
that in `uint128`; returns `(static_cast<U>(ab >> w), static_cast<U>(ab) & max())`. -/
def mulhilo (p : PhiloxParams) (a b : Nat) : Nat × Nat :=
  if p.w ≤ 32 then
    let ab := (a * b) % 2 ^ upgradedDigits p
    ((ab >>> p.w) % 2 ^ p.digits, (ab % 2 ^ p.digits) &&& max p)
  else
    let ab := uint128.mul (uint128.ofWord a) (uint128.ofWord b)
    ((uint128.toWord (uint128.shr ab p.w)) % 2 ^ p.digits,
      ((uint128.toWord ab) % 2 ^ p.digits) &&& max p)

/-- The round loop of `generate` for `n == 2`, on the locals `(S0, S1, K0)`. -/
def rounds2 (p : PhiloxParams) (Fix : Bool) : Nat → Nat × Nat × Nat → Nat × Nat × Nat
  | 0, st => st
  | i + 1, (S0, S1, K0) =>
    let c := fun k => p.consts.getD k 0
    if Fix then
      let hl := mulhilo p S0 (c 0)
      rounds2 p Fix i (hl.1 ^^^ K0 ^^^ S1, hl.2, ((K0 + c 1) % 2 ^ p.digits) &&& max p)
    else
      let hl := mulhilo p S1 (c 0)
      let S0 := hl.2
      rounds2 p Fix i (S0, hl.1 ^^^ K0 ^^^ S0, ((K0 + c 1) % 2 ^ p.digits) &&& max p)

/-- The round loop of `generate` for `n == 4`, on the locals `(S0, S1, S2, S3, K0, K1)`. -/
def rounds4 (p : PhiloxParams) (Fix : Bool) :
    Nat → Nat × Nat × Nat × Nat × Nat × Nat → Nat × Nat × Nat × Nat × Nat × Nat
  | 0, st => st
  | i + 1, (S0, S1, S2, S3, K0, K1) =>
    let c := fun k => p.consts.getD k 0
    let m := max p
    if Fix then
      let V0 := S2
      let V1 := S1
      let V2 := S0
      let V3 := S3
      let hl0 := mulhilo p V0 (c 2)
      let hl2 := mulhilo p V2 (c 0)
      rounds4 p Fix i (hl0.1 ^^^ K0 ^^^ V1, hl0.2, hl2.1 ^^^ K1 ^^^ V3, hl2.2,
        ((K0 + c 1) % 2 ^ p.digits) &&& m, ((K1 + c 3) % 2 ^ p.digits) &&& m)
    else
      let V0 := S0
      let V1 := S3
      let V2 := S2
      let V3 := S1
      let hl1 := mulhilo p V1 (c 0)
      let hl3 := mulhilo p V3 (c 2)
      rounds4 p Fix i (hl1.2, hl1.1 ^^^ K0 ^^^ V0, hl3.2, hl3.1 ^^^ K1 ^^^ V2,
        ((K0 + c 1) % 2 ^ p.digits) &&& m, ((K1 + c 3) % 2 ^ p.digits) &&& m)

/-- The member `generate<Fix>`.  It has a branch for `n == 2` and one for `n == 4`
and no other; for any other `n` the function body is empty. -/
def generate (p : PhiloxParams) (Fix : Bool) (e : philox_engine) : philox_engine :=
  if p.n = 2 then
    let out := rounds2 p Fix p.r (e.X.getD 0 0, e.X.getD 1 0, e.K.getD 0 0)
    { e with Y := (e.Y.set 0 out.1).set 1 out.2.1 }
  else if p.n = 4 then
    let out := rounds4 p Fix p.r
      (e.X.getD 0 0, e.X.getD 1 0, e.X.getD 2 0, e.X.getD 3 0, e.K.getD 0 0, e.K.getD 1 0)
    { e with Y := (((e.Y.set 0 out.1).set 1 out.2.1).set 2 out.2.2.1).set 3 out.2.2.2.1 }
  else e

/-- Constructor `philox_engine(result_type value)`; the members start from their
default initialisers `X{0}`, `K{0}`, `Y{0}`, `j{n - 1}`. -/
def init (p : PhiloxParams) (value : Nat) : philox_engine :=
  { X := List.replicate p.n 0
    K := (List.replicate (p.n / 2) 0).set 0 ((value % 2 ^ p.digits) &&& max p)
    Y := List.replicate p.n 0
    j := p.n - 1 }

/-- The default seed `default_seed = 20111115U`. -/
def default_seed : Nat := 20111115

/-- The inner loop shared by the seed-sequence constructors: starting from `val = 0`,
`val += static_cast<UIntType>(word) << 32 * idx` for `idx = 0 .. k - 1`, the words being
read from `a` at offset `off`. -/
def packWords (digits : Nat) (a : List Nat) (off k : Nat) : Nat :=
  (List.range k).foldl
    (fun val idx =>
      (val + ((a.getD (off + idx) 0 % 2 ^ digits) <<< (32 * idx)) % 2 ^ digits) % 2 ^ digits)
    0

/-- The outer loop of the seed-sequence constructor, writing `K[n_idx]` for
`n_idx = 0 .. n / 2 - 1`. -/
def seedKeys (p : PhiloxParams) (a : List Nat) : List Nat :=
  (List.range (p.n / 2)).foldl
    (fun K n_idx =>
      K.set n_idx (packWords p.digits a (n_idx * ((p.w - 1) / 32 + 1)) ((p.w - 1) / 32 + 1)
        &&& max p))
    (List.replicate (p.n / 2) 0)

/-- Constructor `philox_engine(SeedSeq &seq)`; `a` is what `seq.generate` wrote. -/
def initSeq (p : PhiloxParams) (a : List Nat) : philox_engine :=
  { X := List.replicate p.n 0
    K := seedKeys p a
    Y := List.replicate p.n 0
    j := p.n - 1 }

/-- The member `operator()<Version>`.  `Version` is a `std::size_t` that is passed on
as the `bool` template argument of `generate`, so any non-zero value selects
`generate<true>`.  Returns the new state and the returned word `Y[j]`. -/
def next (p : PhiloxParams) (Version : Nat) (e : philox_engine) : philox_engine × Nat :=
  let e1 := { e with j := e.j + 1 }
  let e2 := if e1.j = p.n then
      { increase_counter p (generate p (decide (Version ≠ 0)) e1) with j := 0 }
    else e1
  (e2, e2.Y.getD e2.j 0)

/-- The member `discard<Fix>(z)`: calls `operator()<Fix>` `z` times; the `bool`
argument becomes the `std::size_t` value 0 or 1. -/
def discard (p : PhiloxParams) (Fix : Bool) : Nat → philox_engine → philox_engine
  | 0, e => e
  | z + 1, e => discard p Fix z (next p (if Fix then 1 else 0) e).1

/-- The member `operator==`: compares `X`, `K`, `Y` and `j`. -/
def equal (a b : philox_engine) : Bool :=
  (a.X == b.X) && (a.K == b.K) && (a.Y == b.Y) && (a.j == b.j)

/-- Calling `operator()` with its default template argument (`Version = 1`) `z` times. -/
def nextTimes (p : PhiloxParams) : Nat → philox_engine → philox_engine
  | 0, e => e
  | z + 1, e => nextTimes p z (next p 1 e).1

end philox_engine

/-- The alias `philox4x32`; `fast32` is the width of `std::uint_fast32_t`. -/
def philox4x32 (fast32 : Nat) : PhiloxParams :=
  { digits := fast32, fast16 := 16, fast32 := fast32, fast64 := 64, w := 32, n := 4, r := 10,
    consts := [0xD2511F53, 0x9E3779B9, 0xCD9E8D57, 0xBB67AE85] }

/-- The alias `philox4x64`, over `std::uint_fast64_t`. -/
def philox4x64 : PhiloxParams :=
  { digits := 64, fast16 := 16, fast32 := 32, fast64 := 64, w := 64, n := 4, r := 10,
    consts := [0xD2E7470EE14C6C93, 0x9E3779B97F4A7C15, 0xCA5A826395121157,
      0xBB67AE8584CAA73B] }

end stdmock

/-! ## `std::linear_congruential_engine` as used for integer seeding -/

namespace stdlib

/-- Modelled from the C++ standard, [rand.eng.lcong]: the engine
`std::linear_congruential_engine<std::uint_least32_t, 40014U, 0U, 2147483563U>` that the
integer-seed constructor of `subtract_with_carry_engine` instantiates; it is part of the
standard library, not of this repository.  Construction from `s` converts `s` to the
32-bit result type and, the increment being `0`, sets the state to `1` when
`s mod m = 0` and to `s mod m` otherwise. -/
def lcg_init (s : Nat) : Nat :=
  if (s % 2 ^ 32) % 2147483563 = 0 then 1 else (s % 2 ^ 32) % 2147483563

/-- The transition of that engine: `x ← 40014 · x mod 2147483563`; the new state is the
value returned. -/
def lcg_step (x : Nat) : Nat := (40014 * x) % 2147483563

/-- What `std::generate(seeds.begin(), seeds.end(), e)` writes: `count` successive
outputs of the engine whose state is `x`. -/
def lcg_generate : Nat → Nat → List Nat
  | 0, _ => []
  | count + 1, x => lcg_step x :: lcg_generate count (lcg_step x)

end stdlib

/-! ## `subtract_with_carry_engine.hpp` -/

namespace stdfix

/-- Template parameters of `subtract_with_carry_engine<UIntType, w, s, r, original>`;
`digits` is `std::numeric_limits<UIntType>::digits`. -/
structure SwcParams where
  digits : Nat
  w : Nat
  s : Nat
  r : Nat
  original : Bool
deriving DecidableEq, Repr

/-- Data members `x`, `i`, `carry` of `subtract_with_carry_engine`. -/
structure subtract_with_carry_engine where
  x : List Nat
  i : Nat
  carry : Nat
deriving DecidableEq, Repr

namespace subtract_with_carry_engine

/-- The four `static_assert`s of the class. -/
def accepted (p : SwcParams) : Bool :=
  decide (p.s ≥ 1) && decide (p.s < p.r) && decide (p.w ≥ 1) && decide (p.w ≤ p.digits)

/-- Private constant `k = std::size_t(w / 32) + 1`. -/
def k (p : SwcParams) : Nat := p.w / 32 + 1

/-- Static member `modulus = static_cast<result_type>(1U) << w`, in `UIntType`. -/
def modulus (p : SwcParams) : Nat := (1 <<< p.w) % 2 ^ p.digits

/-- The default seed `default_seed = 19780503U`. -/
def default_seed : Nat := 19780503

/-- Static member `min()`. -/
def min (p : SwcParams) : Nat := 0

/-- Static member `max()`: `ach | (ach - 1)` with `ach = 1 << (w - 1)`. -/
def max (p : SwcParams) : Nat :=
  let ach := (1 <<< (p.w - 1)) % 2 ^ p.digits
  ach ||| ((ach + 2 ^ p.digits - 1) % 2 ^ p.digits)

/-- The expression `(idx < short_lag) ? (idx + long_lag - short_lag) : (idx - short_lag)`. -/
def shortIndex (p : SwcParams) (idx : Nat) : Nat :=
  if idx < p.s then idx + p.r - p.s else idx - p.s

/-- Addition in `UIntType`: wraps modulo `2 ^ digits`. -/
def uadd (p : SwcParams) (a b : Nat) : Nat := (a + b) % 2 ^ p.digits

/-- Subtraction in `UIntType` of values below `2 ^ digits`: wraps modulo `2 ^ digits`. -/
def usub (p : SwcParams) (a b : Nat) : Nat := (a + 2 ^ p.digits - b) % 2 ^ p.digits

/-- Forward step, `operator()<true>`: returns the new state and the word returned. -/
def forward (p : SwcParams) (e : subtract_with_carry_engine) :
    subtract_with_carry_engine × Nat :=
  let short_index := shortIndex p e.i
  let temp := uadd p (e.x.getD e.i 0) e.carry
  let e1 : subtract_with_carry_engine :=
    if e.x.getD short_index 0 ≥ temp then
      { e with x := e.x.set e.i (usub p (e.x.getD short_index 0) temp), carry := 0 }
    else
      { e with
        x := e.x.set e.i (uadd p (usub p (modulus p) temp) (e.x.getD short_index 0))
        carry := 1 }
  let result := e1.x.getD e1.i 0
  ({ e1 with i := if e1.i = p.r - 1 then 0 else e1.i + 1 }, result)

/-- The do-while loop of the backward step.  It walks `k_prev` down the ring from slot
`i` and returns the final `(temp_prev, short_index_prev)`.  The first argument bounds
the number of further iterations; the loop stops at the latest when `k_prev` is back
at `i`, that is after `r` iterations. -/
def walk (p : SwcParams) (x : List Nat) (i : Nat) : Nat → Nat → Nat × Nat
  | 0, k_prev =>
    let k_prev := if k_prev = 0 then p.r - 1 else k_prev - 1
    let short_index_prev := shortIndex p k_prev
    let temp_prev := x.getD k_prev 0
    let temp_prev :=
      if temp_prev > x.getD short_index_prev 0 then
        uadd p (usub p (modulus p) temp_prev) (x.getD short_index_prev 0)
      else usub p (x.getD short_index_prev 0) temp_prev
    (temp_prev, short_index_prev)
  | fuel + 1, k_prev =>
    let k_prev := if k_prev = 0 then p.r - 1 else k_prev - 1
    let short_index_prev := shortIndex p k_prev
    let temp_prev := x.getD k_prev 0
    let temp_prev :=
      if temp_prev > x.getD short_index_prev 0 then
        uadd p (usub p (modulus p) temp_prev) (x.getD short_index_prev 0)
      else usub p (x.getD short_index_prev 0) temp_prev
    if temp_prev = 0 ∧ k_prev ≠ i then walk p x i fuel k_prev
    else (temp_prev, short_index_prev)

/-- Backward step, `operator()<false>`: returns the new state and the word returned. -/
def backward (p : SwcParams) (e : subtract_with_carry_engine) :
    subtract_with_carry_engine × Nat :=
  let i := if e.i = 0 then p.r - 1 else e.i - 1
  let result := e.x.getD i 0
  let short_index := shortIndex p i
  let temp :=
    if e.carry ≠ 0 then uadd p (usub p (modulus p) (e.x.getD i 0)) (e.x.getD short_index 0)
    else usub p (e.x.getD short_index 0) (e.x.getD i 0)
  let carry :=
    if temp = 0 then 0
    else if temp = modulus p then 1
    else
      let tw := walk p e.x i p.r i
      if e.x.getD tw.2 0 ≥ tw.1 then 0 else 1
  ({ x := e.x.set i (usub p temp carry), i := i, carry := carry }, result)

/-- The member `discard(z)`: `z` forward steps. -/
def discard (p : SwcParams) : Nat → subtract_with_carry_engine → subtract_with_carry_engine
  | 0, e => e
  | z + 1, e => discard p z (forward p e).1

/-- A loop of `z` backward steps, as in the second loop of `init`. -/
def rewind (p : SwcParams) : Nat → subtract_with_carry_engine → subtract_with_carry_engine
  | 0, e => e
  | z + 1, e => rewind p z (backward p e).1

/-- The seed-packing loop of `init`: `x[j] = val % modulus` for `j = 0 .. r - 1`, where
`val` sums `static_cast<UIntType>(seed) << 32 * ki` over the `k` words of slot `j`.
The members start from `x{0}`. -/
def packSeeds (p : SwcParams) (seeds : List Nat) : List Nat :=
  (List.range p.r).foldl
    (fun x j =>
      x.set j (stdmock.philox_engine.packWords p.digits seeds (j * k p) (k p) % modulus p))
    (List.replicate p.r 0)

/-- The member `init(seeds)`. -/
def init (p : SwcParams) (seeds : List Nat) : subtract_with_carry_engine :=
  let x := packSeeds p seeds
  let e : subtract_with_carry_engine :=
    { x := x, i := 0, carry := if x.getD (p.r - 1) 0 = 0 then 1 else 0 }
  if p.original then e else rewind p p.r (discard p p.r e)

/-- Constructor `subtract_with_carry_engine(result_type value)`. -/
def ofSeed (p : SwcParams) (value : Nat) : subtract_with_carry_engine :=
  init p (stdlib.lcg_generate (p.r * k p)
    (stdlib.lcg_init (if value % 2 ^ p.digits = 0 then default_seed else value % 2 ^ p.digits)))

/-- Default constructor, which delegates to the integer constructor with `0U`. -/
def default (p : SwcParams) : subtract_with_carry_engine := ofSeed p 0

/-- Constructor `subtract_with_carry_engine(SeedSeq &seq)`; `a` is what `seq.generate`
wrote into the array of `r * k` words. -/
def ofSeedSeq (p : SwcParams) (a : List Nat) : subtract_with_carry_engine :=
  init p a

/-- The member `operator==`: compares `carry`, `i` and `x`. -/
def equal (a b : subtract_with_carry_engine) : Bool :=
  (a.carry == b.carry) && (a.i == b.i) && (a.x == b.x)

end subtract_with_carry_engine

/-- The alias `ranlux24_base`; `fast32` is the width of `std::uint_fast32_t`. -/
def ranlux24_base (fast32 : Nat) : SwcParams :=
  { digits := fast32, w := 24, s := 10, r := 24, original := false }

/-- The alias `ranlux48_base`, over `std::uint_fast64_t`. -/
def ranlux48_base : SwcParams :=
  { digits := 64, w := 48, s := 5, r := 12, original := false }

end stdfix

/-! ## `main.cpp` -/

namespace detail

/-- The helper `detail::pow<N>(base)`, by repeated squaring, for `N ≥ 1`; the first
argument bounds the depth of the template recursion (any value `≥ N` will do).  The
arithmetic is in `std::size_t`, taken to be 64 bits wide. -/
def powAux : Nat → Nat → Nat → Nat
  | 0, _, base => base
  | fuel + 1, N, base =>
    if N = 1 then base
    else if N % 2 = 0 then (powAux fuel (N / 2) base * powAux fuel (N / 2) base) % 2 ^ 64
    else ((base * powAux fuel (N / 2) base) % 2 ^ 64 * powAux fuel (N / 2) base) % 2 ^ 64

/-- The helper `detail::pow<N>(base)`. -/
def pow (N : Nat) (base : Nat) : Nat := powAux N N base

end detail

/-- The helper `period(rng)` of `main.cpp`: `detail::pow<r>(w) - detail::pow<s>(w)`. -/
def period (p : stdfix.SwcParams) : Nat :=
  (detail.pow p.r p.w + 2 ^ 64 - detail.pow p.s p.w) % 2 ^ 64

/-- The engine type of the "proposed fix" test in `main.cpp`:
`stdfix::subtract_with_carry_engine<std::uint_fast32_t, 16, 2, 4>`. -/
def testEngine (fast32 : Nat) : stdfix.SwcParams :=
  { digits := fast32, w := 16, s := 2, r := 4, original := false }

/-! ## Auxiliary notions for the period argument

The remaining definitions are not part of the program.  They describe the test
configuration `(w, s, r) = (16, 2, 4)` in exact arithmetic and are used only to state
the lemmas behind the periodicity theorems. -/

namespace stdfix
namespace subtract_with_carry_engine

/-- One forward step of the test configuration on words, in exact arithmetic: from the
word `y0` to be replaced, its short-lag partner `y2` and the carry `c`, the new word and
the new carry. -/
def stepW (y0 y2 c : Nat) : Nat × Nat :=
  if y2 ≥ y0 + c then (y2 - (y0 + c), 0) else (65536 + y2 - (y0 + c), 1)

/-- A window `(y0, y1, y2, y3)` of four consecutive outputs, oldest first, with the carry
`c` left by the newest, lies on a cycle: the carry is the one that a lexicographic
comparison of the window predicts. -/
def PerW (y0 y1 y2 y3 c : Nat) : Prop :=
  (c = 1 ∧ (y3 > y1 ∨ (y3 = y1 ∧ (y2 > y0 ∨ (y2 = y0 ∧ y1 = 65535 ∧ y0 = 65535))))) ∨
  (c = 0 ∧ (y3 < y1 ∨ (y3 = y1 ∧ (y2 < y0 ∨ (y2 = y0 ∧ y1 = 0 ∧ y0 = 0)))))

/-- The predicate `PerW` for the ring `[a, b, c, d]` read from index `i`. -/
def PerAt (a b c d i cy : Nat) : Prop :=
  PerW ([a, b, c, d].getD (i % 4) 0) ([a, b, c, d].getD ((i + 1) % 4) 0)
    ([a, b, c, d].getD ((i + 2) % 4) 0) ([a, b, c, d].getD ((i + 3) % 4) 0) cy

/-- States of the test configuration with four words in range, a valid index, a carry
bit, and a window on a cycle. -/
def Good (e : subtract_with_carry_engine) : Prop :=
  ∃ a b c d, e.x = [a, b, c, d] ∧ a < 65536 ∧ b < 65536 ∧ c < 65536 ∧ d < 65536 ∧
    e.i < 4 ∧ e.carry ≤ 1 ∧ PerAt a b c d e.i e.carry

/-- The integer attached to a window: with `B = 2^16` and `m = B^4 - B^2 + 1`, one
forward step divides it by `B` modulo `m`. -/
def NW (y0 y1 y2 y3 c : Nat) : Int :=
  (y0 : Int) + 65536 * y1 + 65536 ^ 2 * ((y2 : Int) - y0) + 65536 ^ 3 * ((y3 : Int) - y1)
    - 65536 ^ 4 * c

end subtract_with_carry_engine
end stdfix

/-- A configuration `philox_engine<std::uint_fast32_t, 32, 8, 10, ...>` with eight words;
`fast32` is the width of `std::uint_fast32_t`. -/
def philox8x32 (fast32 : Nat) : stdmock.PhiloxParams :=
  { digits := fast32, fast16 := 16, fast32 := fast32, fast64 := 64, w := 32, n := 8, r := 10,
    consts := [0xD2511F53, 0x9E3779B9, 0xCD9E8D57, 0xBB67AE85, 0xD2511F53, 0x9E3779B9,
      0xCD9E8D57, 0xBB67AE85] }

/-- The engine type `stdfix::subtract_with_carry_engine<std::uint_fast32_t, w, s, r>` in
its corrected variant; `fast32` is the width of `std::uint_fast32_t`. -/
def swcEngine (fast32 w s r : Nat) : stdfix.SwcParams :=
  { digits := fast32, w := w, s := s, r := r, original := false }

/-- A seed sequence for `ranlux48_base`: the 24 words that pack into the twelve 48-bit
slots `0, 0, 2^48 - 1 (eight times), 0, 0`. -/
def rangeSeedWords : List Nat :=
  [0, 0, 0, 0, 0xffffffff, 0xffff, 0xffffffff, 0xffff, 0xffffffff, 0xffff, 0xffffffff, 0xffff,
    0xffffffff, 0xffff, 0xffffffff, 0xffff, 0xffffffff, 0xffff, 0xffffffff, 0xffff, 0, 0, 0, 0]

/-! ## Further configurations used in the theorems -/

/-- The engine type of the first test of `main.cpp` read as the literal variant:
`subtract_with_carry_engine<std::uint_fast32_t, 16, 2, 4>` with `original = true`;
`fast32` is the width of `std::uint_fast32_t`. -/
def testLiteral (fast32 : Nat) : stdfix.SwcParams :=
  { digits := fast32, w := 16, s := 2, r := 4, original := true }

/-- The configuration `subtract_with_carry_engine<std::uint16_t, 16, 2, 4>`, whose word
size equals the width of its storage word. -/
def fullWidthEngine : stdfix.SwcParams :=
  { digits := 16, w := 16, s := 2, r := 4, original := false }

/-- A two-word configuration `philox_engine<std::uint_fast32_t, 32, 2, 10, ...>`;
`fast32` is the width of `std::uint_fast32_t`. -/
def philox2x32 (fast32 : Nat) : stdmock.PhiloxParams :=
  { digits := fast32, fast16 := 16, fast32 := fast32, fast64 := 64, w := 32, n := 2, r := 10,
    consts := [0xD256D193, 0x9E3779B9] }

/-! ## Auxiliary notions for the forward step and the counter

These definitions are not part of the program.  `Inv` is the class invariant of the
lagged-carry engine; `counterValue` and `specIncrement` describe the counter of the
counter-based engine as a little-endian integer; `counterOf` and `blockOf` name the
counter of a given value and the block generated from a key and a counter. -/

namespace stdfix
namespace subtract_with_carry_engine

/-- The class invariant of `subtract_with_carry_engine`: `r` words below `2^w`, a carry
bit, an index below `r`. -/
def Inv (p : SwcParams) (e : subtract_with_carry_engine) : Prop :=
  e.x.length = p.r ∧ (∀ j, e.x.getD j 0 < 2 ^ p.w) ∧ e.carry ≤ 1 ∧ e.i < p.r

end subtract_with_carry_engine
end stdfix

namespace stdmock
namespace philox_engine

/-- The value of a counter read as a little-endian integer in base `2^w`. -/
def counterValue (w : Nat) : List Nat → Nat
  | [] => 0
  | x :: xs => x + 2 ^ w * counterValue w xs

/-- Reference increment of a little-endian counter in base `2^w`, following the
description of the counter: add one to the lowest word modulo `2^w` and carry into the
next word exactly when the word wrapped to 0. -/
def specIncrement (w : Nat) : List Nat → List Nat
  | [] => []
  | x :: xs => if (x + 1) % 2 ^ w = 0 then 0 :: specIncrement w xs else ((x + 1) % 2 ^ w) :: xs

/-- The counter of value `v`: `v` reference increments from the all-zero counter. -/
def counterOf (p : PhiloxParams) (v : Nat) : List Nat :=
  (specIncrement p.w)^[v] (List.replicate p.n 0)

/-- The block that `generate<Fix>` computes from the key `K` and the counter `X`. -/
def blockOf (p : PhiloxParams) (Fix : Bool) (K X : List Nat) : List Nat :=
  (generate p Fix ⟨X, K, List.replicate p.n 0, 0⟩).Y

end philox_engine
end stdmock

/-! ## `uint128.hpp`: comparisons, checked shifts and `operator%=` -/

namespace stdmock
namespace uint128

/-- The `operator<=` of the source. -/
def le (a o : uint128) : Bool :=
  decide (a.high < o.high) || (a.high == o.high && decide (a.low ≤ o.low))

/-- The `operator>=` of the source. -/
def ge (a o : uint128) : Bool :=
  decide (a.high > o.high) || (a.high == o.high && decide (a.low ≥ o.low))

/-- A native left shift of a `std::uint64_t`.  The shift is undefined when the amount is
64 or more; this is reported as `none`. -/
def shl64 (x amount : Nat) : Option Nat :=
  if amount < 64 then some ((x <<< amount) % 2 ^ 64) else none

/-- A native right shift of a `std::uint64_t`; `none` when the amount is 64 or more. -/
def shr64 (x amount : Nat) : Option Nat :=
  if amount < 64 then some (x >>> amount) else none

/-- The `operator<<(unsigned int amount)` of the source with every native shift checked:
`none` when a native shift by 64 or more would be evaluated. -/
def shlChecked (a : uint128) (amount : Nat) : Option uint128 :=
  if amount ≥ 64 then
    match shl64 a.low (amount - 64) with
    | some l => some (ofHalves l 0)
    | none => none
  else if amount = 0 then some a
  else
    match shl64 a.high amount, shr64 a.low (64 - amount), shl64 a.low amount with
    | some h, some t, some l => some (ofHalves (h ||| t) l)
    | _, _, _ => none

/-- The `operator<<=(uint8_t amount)` of the source with every native shift checked:
`high <<= amount; high |= low >> (64U - amount); low <<= amount`.  The amount is an
8-bit value and `64U - amount` is computed in `unsigned int` (32 bits). -/
def shlAssign (a : uint128) (amount : Nat) : Option uint128 :=
  let amount := amount % 2 ^ 8
  match shl64 a.high amount, shr64 a.low ((64 + 2 ^ 32 - amount) % 2 ^ 32),
    shl64 a.low amount with
  | some h, some t, some l => some ⟨h ||| t, l⟩
  | _, _, _ => none

/-- The `operator>>=(std::size_t amount)` of the source (also `operator>>`) with every
native shift checked. -/
def shrChecked (a : uint128) (amount : Nat) : Option uint128 :=
  if amount ≥ 64 then
    match shr64 a.high (amount - 64) with
    | some l => some ⟨0, l⟩
    | none => none
  else
    match shl64 a.high (64 - amount), shr64 a.low amount, shr64 a.high amount with
    | some t, some l, some h => some ⟨h, t ||| l⟩
    | _, _, _ => none

/-- The first loop of `operator%=`: `while (x <= y) x <<= 1U;`.  The first argument
bounds the number of evaluations of the loop test; `none` when it is used up. -/
def modLoop1 : Nat → uint128 → uint128 → Option uint128
  | 0, _, _ => none
  | fuel + 1, x, y =>
    if le x y then
      match shlAssign x 1 with
      | some x1 => modLoop1 fuel x1 y
      | none => none
    else some x

/-- The second loop of `operator%=`:
`while (*this >= b) { if (*this >= x) *this -= x; x >>= 1U; }`, on `(*this, x)`. -/
def modLoop2 (b : uint128) : Nat → uint128 → uint128 → Option uint128
  | 0, _, _ => none
  | fuel + 1, t, x =>
    if ge t b then
      let t1 := if ge t x then sub t x else t
      match shrChecked x 1 with
      | some x1 => modLoop2 b fuel t1 x1
      | none => none
    else some t

/-- The `operator%=` of the source (also `operator%`): `x(b)`, `y(*this >> 1U)`, then the
two loops.  The first argument bounds the evaluations of each loop test. -/
def modAssign (fuel : Nat) (a b : uint128) : Option uint128 :=
  match shrChecked a 1 with
  | some y =>
    match modLoop1 fuel b y with
    | some x => modLoop2 b fuel a x
    | none => none
  | none => none

end uint128
end stdmock

/-! ## Theorems: `uint128` -/

section Uint128Theorems
open stdmock stdmock.uint128

/-- Exactness of `uint128::operator*` on two 64-bit arguments. -/
theorem uint128_mul_high_low (a b : Nat) (ha : a < 2 ^ 64) (hb : b < 2 ^ 64) :
    (mul (ofWord a) (ofWord b)).high * 2 ^ 64 + (mul (ofWord a) (ofWord b)).low = a * b := by
  have hmask : (0xffffffff : Nat) = 2 ^ 32 - 1 := by norm_num
  have ha0 : a % 2 ^ 64 = a := Nat.mod_eq_of_lt ha
  have hb0 : b % 2 ^ 64 = b := Nat.mod_eq_of_lt hb
  simp only [mul, ofWord, ofHalves, add, shl, ha0, hb0, hmask, Nat.and_pow_two_sub_one_eq_mod,
    Nat.shiftRight_eq_div_pow, Nat.shiftLeft_eq]
  have h1 : a / 2 ^ 32 < 2 ^ 32 := by omega
  have h2 : b / 2 ^ 32 < 2 ^ 32 := by omega
  have h3 : a % 2 ^ 32 < 2 ^ 32 := Nat.mod_lt _ (by norm_num)
  have h4 : b % 2 ^ 32 < 2 ^ 32 := Nat.mod_lt _ (by norm_num)
  generalize hah : a / 2 ^ 32 = ah at *
  generalize hal : a % 2 ^ 32 = al at *
  generalize hbh : b / 2 ^ 32 = bh at *
  generalize hbl : b % 2 ^ 32 = bl at *
  have ea : a = ah * 2 ^ 32 + al := by omega
  have eb : b = bh * 2 ^ 32 + bl := by omega
  have p1 : ah * bh ≤ (2 ^ 32 - 1) * (2 ^ 32 - 1) := Nat.mul_le_mul (by omega) (by omega)
  have p2 : ah * bl ≤ (2 ^ 32 - 1) * (2 ^ 32 - 1) := Nat.mul_le_mul (by omega) (by omega)
  have p3 : al * bh ≤ (2 ^ 32 - 1) * (2 ^ 32 - 1) := Nat.mul_le_mul (by omega) (by omega)
  have p4 : al * bl ≤ (2 ^ 32 - 1) * (2 ^ 32 - 1) := Nat.mul_le_mul (by omega) (by omega)
  have prod : a * b = ah * bh * 2 ^ 64 + (ah * bl + al * bh) * 2 ^ 32 + al * bl := by
    rw [ea, eb]; ring
  rw [prod]
  generalize ah * bh = q1 at *
  generalize ah * bl = q2 at *
  generalize al * bh = q3 at *
  generalize al * bl = q4 at *
  simp only [Nat.zero_mul, Nat.mul_zero, Nat.zero_mod, Nat.zero_add, Nat.add_zero, Nat.zero_or]
  norm_num
  split_ifs <;> omega

/-- The product of two 64-bit values is the sum of the four products of their 32-bit
limbs, each at its weight, and is below `2^128`. -/
theorem limb_product (a b : Nat) (ha : a < 2 ^ 64) (hb : b < 2 ^ 64) :
    a * b = (a / 2 ^ 32) * (b / 2 ^ 32) * 2 ^ 64
        + ((a / 2 ^ 32) * (b % 2 ^ 32) + (a % 2 ^ 32) * (b / 2 ^ 32)) * 2 ^ 32
        + (a % 2 ^ 32) * (b % 2 ^ 32) ∧ a * b < 2 ^ 128 := by
  constructor
  · have ea : a = (a / 2 ^ 32) * 2 ^ 32 + a % 2 ^ 32 := by omega
    have eb : b = (b / 2 ^ 32) * 2 ^ 32 + b % 2 ^ 32 := by omega
    generalize a / 2 ^ 32 = ah at *
    generalize a % 2 ^ 32 = al at *
    generalize b / 2 ^ 32 = bh at *
    generalize b % 2 ^ 32 = bl at *
    rw [ea, eb]; ring
  · have h : a * b ≤ (2 ^ 64 - 1) * (2 ^ 64 - 1) := Nat.mul_le_mul (by omega) (by omega)
    norm_num at h ⊢
    omega

/-- Claim C8.  For all 64-bit unsigned `a` and `b`, the halves of
`uint128(a) * uint128(b)` satisfy `high * 2^64 + low = a * b`, both halves are 64-bit
words, the product is below `2^128`, and it equals the sum of the four limb products of
the 32-bit limbs of `a` and `b`, each at its weight. -/
theorem uint128_mul_exact (a b : Nat) (ha : a < 2 ^ 64) (hb : b < 2 ^ 64) :
    toNat (mul (ofWord a) (ofWord b)) = a * b ∧
    (mul (ofWord a) (ofWord b)).high < 2 ^ 64 ∧ (mul (ofWord a) (ofWord b)).low < 2 ^ 64 ∧
    a * b < 2 ^ 128 ∧
    toNat (mul (ofWord a) (ofWord b)) =
      (a / 2 ^ 32) * (b / 2 ^ 32) * 2 ^ 64
        + ((a / 2 ^ 32) * (b % 2 ^ 32) + (a % 2 ^ 32) * (b / 2 ^ 32)) * 2 ^ 32
        + (a % 2 ^ 32) * (b % 2 ^ 32) := by
  have h := uint128_mul_high_low a b ha hb
  have l := limb_product a b ha hb
  refine ⟨h, ?_, ?_, l.2, ?_⟩
  · simp only [mul, add]
    exact Nat.mod_lt _ (by norm_num)
  · simp only [mul, add]
    exact Nat.mod_lt _ (by norm_num)
  · unfold uint128.toNat
    rw [h]
    exact l.1

/-- Witness for claim C8 at `a = 2^64 - 1`, `b = 2^64 - 1`. -/
theorem uint128_mul_exact_witness :
    (18446744073709551615 < 2 ^ 64 ∧ 18446744073709551615 < 2 ^ 64) ∧
    (toNat (mul (ofWord 18446744073709551615) (ofWord 18446744073709551615))
        = 18446744073709551615 * 18446744073709551615 ∧
      (mul (ofWord 18446744073709551615) (ofWord 18446744073709551615)).high < 2 ^ 64 ∧
      (mul (ofWord 18446744073709551615) (ofWord 18446744073709551615)).low < 2 ^ 64 ∧
      18446744073709551615 * 18446744073709551615 < 2 ^ 128 ∧
      toNat (mul (ofWord 18446744073709551615) (ofWord 18446744073709551615)) =
        (18446744073709551615 / 2 ^ 32) * (18446744073709551615 / 2 ^ 32) * 2 ^ 64
          + ((18446744073709551615 / 2 ^ 32) * (18446744073709551615 % 2 ^ 32)
              + (18446744073709551615 % 2 ^ 32) * (18446744073709551615 / 2 ^ 32)) * 2 ^ 32
          + (18446744073709551615 % 2 ^ 32) * (18446744073709551615 % 2 ^ 32)) :=
  ⟨⟨by norm_num, by norm_num⟩,
    uint128_mul_exact 18446744073709551615 18446744073709551615 (by norm_num) (by norm_num)⟩

end Uint128Theorems

/-! ## Theorems: `philox_engine` -/

section PhiloxTheorems
open stdmock stdmock.philox_engine

/-- The mask `max()` is `2^w - 1` whenever `w` fits the result type. -/
theorem philox_max_eq (p : PhiloxParams) (h : p.w ≤ p.digits) :
    philox_engine.max p = 2 ^ p.w - 1 := by
  unfold philox_engine.max
  rw [Nat.shiftRight_eq_div_pow]
  obtain ⟨k, hk⟩ := Nat.exists_eq_add_of_le h
  have hB : 0 < 2 ^ k := Nat.pos_of_ne_zero (by positivity)
  have hA : 0 < 2 ^ p.w := Nat.pos_of_ne_zero (by positivity)
  rw [hk, Nat.add_sub_cancel_left, pow_add]
  apply Nat.div_eq_of_lt_le
  · have : (2 ^ p.w - 1) * 2 ^ k = 2 ^ p.w * 2 ^ k - 2 ^ k := by
      rw [Nat.sub_mul, one_mul]
    rw [this]
    omega
  · have : 2 ^ p.w - 1 + 1 = 2 ^ p.w := by omega
    rw [this]
    have : 0 < 2 ^ p.w * 2 ^ k := Nat.mul_pos hA hB
    omega

/-- Discarding `a + b` values is discarding `a` and then `b`. -/
theorem philox_discard_add (p : PhiloxParams) (Fix : Bool) (a b : Nat) (e : philox_engine) :
    discard p Fix (a + b) e = discard p Fix b (discard p Fix a e) := by
  induction a generalizing e with
  | zero => simp [philox_engine.discard]
  | succ a ih =>
    rw [Nat.add_right_comm]
    simp only [philox_engine.discard]
    exact ih _

/-- Four calls from a block boundary of a four-word engine: one block is generated from
the counter `m`, the counter becomes `m + 1`, and the cursor is back at 3. -/
theorem philox_discard_four (p : PhiloxParams) (Fix : Bool) (hn : p.n = 4)
    (hw : p.w ≤ p.digits) (m : Nat) (hm : m + 1 < 2 ^ p.w) (K Y : List Nat) :
    discard p Fix 4 ⟨[m, 0, 0, 0], K, Y, 3⟩ =
      ⟨[m + 1, 0, 0, 0], K, (generate p Fix ⟨[m, 0, 0, 0], K, Y, 4⟩).Y, 3⟩ := by
  have hmask : ((m + 1) % 2 ^ p.digits) &&& philox_engine.max p = m + 1 := by
    rw [philox_max_eq p hw, Nat.and_pow_two_sub_one_eq_mod]
    have : 2 ^ p.w ≤ 2 ^ p.digits := Nat.pow_le_pow_right (by norm_num) hw
    have h1 : (m + 1) % 2 ^ p.digits = m + 1 := Nat.mod_eq_of_lt (by omega)
    rw [h1, Nat.mod_eq_of_lt hm]
  have hgen : ∀ e : philox_engine, (generate p Fix e).X = e.X ∧ (generate p Fix e).K = e.K := by
    intro e
    unfold generate
    simp [hn]
  have hX := (hgen ⟨[m, 0, 0, 0], K, Y, 4⟩).1
  have hK := (hgen ⟨[m, 0, 0, 0], K, Y, 4⟩).2
  simp only [philox_engine.discard, next, hn]
  have : (if Fix = true then 1 else 0) ≠ 0 ↔ Fix = true := by cases Fix <;> simp
  simp [increase_counter, increase_counter_loop, hn, hX, hK, hmask, this]

/-- Block generation keeps the length of `Y`. -/
theorem philox_generate_Y_length (p : PhiloxParams) (Fix : Bool) (e : philox_engine) :
    (generate p Fix e).Y.length = e.Y.length := by
  unfold generate
  split
  · simp
  · split <;> simp

/-- The key of a freshly constructed four-word engine. -/
theorem philox_init_K (p : PhiloxParams) (hn : p.n = 4) (hw : p.w ≤ p.digits) (value : Nat) :
    (init p value).K = [value % 2 ^ p.w, 0] := by
  simp only [init, hn, philox_max_eq p hw, Nat.and_pow_two_sub_one_eq_mod]
  rw [Nat.mod_mod_of_dvd _ (pow_dvd_pow 2 hw)]
  rfl

/-- After `4 * m` calls a freshly constructed four-word engine stands at a block boundary
with counter value `m` and its key unchanged. -/
theorem philox_discard_blocks (p : PhiloxParams) (Fix : Bool) (hn : p.n = 4)
    (hw : p.w ≤ p.digits) (value m : Nat) (hm : m < 2 ^ p.w) :
    ∃ Y, Y.length = 4 ∧
      discard p Fix (4 * m) (init p value) = ⟨[m, 0, 0, 0], [value % 2 ^ p.w, 0], Y, 3⟩ := by
  induction m with
  | zero =>
    refine ⟨[0, 0, 0, 0], rfl, ?_⟩
    have hK := philox_init_K p hn hw value
    simp only [Nat.mul_zero, philox_engine.discard]
    rw [← hK]
    simp [init, hn, List.replicate]
  | succ m ih =>
    obtain ⟨Y, hY, h⟩ := ih (by omega)
    refine ⟨(generate p Fix ⟨[m, 0, 0, 0], [value % 2 ^ p.w, 0], Y, 4⟩).Y, ?_, ?_⟩
    · rw [philox_generate_Y_length]; exact hY
    · rw [Nat.mul_succ, philox_discard_add, h, philox_discard_four p Fix hn hw m hm]

/-- The word returned by the fourth call after a block boundary is word 3 of the block
that the first of the four calls generated. -/
theorem philox_next_after_three (p : PhiloxParams) (Fix : Bool) (V : Nat) (hn : p.n = 4)
    (X K Y : List Nat) (hY : Y.length = 4) :
    (next p V (discard p Fix 3 ⟨X, K, Y, 3⟩)).2 =
      (rounds4 p Fix p.r
        (X.getD 0 0, X.getD 1 0, X.getD 2 0, X.getD 3 0, K.getD 0 0, K.getD 1 0)).2.2.2.1 := by
  match Y, hY with
  | [a, b, c, d], _ =>
    have : (if Fix = true then 1 else 0) ≠ 0 ↔ Fix = true := by cases Fix <;> simp
    simp [philox_engine.discard, next, hn, generate, increase_counter, this]

/-- The 10000th value of a default-seeded four-word engine whose first 9999 values were
drawn by `discard<Fix>`: word 3 of the block for counter 2499. -/
theorem philox_ten_thousandth (p : PhiloxParams) (Fix : Bool) (hn : p.n = 4)
    (hw : p.w ≤ p.digits) (hbig : 2499 < 2 ^ p.w) :
    (next p 1 (discard p Fix 9999 (init p default_seed))).2 =
      (rounds4 p Fix p.r (2499, 0, 0, 0, default_seed % 2 ^ p.w, 0)).2.2.2.1 := by
  obtain ⟨Y, hY, h⟩ := philox_discard_blocks p Fix hn hw default_seed 2499 hbig
  have e : (9999 : Nat) = 4 * 2499 + 3 := by norm_num
  rw [e, philox_discard_add, h, philox_next_after_three p Fix 1 hn _ _ _ hY]
  rfl

set_option maxRecDepth 100000 in
/-- Claim C1.  A default-constructed `philox4x32` engine (seed 20111115) advanced by
`discard<true>(9999)` returns 1955073260 on the next call of `operator()`, whether
`std::uint_fast32_t` has 32 or 64 bits. -/
theorem philox4x32_reference_vector :
    (next (philox4x32 32) 1
        (discard (philox4x32 32) true 9999 (init (philox4x32 32) default_seed))).2
      = 1955073260 ∧
    (next (philox4x32 64) 1
        (discard (philox4x32 64) true 9999 (init (philox4x32 64) default_seed))).2
      = 1955073260 := by
  constructor
  · rw [philox_ten_thousandth (philox4x32 32) true rfl (by decide) (by norm_num [philox4x32])]
    decide
  · rw [philox_ten_thousandth (philox4x32 64) true rfl (by decide) (by norm_num [philox4x32])]
    decide

set_option maxRecDepth 100000 in
/-- Claim C2.  A default-constructed `philox4x64` engine advanced by
`discard<true>(9999)` returns 3409172418970261260 on the next call of `operator()`, and
for this preset `mulhilo` forms every product through `uint128`. -/
theorem philox4x64_reference_vector :
    (next philox4x64 1 (discard philox4x64 true 9999 (init philox4x64 default_seed))).2
      = 3409172418970261260 ∧
    ∀ a b : Nat, mulhilo philox4x64 a b =
      ((uint128.toWord (uint128.shr (uint128.mul (uint128.ofWord a) (uint128.ofWord b)) 64))
          % 2 ^ 64,
        ((uint128.toWord (uint128.mul (uint128.ofWord a) (uint128.ofWord b))) % 2 ^ 64)
          &&& philox_engine.max philox4x64) := by
  constructor
  · rw [philox_ten_thousandth philox4x64 true rfl (by decide) (by norm_num [philox4x64])]
    decide
  · intro a b
    rfl

set_option maxRecDepth 100000 in
/-- Claim C3.  With the default (literal) template argument of `discard`, a
default-constructed `philox4x32` advanced by `discard(9999)` returns 1026757194, not
1955073260, on the next call of `operator()`, and a default-constructed `philox4x64`
returns 3358228250572627870, not 3409172418970261260. -/
theorem philox_literal_misses_reference :
    ((next (philox4x32 32) 1
        (discard (philox4x32 32) false 9999 (init (philox4x32 32) default_seed))).2
      = 1026757194 ∧
     (next (philox4x32 64) 1
        (discard (philox4x32 64) false 9999 (init (philox4x32 64) default_seed))).2
      = 1026757194 ∧
     (next philox4x64 1 (discard philox4x64 false 9999 (init philox4x64 default_seed))).2
      = 3358228250572627870) ∧
    (next (philox4x32 32) 1
        (discard (philox4x32 32) false 9999 (init (philox4x32 32) default_seed))).2
      ≠ 1955073260 ∧
    (next (philox4x32 64) 1
        (discard (philox4x32 64) false 9999 (init (philox4x32 64) default_seed))).2
      ≠ 1955073260 ∧
    (next philox4x64 1 (discard philox4x64 false 9999 (init philox4x64 default_seed))).2
      ≠ 3409172418970261260 := by
  have h1 : (next (philox4x32 32) 1
      (discard (philox4x32 32) false 9999 (init (philox4x32 32) default_seed))).2
      = 1026757194 := by
    rw [philox_ten_thousandth (philox4x32 32) false rfl (by decide) (by norm_num [philox4x32])]
    decide
  have h2 : (next (philox4x32 64) 1
      (discard (philox4x32 64) false 9999 (init (philox4x32 64) default_seed))).2
      = 1026757194 := by
    rw [philox_ten_thousandth (philox4x32 64) false rfl (by decide) (by norm_num [philox4x32])]
    decide
  have h3 : (next philox4x64 1
      (discard philox4x64 false 9999 (init philox4x64 default_seed))).2
      = 3358228250572627870 := by
    rw [philox_ten_thousandth philox4x64 false rfl (by decide) (by norm_num [philox4x64])]
    decide
  refine ⟨⟨h1, h2, h3⟩, ?_, ?_, ?_⟩
  · rw [h1]; decide
  · rw [h2]; decide
  · rw [h3]; decide

set_option maxRecDepth 100000 in
/-- Claim C7 (evaluation at the failing input).  For a default-constructed `philox4x32`,
`discard(1)` and one call of `operator()()`, each with its default template argument,
leave different states: the counter, key and cursor agree but the blocks `Y` differ,
and so does the value returned by the next call. -/
theorem philox_default_discard_differs :
    discard (philox4x32 64) false 1 (init (philox4x32 64) default_seed)
      = ⟨[1, 0, 0, 0], [20111115, 0], [4014627440, 3081231963, 256805425, 3818523247], 0⟩ ∧
    nextTimes (philox4x32 64) 1 (init (philox4x32 64) default_seed)
      = ⟨[1, 0, 0, 0], [20111115, 0], [3587538684, 1324224816, 3068087177, 2030706281], 0⟩ ∧
    equal (discard (philox4x32 64) false 1 (init (philox4x32 64) default_seed))
      (nextTimes (philox4x32 64) 1 (init (philox4x32 64) default_seed)) = false ∧
    (next (philox4x32 64) 1
        (discard (philox4x32 64) false 1 (init (philox4x32 64) default_seed))).2 = 3081231963 ∧
    (next (philox4x32 64) 1
        (nextTimes (philox4x32 64) 1 (init (philox4x32 64) default_seed))).2 = 1324224816 := by
  decide

/-- For a word count other than 2 and 4 the body of `generate` is empty. -/
theorem philox_generate_other (p : PhiloxParams) (Fix : Bool) (e : philox_engine)
    (h2 : p.n ≠ 2) (h4 : p.n ≠ 4) : generate p Fix e = e := by
  unfold generate
  simp [h2, h4]

/-- For a word count other than 2 and 4 no call ever changes `Y`. -/
theorem philox_Y_unwritten (p : PhiloxParams) (Fix : Bool) (h2 : p.n ≠ 2) (h4 : p.n ≠ 4)
    (z : Nat) (e : philox_engine) : (discard p Fix z e).Y = e.Y := by
  induction z generalizing e with
  | zero => rfl
  | succ z ih =>
    simp only [philox_engine.discard]
    rw [ih]
    simp only [next]
    split
    · simp only [increase_counter]
      rw [philox_generate_other p _ _ h2 h4]
    · rfl

/-- Claim C10 (evaluation at the failing input).  The eight-word configuration
`philox8x32` passes every `static_assert`, `generate` leaves every state unchanged, so
`Y` keeps its initial zeros under any number of calls and the engine returns 0. -/
theorem philox_eight_words_unwritten :
    accepted (philox8x32 64) = true ∧
    (∀ (Fix : Bool) (e : philox_engine), generate (philox8x32 64) Fix e = e) ∧
    (∀ (Fix : Bool) (z : Nat),
      (discard (philox8x32 64) Fix z (init (philox8x32 64) default_seed)).Y
        = [0, 0, 0, 0, 0, 0, 0, 0]) ∧
    (next (philox8x32 64) 1 (init (philox8x32 64) default_seed)).2 = 0 := by
  refine ⟨by decide, ?_, ?_, by decide⟩
  · intro Fix e
    exact philox_generate_other _ Fix e (by decide) (by decide)
  · intro Fix z
    rw [philox_Y_unwritten _ Fix (by decide) (by decide)]
    rfl

end PhiloxTheorems

/-! ## Theorems: `subtract_with_carry_engine` -/

section SwcTheorems
open stdfix stdfix.subtract_with_carry_engine

theorem swc_pow_digits_lb (D : Nat) (hD : 32 ≤ D) : 2 ^ 32 ≤ 2 ^ D :=
  Nat.pow_le_pow_right (by norm_num) hD

theorem swc_uadd_small (p : SwcParams) (a b : Nat) (h : a + b < 2 ^ p.digits) :
    uadd p a b = a + b := by
  unfold uadd; exact Nat.mod_eq_of_lt h

theorem swc_usub_le (p : SwcParams) (a b : Nat) (hb : b ≤ a) (ha : a < 2 ^ p.digits) :
    usub p a b = a - b := by
  unfold usub
  have : a + 2 ^ p.digits - b = (a - b) + 2 ^ p.digits := by omega
  rw [this, Nat.add_mod_right, Nat.mod_eq_of_lt (by omega)]

theorem swc_modulus_test (D : Nat) (hD : 32 ≤ D) : modulus (testEngine D) = 65536 := by
  have := swc_pow_digits_lb D hD
  simp only [modulus, testEngine]
  apply Nat.mod_eq_of_lt
  omega

theorem swc_forward_test (D : Nat) (hD : 32 ≤ D) (x : List Nat) (i cy a c : Nat)
    (hi : i < x.length) (hA : x.getD i 0 = a) (hC : x.getD (shortIndex (testEngine D) i) 0 = c)
    (ha : a < 65536) (hc : c < 65536) (hcy : cy ≤ 1) :
    forward (testEngine D) ⟨x, i, cy⟩ =
      (⟨x.set i (stepW a c cy).1, if i = 3 then 0 else i + 1, (stepW a c cy).2⟩,
        (stepW a c cy).1) := by
  have h2 := swc_pow_digits_lb D hD
  have hm := swc_modulus_test D hD
  have hdig : (testEngine D).digits = D := rfl
  have hr : (testEngine D).r = 4 := rfl
  have e1 : uadd (testEngine D) a cy = a + cy := swc_uadd_small _ _ _ (by rw [hdig]; omega)
  have hget : ∀ v, (x.set i v).getD i 0 = v := by
    intro v
    simp [List.getD_eq_getElem?_getD, List.getElem?_set, hi]
  unfold forward stepW
  simp only [hA, hC, e1, hm, hr]
  by_cases h : c ≥ a + cy
  · have e2 : usub (testEngine D) c (a + cy) = c - (a + cy) :=
      swc_usub_le _ _ _ h (by rw [hdig]; omega)
    simp only [h, e2, if_true, hget]
  · have e2 : usub (testEngine D) 65536 (a + cy) = 65536 - (a + cy) :=
      swc_usub_le _ _ _ (by omega) (by rw [hdig]; omega)
    have e3 : uadd (testEngine D) (65536 - (a + cy)) c = 65536 + c - (a + cy) := by
      rw [swc_uadd_small _ _ _ (by rw [hdig]; omega)]; omega
    simp only [h, e2, e3, if_false, hget]

theorem swc_uadd_usub_test (D : Nat) (hD : 32 ≤ D) (u v : Nat) (hu : u ≤ 65536) (hv : v < 65536) :
    uadd (testEngine D) (usub (testEngine D) 65536 u) v = 65536 + v - u := by
  have h2 := swc_pow_digits_lb D hD
  have hdig : (testEngine D).digits = D := rfl
  rw [swc_usub_le _ _ _ hu (by rw [hdig]; omega), swc_uadd_small _ _ _ (by rw [hdig]; omega)]
  omega

theorem swc_ite_usub_test (D : Nat) (hD : 32 ≤ D) (u v t : Nat) (hv : v < 65536) :
    (if u > v then t else usub (testEngine D) v u) = if u > v then t else v - u := by
  have h2 := swc_pow_digits_lb D hD
  have hdig : (testEngine D).digits = D := rfl
  split
  · rfl
  · exact swc_usub_le _ _ _ (by omega) (by rw [hdig]; omega)

theorem swc_usub_test (D : Nat) (hD : 32 ≤ D) (t c : Nat) (hc : c ≤ t) (ht : t ≤ 131072) :
    usub (testEngine D) t c = t - c := by
  have h2 := swc_pow_digits_lb D hD
  have hdig : (testEngine D).digits = D := rfl
  exact swc_usub_le _ _ _ hc (by rw [hdig]; omega)

theorem swc_tp_test (D : Nat) (hD : 32 ≤ D) (u v : Nat) (hu : u < 65536) (hv : v < 65536) :
    (if u > v then uadd (testEngine D) (usub (testEngine D) 65536 u) v
      else usub (testEngine D) v u) = if u > v then 65536 + v - u else v - u := by
  rw [swc_uadd_usub_test D hD u v (by omega) hv, swc_ite_usub_test D hD u v _ hv]

theorem swc_tp_zero_iff (u v : Nat) (hu : u < 65536) (hv : v < 65536) :
    (if u > v then 65536 + v - u else v - u) = 0 ↔ u = v := by
  split <;> omega

/-- The carry that the disambiguation walk of the backward step infers, for the test
engine and words in range. -/
theorem swc_walk_carry (D : Nat) (hD : 32 ≤ D) (a b c d i : Nat)
    (ha : a < 65536) (hb : b < 65536) (hc : c < 65536) (hd : d < 65536) (hi : i < 4) :
    (if [a, b, c, d].getD (walk (testEngine D) [a, b, c, d] i 4 i).2 0
          ≥ (walk (testEngine D) [a, b, c, d] i 4 i).1 then 0 else 1) =
      if [a, b, c, d].getD ((i + 3) % 4) 0 > [a, b, c, d].getD ((i + 1) % 4) 0 ∨
          ([a, b, c, d].getD ((i + 3) % 4) 0 = [a, b, c, d].getD ((i + 1) % 4) 0 ∧
            [a, b, c, d].getD ((i + 2) % 4) 0 > [a, b, c, d].getD i 0) then 1 else 0 := by
  have hm := swc_modulus_test D hD
  have hr : (testEngine D).r = 4 := rfl
  have hs : (testEngine D).s = 2 := rfl
  have t1 := swc_tp_test D hD
  have t2 := swc_tp_zero_iff
  interval_cases i
  all_goals
    simp only [walk, shortIndex, hm, hr, hs]
    simp only [List.getD_cons_zero, List.getD_cons_succ, Nat.reduceSub, Nat.reduceAdd,
      Nat.reduceLT, Nat.reduceEqDiff, reduceIte, OfNat.ofNat_ne_zero, OfNat.zero_ne_ofNat,
      one_ne_zero, ne_eq, not_true_eq_false, not_false_eq_true, and_true, and_false,
      Nat.lt_irrefl, Nat.reduceLeDiff, zero_lt_two, Nat.one_lt_ofNat, Nat.not_ofNat_lt_one,
      Nat.succ_ne_zero, Nat.reduceMod, t1 _ _ ha hb, t1 _ _ ha hc, t1 _ _ ha hd,
      t1 _ _ hb ha, t1 _ _ hb hc, t1 _ _ hb hd, t1 _ _ hc ha, t1 _ _ hc hb, t1 _ _ hc hd,
      t1 _ _ hd ha, t1 _ _ hd hb, t1 _ _ hd hc]
    simp only [t2 _ _ ha hb, t2 _ _ ha hc, t2 _ _ ha hd,
      t2 _ _ hb ha, t2 _ _ hb hc, t2 _ _ hb hd, t2 _ _ hc ha, t2 _ _ hc hb, t2 _ _ hc hd,
      t2 _ _ hd ha, t2 _ _ hd hb, t2 _ _ hd hc]
    split_ifs <;> (try dsimp only at *) <;>
      (try simp only [List.getD_cons_zero, List.getD_cons_succ] at *) <;> omega

theorem swc_stepW_spec (a s cy : Nat) (ha : a < 65536) (hs : s < 65536) (hcy : cy ≤ 1) :
    (stepW a s cy).1 < 65536 ∧ (stepW a s cy).2 ≤ 1 ∧
      (stepW a s cy).1 + a + cy = s + 65536 * (stepW a s cy).2 := by
  unfold stepW
  split <;> simp <;> omega

theorem swc_getD_lt (a b c d : Nat) (ha : a < 65536) (hb : b < 65536) (hc : c < 65536)
    (hd : d < 65536) (j : Nat) : [a, b, c, d].getD j 0 < 65536 := by
  rcases j with _ | _ | _ | _ | j <;> simp <;> assumption

theorem swc_temp_eq (D : Nat) (hD : 32 ≤ D) (n s a cy k : Nat) (heq : n + a + cy = s + 65536 * k)
    (hk : k ≤ 1) (hn : n < 65536) (hs : s < 65536) (ha : a < 65536) (hcy : cy ≤ 1) :
    (if ¬k = 0 then uadd (testEngine D) (usub (testEngine D) 65536 n) s
      else usub (testEngine D) s n) = a + cy := by
  by_cases hk0 : k = 0
  · rw [if_neg (by simpa using hk0), swc_usub_test D hD s n (by omega) (by omega)]; omega
  · rw [if_pos hk0, swc_uadd_usub_test D hD n s (by omega) hs]; omega

theorem swc_backward_forward (D : Nat) (hD : 32 ≤ D) (a b c d i cy : Nat)
    (ha : a < 65536) (hb : b < 65536) (hc : c < 65536) (hd : d < 65536) (hi : i < 4)
    (hcy : cy ≤ 1) (hper : PerAt a b c d i cy) :
    (backward (testEngine D) (forward (testEngine D) ⟨[a, b, c, d], i, cy⟩).1).1
      = ⟨[a, b, c, d], i, cy⟩ := by
  have hm := swc_modulus_test D hD
  have hr : (testEngine D).r = 4 := rfl
  have hs : (testEngine D).s = 2 := rfl
  have hall := swc_getD_lt a b c d ha hb hc hd
  rw [swc_forward_test D hD [a, b, c, d] i cy _ _ (by simpa using hi) rfl rfl (hall _) (hall _) hcy]
  obtain ⟨hn, hk, heq⟩ := swc_stepW_spec _ _ cy (hall i) (hall (shortIndex (testEngine D) i)) hcy
  generalize (stepW ([a, b, c, d].getD i 0)
    ([a, b, c, d].getD (shortIndex (testEngine D) i) 0) cy).1 = n at *
  generalize (stepW ([a, b, c, d].getD i 0)
    ([a, b, c, d].getD (shortIndex (testEngine D) i) 0) cy).2 = k at *
  unfold PerAt PerW at hper
  interval_cases i
  all_goals
    simp only [shortIndex, hs, hr, List.getD_cons_zero, List.getD_cons_succ, Nat.reduceSub,
      Nat.reduceAdd, Nat.reduceLT, reduceIte, Nat.reduceMod, Nat.lt_irrefl, zero_lt_two,
      List.set_cons_zero, List.set_cons_succ, Nat.not_ofNat_lt_one, Nat.one_lt_ofNat]
      at heq hper ⊢
    simp only [backward, shortIndex, hm, hr, hs]
    simp only [List.getD_cons_zero, List.getD_cons_succ, Nat.reduceSub, Nat.reduceAdd,
      Nat.reduceLT, Nat.reduceEqDiff, reduceIte, OfNat.ofNat_ne_zero, OfNat.zero_ne_ofNat,
      one_ne_zero, ne_eq, not_true_eq_false, not_false_eq_true, and_true, and_false,
      Nat.lt_irrefl, Nat.reduceLeDiff, zero_lt_two, Nat.one_lt_ofNat, Nat.not_ofNat_lt_one,
      Nat.succ_ne_zero, Nat.reduceMod, List.set_cons_zero, List.set_cons_succ]
    rw [swc_walk_carry D hD _ _ _ _ _ (by assumption) (by assumption) (by assumption)
      (by assumption) (by norm_num)]
    rw [swc_temp_eq D hD _ _ _ _ _ heq hk (by assumption) (by assumption) (by assumption) hcy]
    simp only [List.getD_cons_zero, List.getD_cons_succ, Nat.reduceAdd, Nat.reduceMod]
    split_ifs <;> rw [swc_usub_test D hD] <;>
      first
        | omega
        | (simp only [subtract_with_carry_engine.mk.injEq, List.cons.injEq, and_true,
            true_and]
           omega)

theorem swc_good_forward (D : Nat) (hD : 32 ≤ D) (e : subtract_with_carry_engine) (h : Good e) :
    Good (forward (testEngine D) e).1 := by
  obtain ⟨a, b, c, d, hx, ha, hb, hc, hd, hi, hcy, hper⟩ := h
  obtain ⟨x, i, cy⟩ := e
  simp only at hx hi hcy hper
  subst hx
  have hs : (testEngine D).s = 2 := rfl
  have hr : (testEngine D).r = 4 := rfl
  have hall := swc_getD_lt a b c d ha hb hc hd
  rw [swc_forward_test D hD [a, b, c, d] i cy _ _ (by simpa using hi) rfl rfl (hall _) (hall _) hcy]
  obtain ⟨hn, hk, heq⟩ := swc_stepW_spec _ _ cy (hall i) (hall (shortIndex (testEngine D) i)) hcy
  generalize (stepW ([a, b, c, d].getD i 0)
    ([a, b, c, d].getD (shortIndex (testEngine D) i) 0) cy).1 = n at *
  generalize (stepW ([a, b, c, d].getD i 0)
    ([a, b, c, d].getD (shortIndex (testEngine D) i) 0) cy).2 = k at *
  unfold PerAt PerW at hper
  unfold Good PerAt PerW
  interval_cases i
  all_goals
    simp only [shortIndex, hs, hr, List.getD_cons_zero, List.getD_cons_succ, Nat.reduceSub,
      Nat.reduceAdd, Nat.reduceLT, reduceIte, Nat.reduceMod, Nat.lt_irrefl, zero_lt_two,
      List.set_cons_zero, List.set_cons_succ, Nat.not_ofNat_lt_one, Nat.one_lt_ofNat,
      Nat.reduceEqDiff, OfNat.ofNat_ne_zero, one_ne_zero]
      at heq hper ⊢
    refine ⟨_, _, _, _, rfl, ?_⟩
    try simp only [List.getD_cons_zero, List.getD_cons_succ, Nat.reduceMod, Nat.reduceAdd]
    simp only [true_and]
    omega

theorem swc_good_backward_forward (D : Nat) (hD : 32 ≤ D) (e : subtract_with_carry_engine)
    (h : Good e) : (backward (testEngine D) (forward (testEngine D) e).1).1 = e := by
  obtain ⟨a, b, c, d, hx, ha, hb, hc, hd, hi, hcy, hper⟩ := h
  obtain ⟨x, i, cy⟩ := e
  simp only at hx hi hcy hper
  subst hx
  exact swc_backward_forward D hD a b c d i cy ha hb hc hd hi hcy hper

theorem swc_discard_add (p : SwcParams) (m n : Nat) (e : subtract_with_carry_engine) :
    discard p (m + n) e = discard p n (discard p m e) := by
  induction m generalizing e with
  | zero => simp [subtract_with_carry_engine.discard]
  | succ m ih =>
    rw [Nat.add_right_comm]
    simp only [subtract_with_carry_engine.discard]
    exact ih _

theorem swc_discard_succ_last (p : SwcParams) (n : Nat) (e : subtract_with_carry_engine) :
    discard p (n + 1) e = (forward p (discard p n e)).1 := by
  rw [swc_discard_add]
  rfl

theorem swc_good_discard (D : Nat) (hD : 32 ≤ D) (n : Nat) (e : subtract_with_carry_engine)
    (h : Good e) : Good (discard (testEngine D) n e) := by
  induction n generalizing e with
  | zero => exact h
  | succ n ih => exact ih _ (swc_good_forward D hD e h)

theorem swc_rewind_discard (D : Nat) (hD : 32 ≤ D) (n : Nat) (e : subtract_with_carry_engine)
    (h : Good e) : rewind (testEngine D) n (discard (testEngine D) n e) = e := by
  induction n with
  | zero => rfl
  | succ n ih =>
    rw [swc_discard_succ_last]
    simp only [rewind]
    rw [swc_good_backward_forward D hD _ (swc_good_discard D hD n e h)]
    exact ih

theorem swc_four_steps (D : Nat) (hD : 32 ≤ D) (y0 y1 y2 y3 k0 : Nat)
    (h0 : y0 < 65536) (h1 : y1 < 65536) (h2 : y2 < 65536) (h3 : y3 < 65536) (hk : k0 ≤ 1) :
    ∃ y4 y5 y6 y7 k1 k2 k3 k4,
      discard (testEngine D) 4 ⟨[y0, y1, y2, y3], 0, k0⟩ = ⟨[y4, y5, y6, y7], 0, k4⟩ ∧
      y4 < 65536 ∧ y5 < 65536 ∧ y6 < 65536 ∧ y7 < 65536 ∧ k4 ≤ 1 ∧
      y4 + y0 + k0 = y2 + 65536 * k1 ∧ y5 + y1 + k1 = y3 + 65536 * k2 ∧
      y6 + y2 + k2 = y4 + 65536 * k3 ∧ y7 + y3 + k3 = y5 + 65536 * k4 := by
  obtain ⟨a1, b1, e1⟩ := swc_stepW_spec y0 y2 k0 h0 h2 hk
  have f1 := swc_forward_test D hD [y0, y1, y2, y3] 0 k0 y0 y2 (by simp) rfl rfl h0 h2 hk
  generalize (stepW y0 y2 k0).1 = y4 at *
  generalize (stepW y0 y2 k0).2 = k1 at *
  obtain ⟨a2, b2, e2⟩ := swc_stepW_spec y1 y3 k1 h1 h3 b1
  have f2 := swc_forward_test D hD [y4, y1, y2, y3] 1 k1 y1 y3 (by simp) rfl rfl h1 h3 b1
  generalize (stepW y1 y3 k1).1 = y5 at *
  generalize (stepW y1 y3 k1).2 = k2 at *
  obtain ⟨a3, b3, e3⟩ := swc_stepW_spec y2 y4 k2 h2 a1 b2
  have f3 := swc_forward_test D hD [y4, y5, y2, y3] 2 k2 y2 y4 (by simp) rfl rfl h2 a1 b2
  generalize (stepW y2 y4 k2).1 = y6 at *
  generalize (stepW y2 y4 k2).2 = k3 at *
  obtain ⟨a4, b4, e4⟩ := swc_stepW_spec y3 y5 k3 h3 a2 b3
  have f4 := swc_forward_test D hD [y4, y5, y6, y3] 3 k3 y3 y5 (by simp) rfl rfl h3 a2 b3
  generalize (stepW y3 y5 k3).1 = y7 at *
  generalize (stepW y3 y5 k3).2 = k4 at *
  refine ⟨y4, y5, y6, y7, k1, k2, k3, k4, ?_, a1, a2, a3, a4, b4, e1, e2, e3, e4⟩
  simp only [List.set_cons_zero, List.set_cons_succ, Nat.reduceEqDiff, reduceIte,
    Nat.reduceAdd, OfNat.zero_ne_ofNat, OfNat.one_ne_ofNat] at f1 f2 f3 f4
  simp only [subtract_with_carry_engine.discard, f1, f2, f3, f4]

theorem swc_NW_range (y0 y1 y2 y3 c : Nat) (h0 : y0 < 65536) (h1 : y1 < 65536) (h2 : y2 < 65536)
    (h3 : y3 < 65536) (h : PerW y0 y1 y2 y3 c) :
    -18446744069414584321 ≤ NW y0 y1 y2 y3 c ∧ NW y0 y1 y2 y3 c ≤ 0 := by
  unfold PerW at h
  unfold NW
  norm_num
  omega

theorem swc_NW_inj (y0 y1 y2 y3 c z0 z1 z2 z3 d : Nat) (h0 : y0 < 65536) (h1 : y1 < 65536)
    (h2 : y2 < 65536) (h3 : y3 < 65536) (hc : c ≤ 1)
    (g0 : z0 < 65536) (g1 : z1 < 65536) (g2 : z2 < 65536) (g3 : z3 < 65536) (hd : d ≤ 1)
    (h : NW y0 y1 y2 y3 c = NW z0 z1 z2 z3 d) :
    y0 = z0 ∧ y1 = z1 ∧ y2 = z2 ∧ y3 = z3 ∧ c = d := by
  unfold NW at h
  norm_num at h
  omega

theorem swc_NW_step (y0 y1 y2 y3 y4 c c1 : Nat) (h : y4 + y0 + c = y2 + 65536 * c1) :
    NW y0 y1 y2 y3 c = 65536 * NW y1 y2 y3 y4 c1 + 18446744069414584321 * y0 := by
  unfold NW
  norm_num
  omega

theorem swc_NW_twelve (N0 N12 Y : Int) (h : N0 = 65536 ^ 12 * N12 + 18446744069414584321 * Y)
    (a0 : -18446744069414584321 ≤ N0) (b0 : N0 ≤ 0)
    (a12 : -18446744069414584321 ≤ N12) (b12 : N12 ≤ 0)
    (hY0 : 0 ≤ Y) (hY1 : Y < 65536 ^ 12) : N0 = N12 := by
  norm_num at h hY1
  omega

theorem swc_period_core (y0 y1 y2 y3 y4 y5 y6 y7 y8 y9 y10 y11 y12 y13 y14 y15 : Nat)
    (k0 k1 k2 k3 k4 k5 k6 k7 k8 k9 k10 k11 k12 : Nat)
    (b0 : y0 < 65536) (b1 : y1 < 65536) (b2 : y2 < 65536) (b3 : y3 < 65536)
    (b4 : y4 < 65536) (b5 : y5 < 65536) (b6 : y6 < 65536) (b7 : y7 < 65536)
    (b8 : y8 < 65536) (b9 : y9 < 65536) (b10 : y10 < 65536) (b11 : y11 < 65536)
    (b12 : y12 < 65536) (b13 : y13 < 65536) (b14 : y14 < 65536) (b15 : y15 < 65536)
    (c0 : k0 ≤ 1) (c12 : k12 ≤ 1)
    (e4 : y4 + y0 + k0 = y2 + 65536 * k1) (e5 : y5 + y1 + k1 = y3 + 65536 * k2)
    (e6 : y6 + y2 + k2 = y4 + 65536 * k3) (e7 : y7 + y3 + k3 = y5 + 65536 * k4)
    (e8 : y8 + y4 + k4 = y6 + 65536 * k5) (e9 : y9 + y5 + k5 = y7 + 65536 * k6)
    (e10 : y10 + y6 + k6 = y8 + 65536 * k7) (e11 : y11 + y7 + k7 = y9 + 65536 * k8)
    (e12 : y12 + y8 + k8 = y10 + 65536 * k9) (e13 : y13 + y9 + k9 = y11 + 65536 * k10)
    (e14 : y14 + y10 + k10 = y12 + 65536 * k11) (e15 : y15 + y11 + k11 = y13 + 65536 * k12)
    (hP0 : PerW y0 y1 y2 y3 k0) (hP12 : PerW y12 y13 y14 y15 k12) :
    y12 = y0 ∧ y13 = y1 ∧ y14 = y2 ∧ y15 = y3 ∧ k12 = k0 := by
  have r0 := swc_NW_range y0 y1 y2 y3 k0 b0 b1 b2 b3 hP0
  have r12 := swc_NW_range y12 y13 y14 y15 k12 b12 b13 b14 b15 hP12
  have s0 := swc_NW_step y0 y1 y2 y3 y4 k0 k1 e4
  have s1 := swc_NW_step y1 y2 y3 y4 y5 k1 k2 e5
  have s2 := swc_NW_step y2 y3 y4 y5 y6 k2 k3 e6
  have s3 := swc_NW_step y3 y4 y5 y6 y7 k3 k4 e7
  have s4 := swc_NW_step y4 y5 y6 y7 y8 k4 k5 e8
  have s5 := swc_NW_step y5 y6 y7 y8 y9 k5 k6 e9
  have s6 := swc_NW_step y6 y7 y8 y9 y10 k6 k7 e10
  have s7 := swc_NW_step y7 y8 y9 y10 y11 k7 k8 e11
  have s8 := swc_NW_step y8 y9 y10 y11 y12 k8 k9 e12
  have s9 := swc_NW_step y9 y10 y11 y12 y13 k9 k10 e13
  have s10 := swc_NW_step y10 y11 y12 y13 y14 k10 k11 e14
  have s11 := swc_NW_step y11 y12 y13 y14 y15 k11 k12 e15
  have hY : NW y0 y1 y2 y3 k0 = 65536 ^ 12 * NW y12 y13 y14 y15 k12 + 18446744069414584321 *
      ((y0 : Int) + 65536 * y1 + 65536 ^ 2 * y2 + 65536 ^ 3 * y3 + 65536 ^ 4 * y4
        + 65536 ^ 5 * y5 + 65536 ^ 6 * y6 + 65536 ^ 7 * y7 + 65536 ^ 8 * y8 + 65536 ^ 9 * y9
        + 65536 ^ 10 * y10 + 65536 ^ 11 * y11) := by
    linear_combination s0 + 65536 * s1 + 65536 ^ 2 * s2 + 65536 ^ 3 * s3 + 65536 ^ 4 * s4
      + 65536 ^ 5 * s5 + 65536 ^ 6 * s6 + 65536 ^ 7 * s7 + 65536 ^ 8 * s8 + 65536 ^ 9 * s9
      + 65536 ^ 10 * s10 + 65536 ^ 11 * s11
  have hN := swc_NW_twelve _ _ _ hY r0.1 r0.2 r12.1 r12.2 (by positivity) (by clear r0 r12 s0 s1 s2 s3 s4 s5 s6 s7 s8 s9 s10 s11 hY hP0 hP12 e4 e5 e6 e7 e8 e9 e10 e11 e12 e13 e14 e15; norm_num; omega)
  have := swc_NW_inj y0 y1 y2 y3 k0 y12 y13 y14 y15 k12 b0 b1 b2 b3 c0 b12 b13 b14 b15 c12 hN
  obtain ⟨h0, h1, h2, h3, h4⟩ := this
  exact ⟨h0.symm, h1.symm, h2.symm, h3.symm, h4.symm⟩


theorem swc_per_after_four (y0 y1 y2 y3 y4 y5 y6 y7 k0 k1 k2 k3 k4 : Nat)
    (b0 : y0 < 65536) (b1 : y1 < 65536) (b2 : y2 < 65536) (b3 : y3 < 65536)
    (b4 : y4 < 65536) (b5 : y5 < 65536) (b6 : y6 < 65536) (b7 : y7 < 65536)
    (c0 : k0 ≤ 1) (c4 : k4 ≤ 1)
    (e4 : y4 + y0 + k0 = y2 + 65536 * k1) (e5 : y5 + y1 + k1 = y3 + 65536 * k2)
    (e6 : y6 + y2 + k2 = y4 + 65536 * k3) (e7 : y7 + y3 + k3 = y5 + 65536 * k4) :
    PerW y4 y5 y6 y7 k4 := by
  unfold PerW
  omega

/-- Twelve forward steps fix every state in range at index 0 whose window is periodic. -/
theorem swc_twelve_steps (D : Nat) (hD : 32 ≤ D) (y0 y1 y2 y3 k0 : Nat)
    (b0 : y0 < 65536) (b1 : y1 < 65536) (b2 : y2 < 65536) (b3 : y3 < 65536) (c0 : k0 ≤ 1)
    (hP : PerW y0 y1 y2 y3 k0) :
    discard (testEngine D) 12 ⟨[y0, y1, y2, y3], 0, k0⟩ = ⟨[y0, y1, y2, y3], 0, k0⟩ := by
  obtain ⟨y4, y5, y6, y7, k1, k2, k3, k4, hA, b4, b5, b6, b7, c4, e4, e5, e6, e7⟩ :=
    swc_four_steps D hD y0 y1 y2 y3 k0 b0 b1 b2 b3 c0
  obtain ⟨y8, y9, y10, y11, k5, k6, k7, k8, hB, b8, b9, b10, b11, c8, e8, e9, e10, e11⟩ :=
    swc_four_steps D hD y4 y5 y6 y7 k4 b4 b5 b6 b7 c4
  obtain ⟨y12, y13, y14, y15, k9, k10, k11, k12, hC, b12, b13, b14, b15, c12, e12, e13, e14,
      e15⟩ := swc_four_steps D hD y8 y9 y10 y11 k8 b8 b9 b10 b11 c8
  have hP12 := swc_per_after_four y8 y9 y10 y11 y12 y13 y14 y15 k8 k9 k10 k11 k12
    b8 b9 b10 b11 b12 b13 b14 b15 c8 c12 e12 e13 e14 e15
  obtain ⟨h0, h1, h2, h3, h4⟩ := swc_period_core y0 y1 y2 y3 y4 y5 y6 y7 y8 y9 y10 y11 y12 y13 y14
    y15 k0 k1 k2 k3 k4 k5 k6 k7 k8 k9 k10 k11 k12 b0 b1 b2 b3 b4 b5 b6 b7 b8 b9 b10 b11 b12 b13
    b14 b15 c0 c12 e4 e5 e6 e7 e8 e9 e10 e11 e12 e13 e14 e15 hP hP12
  have e : (12 : Nat) = 4 + 4 + 4 := rfl
  rw [e, swc_discard_add, swc_discard_add, hA, hB, hC, h0, h1, h2, h3, h4]

theorem swc_discard_mul_twelve (D : Nat) (e : subtract_with_carry_engine)
    (h : discard (testEngine D) 12 e = e) (m : Nat) :
    discard (testEngine D) (12 * m) e = e := by
  induction m with
  | zero => rfl
  | succ m ih => rw [Nat.mul_succ, swc_discard_add, ih, h]

/-- Every engine that `init` builds for the test configuration returns to itself after
twelve forward steps. -/
theorem swc_init_period (D : Nat) (hD : 32 ≤ D) (seeds : List Nat) :
    discard (testEngine D) 12 (init (testEngine D) seeds) = init (testEngine D) seeds := by
  have hm := swc_modulus_test D hD
  have hr : (testEngine D).r = 4 := rfl
  have ho : (testEngine D).original = false := rfl
  have hrange : List.range 4 = [0, 1, 2, 3] := by decide
  obtain ⟨a, b, c, d, hx, ha, hb, hc, hd⟩ : ∃ a b c d, packSeeds (testEngine D) seeds
      = [a, b, c, d] ∧ a < 65536 ∧ b < 65536 ∧ c < 65536 ∧ d < 65536 := by
    refine ⟨stdmock.philox_engine.packWords D seeds (0 * k (testEngine D)) (k (testEngine D))
        % 65536,
      stdmock.philox_engine.packWords D seeds (1 * k (testEngine D)) (k (testEngine D)) % 65536,
      stdmock.philox_engine.packWords D seeds (2 * k (testEngine D)) (k (testEngine D)) % 65536,
      stdmock.philox_engine.packWords D seeds (3 * k (testEngine D)) (k (testEngine D)) % 65536,
      ?_, ?_, ?_, ?_, ?_⟩
    · simp only [packSeeds, hr, hm, hrange, List.foldl_cons, List.foldl_nil, List.replicate,
        List.set_cons_zero, List.set_cons_succ]
      rfl
    all_goals exact Nat.mod_lt _ (by norm_num)
  simp only [subtract_with_carry_engine.init, hx, ho, hr]
  generalize hk : (if [a, b, c, d].getD (4 - 1) 0 = 0 then 1 else 0) = k0
  have hk0 : k0 ≤ 1 := by rw [← hk]; split <;> omega
  obtain ⟨y4, y5, y6, y7, k1, k2, k3, k4, hA, b4, b5, b6, b7, c4, e4, e5, e6, e7⟩ :=
    swc_four_steps D hD a b c d k0 ha hb hc hd hk0
  have hP := swc_per_after_four a b c d y4 y5 y6 y7 k0 k1 k2 k3 k4 ha hb hc hd b4 b5 b6 b7 hk0 c4
    e4 e5 e6 e7
  have h12 := swc_twelve_steps D hD y4 y5 y6 y7 k4 b4 b5 b6 b7 c4 hP
  have hG : Good (⟨[y4, y5, y6, y7], 0, k4⟩ : subtract_with_carry_engine) :=
    ⟨y4, y5, y6, y7, rfl, b4, b5, b6, b7, by norm_num, c4, by simpa [PerAt] using hP⟩
  have hQ := swc_rewind_discard D hD 4 _ (swc_good_discard D hD 8 _ hG)
  rw [← swc_discard_add, show 8 + 4 = 12 from rfl, h12] at hQ
  simp only [Bool.false_eq_true, reduceIte]
  rw [hA, hQ, ← swc_discard_add, show 8 + 12 = 12 + 8 from rfl, swc_discard_add, h12]

/-- A multiple of twelve forward steps fixes every engine that the integer-seed
constructor builds for the test configuration. -/
theorem swc_ofSeed_period (D : Nat) (hD : 32 ≤ D) (value m : Nat) :
    discard (testEngine D) (12 * m) (ofSeed (testEngine D) value)
      = ofSeed (testEngine D) value :=
  swc_discard_mul_twelve D _ (swc_init_period D hD _) m

/-- Claim C4.  For the corrected engine with `(w, s, r) = (16, 2, 4)` over a
`std::uint_fast32_t` of at least 32 bits and for every seed value, the helper `period`
returns 65280 and the engine advanced by `discard(65280)` compares equal under
`operator==` to a freshly constructed engine with the same seed: same `x`, same `i`,
same `carry`. -/
theorem swc_period_helper_discard (D : Nat) (hD : 32 ≤ D) (value : Nat) :
    period (testEngine D) = 65280 ∧
    discard (testEngine D) (period (testEngine D)) (ofSeed (testEngine D) value)
      = ofSeed (testEngine D) value ∧
    equal (discard (testEngine D) (period (testEngine D)) (ofSeed (testEngine D) value))
      (ofSeed (testEngine D) value) = true := by
  have h4 : detail.pow 4 16 = 65536 := by decide
  have h2 : detail.pow 2 16 = 256 := by decide
  have hp : period (testEngine D) = 65280 := by
    have hdef : period (testEngine D)
        = (detail.pow 4 16 + 2 ^ 64 - detail.pow 2 16) % 2 ^ 64 := rfl
    rw [hdef, h4, h2]
    norm_num
  have h := swc_ofSeed_period D hD value 5440
  have e : 12 * 5440 = 65280 := by norm_num
  rw [e] at h
  refine ⟨hp, ?_, ?_⟩
  · rw [hp]; exact h
  · rw [hp, h]
    simp [equal]

/-- Witness for claim C4: the default-constructed engine of the test in `main.cpp`, with
a 64-bit `std::uint_fast32_t`. -/
theorem swc_period_helper_discard_witness :
    32 ≤ 64 ∧
    (period (testEngine 64) = 65280 ∧
      discard (testEngine 64) (period (testEngine 64)) (ofSeed (testEngine 64) 0)
        = ofSeed (testEngine 64) 0 ∧
      equal (discard (testEngine 64) (period (testEngine 64)) (ofSeed (testEngine 64) 0))
        (ofSeed (testEngine 64) 0) = true) :=
  ⟨by decide, swc_period_helper_discard 64 (by decide) 0⟩

/-- Claim C5.  For the corrected engine with `(w, s, r) = (16, 2, 4)` and every seed,
`modulus^r - modulus^s = (2^16)^4 - (2^16)^2 = 18446744069414584320` forward steps
return the engine to the state of a freshly constructed engine with the same seed, and
the output sequence repeats with that period. -/
theorem swc_full_period (D : Nat) (hD : 32 ≤ D) (value : Nat) :
    modulus (testEngine D) ^ (testEngine D).r - modulus (testEngine D) ^ (testEngine D).s
      = 18446744069414584320 ∧
    (2 ^ 16) ^ 4 - (2 ^ 16) ^ 2 = 18446744069414584320 ∧
    discard (testEngine D) 18446744069414584320 (ofSeed (testEngine D) value)
      = ofSeed (testEngine D) value ∧
    ∀ n : Nat,
      (forward (testEngine D)
          (discard (testEngine D) (18446744069414584320 + n) (ofSeed (testEngine D) value))).2
        = (forward (testEngine D) (discard (testEngine D) n (ofSeed (testEngine D) value))).2 := by
  have h := swc_ofSeed_period D hD value 1537228672451215360
  have e : 12 * 1537228672451215360 = 18446744069414584320 := by norm_num
  rw [e] at h
  refine ⟨?_, by norm_num, h, ?_⟩
  · rw [swc_modulus_test D hD]
    have hr : (testEngine D).r = 4 := rfl
    have hs : (testEngine D).s = 2 := rfl
    rw [hr, hs]
    norm_num
  · intro n
    rw [swc_discard_add, h]

/-- Witness for claim C5: the default-constructed engine, with a 64-bit
`std::uint_fast32_t`. -/
theorem swc_full_period_witness :
    32 ≤ 64 ∧
    (modulus (testEngine 64) ^ (testEngine 64).r - modulus (testEngine 64) ^ (testEngine 64).s
        = 18446744069414584320 ∧
      (2 ^ 16) ^ 4 - (2 ^ 16) ^ 2 = 18446744069414584320 ∧
      discard (testEngine 64) 18446744069414584320 (ofSeed (testEngine 64) 0)
        = ofSeed (testEngine 64) 0 ∧
      ∀ n : Nat,
        (forward (testEngine 64)
            (discard (testEngine 64) (18446744069414584320 + n) (ofSeed (testEngine 64) 0))).2
          = (forward (testEngine 64) (discard (testEngine 64) n (ofSeed (testEngine 64) 0))).2) :=
  ⟨by decide, swc_full_period 64 (by decide) 0⟩

set_option maxRecDepth 100000 in
/-- Claim C6 (evaluation at failing inputs).  A forward step followed by a backward step
does not return the state it started from: for the default-constructed corrected engine
with `(w, s, r) = (1, 2, 3)` after four forward steps, and for the presets
`ranlux48_base` and `ranlux24_base` constructed from an all-zero seed sequence after
`r` forward steps. -/
theorem swc_backward_not_inverse :
    (accepted (swcEngine 32 1 2 3) = true ∧
      default (swcEngine 32 1 2 3) = ⟨[0, 0, 1], 0, 0⟩ ∧
      discard (swcEngine 32 1 2 3) 4 (default (swcEngine 32 1 2 3)) = ⟨[0, 1, 1], 1, 0⟩ ∧
      (forward (swcEngine 32 1 2 3) ⟨[0, 1, 1], 1, 0⟩).1 = ⟨[0, 0, 1], 2, 0⟩ ∧
      (backward (swcEngine 32 1 2 3) ⟨[0, 0, 1], 2, 0⟩).1 = ⟨[0, 0, 1], 1, 1⟩) ∧
    (backward ranlux48_base
        (forward ranlux48_base
          (discard ranlux48_base 12 (ofSeedSeq ranlux48_base (List.replicate 24 0)))).1).1
      ≠ discard ranlux48_base 12 (ofSeedSeq ranlux48_base (List.replicate 24 0)) ∧
    (backward (ranlux24_base 32)
        (forward (ranlux24_base 32)
          (discard (ranlux24_base 32) 24
            (ofSeedSeq (ranlux24_base 32) (List.replicate 24 0)))).1).1
      ≠ discard (ranlux24_base 32) 24 (ofSeedSeq (ranlux24_base 32) (List.replicate 24 0)) := by
  decide

set_option maxRecDepth 100000 in
/-- Claim C9 (evaluation at failing inputs).  Values outside `[min(), max()]` are
returned: the default-constructed corrected engine with `(w, s, r) = (1, 3, 4)` holds
words above `max() = 1` and returns 3 on its second call, and `ranlux48_base` built from
the seed sequence `rangeSeedWords` returns `2^49 - 1` on its second call, above
`max() = 2^48 - 1`. -/
theorem swc_range_violation :
    (accepted (swcEngine 32 1 3 4) = true ∧
      subtract_with_carry_engine.max (swcEngine 32 1 3 4) = 1 ∧
      default (swcEngine 32 1 3 4) = ⟨[4294967294, 4294967295, 0, 1], 0, 1⟩ ∧
      (forward (swcEngine 32 1 3 4)
        (forward (swcEngine 32 1 3 4) (default (swcEngine 32 1 3 4))).1).2 = 3) ∧
    (accepted ranlux48_base = true ∧
      subtract_with_carry_engine.max ranlux48_base = 281474976710655 ∧
      packSeeds ranlux48_base rangeSeedWords
        = [0, 0, 281474976710655, 281474976710655, 281474976710655, 281474976710655,
            281474976710655, 281474976710655, 281474976710655, 281474976710655, 0, 0] ∧
      (forward ranlux48_base
        (forward ranlux48_base (ofSeedSeq ranlux48_base rangeSeedWords)).1).2
        = 562949953421311) := by
  decide

end SwcTheorems

/-! ## Theorems: literal variant, twelve-step cycle and modulus of the lagged-carry engine -/

section SwcTheoremsTwo
open stdfix stdfix.subtract_with_carry_engine

/-- The forward step does not depend on the template argument `original`. -/
theorem swc_forward_literal (D : Nat) (e : subtract_with_carry_engine) :
    forward (testLiteral D) e = forward (testEngine D) e := rfl

/-- Discarding does not depend on the template argument `original`. -/
theorem swc_discard_literal (D n : Nat) (e : subtract_with_carry_engine) :
    discard (testLiteral D) n e = discard (testEngine D) n e := by
  induction n generalizing e with
  | zero => rfl
  | succ n ih =>
    simp only [subtract_with_carry_engine.discard]
    rw [swc_forward_literal, ih]

/-- From any state in range at index 0, the state reached after four forward steps
recurs every twelve steps. -/
theorem swc_after_four_period (D : Nat) (hD : 32 ≤ D) (a b c d k0 : Nat)
    (ha : a < 65536) (hb : b < 65536) (hc : c < 65536) (hd : d < 65536) (hk : k0 ≤ 1)
    (m : Nat) :
    discard (testEngine D) (12 * m) (discard (testEngine D) 4 ⟨[a, b, c, d], 0, k0⟩)
      = discard (testEngine D) 4 ⟨[a, b, c, d], 0, k0⟩ := by
  obtain ⟨y4, y5, y6, y7, k1, k2, k3, k4, hA, b4, b5, b6, b7, c4, e4, e5, e6, e7⟩ :=
    swc_four_steps D hD a b c d k0 ha hb hc hd hk
  have hP := swc_per_after_four a b c d y4 y5 y6 y7 k0 k1 k2 k3 k4 ha hb hc hd b4 b5 b6 b7 hk
    c4 e4 e5 e6 e7
  rw [hA]
  exact swc_discard_mul_twelve D _ (swc_twelve_steps D hD y4 y5 y6 y7 k4 b4 b5 b6 b7 c4 hP) m

/-- The literal engine built from the default seed, and the state it reaches after
65280 forward steps. -/
theorem swc_literal_states (D : Nat) (hD : 32 ≤ D)
    (h0 : default (testLiteral D) = ⟨[63026, 2533, 52484, 29490], 0, 0⟩)
    (h12 : discard (testEngine D) 12 ⟨[63026, 2533, 52484, 29490], 0, 0⟩
      = ⟨[63025, 2533, 52484, 29490], 0, 1⟩) :
    discard (testLiteral D) 65280 (default (testLiteral D))
      = ⟨[63025, 2533, 52484, 29490], 0, 1⟩ := by
  rw [h0, swc_discard_literal]
  have e : (65280 : Nat) = 4 + 12 * 5439 + 8 := by norm_num
  rw [e, swc_discard_add, swc_discard_add,
    swc_after_four_period D hD _ _ _ _ _ (by decide) (by decide) (by decide)
      (by decide) (by decide), ← swc_discard_add]
  exact h12

set_option maxRecDepth 100000 in
/-- Claim C11.  For the literal variant (`original = true`) with `(w, s, r) = (16, 2, 4)`
and the default seed, whether `std::uint_fast32_t` has 32 or 64 bits: the helper `period`
returns 65280; the fresh engine is `(x = {63026, 2533, 52484, 29490}, i = 0, carry = 0)`
and the engine advanced by `discard(65280)` is `(x = {63025, 2533, 52484, 29490}, i = 0,
carry = 1)`, so `operator==` is false; both return 54994 on the next forward step and
are equal after it. -/
theorem swc_literal_collision :
    (period (testLiteral 64) = 65280 ∧
      default (testLiteral 64) = ⟨[63026, 2533, 52484, 29490], 0, 0⟩ ∧
      discard (testLiteral 64) 65280 (default (testLiteral 64))
        = ⟨[63025, 2533, 52484, 29490], 0, 1⟩ ∧
      equal (discard (testLiteral 64) 65280 (default (testLiteral 64)))
        (default (testLiteral 64)) = false ∧
      (forward (testLiteral 64) (default (testLiteral 64))).2 = 54994 ∧
      (forward (testLiteral 64)
        (discard (testLiteral 64) 65280 (default (testLiteral 64)))).2 = 54994 ∧
      equal (forward (testLiteral 64) (default (testLiteral 64))).1
        (forward (testLiteral 64)
          (discard (testLiteral 64) 65280 (default (testLiteral 64)))).1 = true) ∧
    (period (testLiteral 32) = 65280 ∧
      default (testLiteral 32) = ⟨[63026, 2533, 52484, 29490], 0, 0⟩ ∧
      discard (testLiteral 32) 65280 (default (testLiteral 32))
        = ⟨[63025, 2533, 52484, 29490], 0, 1⟩ ∧
      equal (discard (testLiteral 32) 65280 (default (testLiteral 32)))
        (default (testLiteral 32)) = false ∧
      (forward (testLiteral 32) (default (testLiteral 32))).2 = 54994 ∧
      (forward (testLiteral 32)
        (discard (testLiteral 32) 65280 (default (testLiteral 32)))).2 = 54994 ∧
      equal (forward (testLiteral 32) (default (testLiteral 32))).1
        (forward (testLiteral 32)
          (discard (testLiteral 32) 65280 (default (testLiteral 32)))).1 = true) := by
  have h4 : detail.pow 4 16 = 65536 := by decide
  have h2 : detail.pow 2 16 = 256 := by decide
  have hp : ∀ D : Nat, period (testLiteral D) = 65280 := by
    intro D
    have hdef : period (testLiteral D)
        = (detail.pow 4 16 + 2 ^ 64 - detail.pow 2 16) % 2 ^ 64 := rfl
    rw [hdef, h4, h2]
    norm_num
  have a64 : default (testLiteral 64) = ⟨[63026, 2533, 52484, 29490], 0, 0⟩ := by decide
  have a32 : default (testLiteral 32) = ⟨[63026, 2533, 52484, 29490], 0, 0⟩ := by decide
  have b64 := swc_literal_states 64 (by decide) a64 (by decide)
  have b32 := swc_literal_states 32 (by decide) a32 (by decide)
  refine ⟨⟨hp 64, a64, b64, ?_, ?_, ?_, ?_⟩, ⟨hp 32, a32, b32, ?_, ?_, ?_, ?_⟩⟩
  · rw [b64, a64]; decide
  · rw [a64]; decide
  · rw [b64]; decide
  · rw [b64, a64]; decide
  · rw [b32, a32]; decide
  · rw [a32]; decide
  · rw [b32]; decide
  · rw [b32, a32]; decide

/-- Claim C19.  For the corrected engine with `(w, s, r) = (16, 2, 4)` over a
`std::uint_fast32_t` of at least 32 bits and every seed: twelve forward steps return the
engine to the same `(x, i, carry)`, every discard by a multiple of twelve, 65280
included, preserves the state, the outputs repeat every twelve, and twelve is the
multiplicative order of `2^16` modulo `2^64 - 2^32 + 1`. -/
theorem swc_twelve_cycle (D : Nat) (hD : 32 ≤ D) (value : Nat) :
    discard (testEngine D) 12 (ofSeed (testEngine D) value) = ofSeed (testEngine D) value ∧
    (∀ m : Nat, discard (testEngine D) (12 * m) (ofSeed (testEngine D) value)
        = ofSeed (testEngine D) value) ∧
    (65280 = 12 * 5440 ∧
      discard (testEngine D) 65280 (ofSeed (testEngine D) value)
        = ofSeed (testEngine D) value) ∧
    (∀ n : Nat,
      (forward (testEngine D)
          (discard (testEngine D) (12 + n) (ofSeed (testEngine D) value))).2
        = (forward (testEngine D) (discard (testEngine D) n (ofSeed (testEngine D) value))).2) ∧
    ((2 ^ 16) ^ 12 % (2 ^ 64 - 2 ^ 32 + 1) = 1 ∧
      ∀ k : Nat, 0 < k → k < 12 → (2 ^ 16) ^ k % (2 ^ 64 - 2 ^ 32 + 1) ≠ 1) := by
  have h12 : discard (testEngine D) 12 (ofSeed (testEngine D) value)
      = ofSeed (testEngine D) value := swc_init_period D hD _
  have hm := swc_discard_mul_twelve D _ h12
  refine ⟨h12, hm, ⟨by norm_num, ?_⟩, ?_, by norm_num, ?_⟩
  · have h := hm 5440
    have e : 12 * 5440 = 65280 := by norm_num
    rw [e] at h
    exact h
  · intro n
    rw [swc_discard_add, h12]
  · intro k h0 hk
    interval_cases k <;> norm_num

/-- Witness for claim C19: the default-constructed engine, with a 64-bit
`std::uint_fast32_t`. -/
theorem swc_twelve_cycle_witness :
    32 ≤ 64 ∧
    (discard (testEngine 64) 12 (ofSeed (testEngine 64) 0) = ofSeed (testEngine 64) 0 ∧
      (∀ m : Nat, discard (testEngine 64) (12 * m) (ofSeed (testEngine 64) 0)
          = ofSeed (testEngine 64) 0) ∧
      (65280 = 12 * 5440 ∧
        discard (testEngine 64) 65280 (ofSeed (testEngine 64) 0)
          = ofSeed (testEngine 64) 0) ∧
      (∀ n : Nat,
        (forward (testEngine 64)
            (discard (testEngine 64) (12 + n) (ofSeed (testEngine 64) 0))).2
          = (forward (testEngine 64) (discard (testEngine 64) n (ofSeed (testEngine 64) 0))).2) ∧
      ((2 ^ 16) ^ 12 % (2 ^ 64 - 2 ^ 32 + 1) = 1 ∧
        ∀ k : Nat, 0 < k → k < 12 → (2 ^ 16) ^ k % (2 ^ 64 - 2 ^ 32 + 1) ≠ 1)) :=
  ⟨by decide, swc_twelve_cycle 64 (by decide) 0⟩

/-- When the word size is below the width of the storage word, `modulus` is `2^w`. -/
theorem swc_modulus_eq (p : SwcParams) (h : p.w < p.digits) : modulus p = 2 ^ p.w := by
  unfold modulus
  rw [Nat.shiftLeft_eq, one_mul]
  exact Nat.mod_eq_of_lt (Nat.pow_lt_pow_right (by norm_num) h)

/-- Claim C18 (evaluation at the failing input).  The configuration
`subtract_with_carry_engine<std::uint16_t, 16, 2, 4>` passes every `static_assert`, yet
its `modulus` is 0 and not `2^16`, while `max()`, which avoids the overflowing shift,
is `2^16 - 1`. -/
theorem swc_modulus_full_width :
    accepted fullWidthEngine = true ∧
    modulus fullWidthEngine = 0 ∧
    modulus fullWidthEngine ≠ 2 ^ fullWidthEngine.w ∧
    subtract_with_carry_engine.max fullWidthEngine = 2 ^ 16 - 1 := by
  decide

end SwcTheoremsTwo

/-! ## Theorems: the two-word literal round function -/

section PhiloxTheoremsTwo
open stdmock stdmock.philox_engine

/-- With at least one round, the literal two-word round loop never reads the initial
`S0`. -/
theorem philox_rounds2_literal_ignores (p : PhiloxParams) (i S0 T0 S1 K0 : Nat) :
    rounds2 p false (i + 1) (S0, S1, K0) = rounds2 p false (i + 1) (T0, S1, K0) := by
  simp [rounds2]

/-- The block that the literal two-word `generate` writes into a two-word `Y`. -/
theorem philox_generate2_literal (p : PhiloxParams) (hn : p.n = 2) (e : philox_engine)
    (hY : e.Y.length = 2) :
    (generate p false e).Y =
      [(rounds2 p false p.r (e.X.getD 0 0, e.X.getD 1 0, e.K.getD 0 0)).1,
        (rounds2 p false p.r (e.X.getD 0 0, e.X.getD 1 0, e.K.getD 0 0)).2.1] := by
  obtain ⟨X, K, Y, j⟩ := e
  match Y, hY with
  | [a, b], _ => simp [generate, hn]

/-- Claim C20.  For a two-word engine (`n = 2`, at least one round) under the literal
round function `generate<false>`, the generated block depends only on the key and on
the second counter word: two states with the same key and the same `X[1]` get the same
block whatever their `X[0]`; in particular a counter increment that does not wrap the
low word leaves the block unchanged. -/
theorem philox_literal_two_words_low_word (p : PhiloxParams) (hn : p.n = 2) (hr : 0 < p.r)
    (e f : philox_engine) (hK : e.K = f.K) (hX : e.X.getD 1 0 = f.X.getD 1 0)
    (hXe : e.X.length = 2) (hYe : e.Y.length = 2) (hYf : f.Y.length = 2) :
    (generate p false e).Y = (generate p false f).Y ∧
    ((((e.X.getD 0 0 + 1) % 2 ^ p.digits) &&& philox_engine.max p) ≠ 0 →
      (generate p false (increase_counter p e)).Y = (generate p false e).Y) := by
  obtain ⟨r, hr1⟩ : ∃ r, p.r = r + 1 := ⟨p.r - 1, by omega⟩
  constructor
  · rw [philox_generate2_literal p hn e hYe, philox_generate2_literal p hn f hYf, hK, hX, hr1,
      philox_rounds2_literal_ignores p r (e.X.getD 0 0) (f.X.getD 0 0)]
  · intro hne
    have hYi : (increase_counter p e).Y.length = 2 := hYe
    have hKi : (increase_counter p e).K = e.K := rfl
    have hXi : (increase_counter p e).X.getD 1 0 = e.X.getD 1 0 := by
      simp only [increase_counter, hn, increase_counter_loop]
      rw [if_neg]
      · simp [List.getD_eq_getElem?_getD, List.getElem?_set]
      · intro h
        apply hne
        have := h.2
        have hl : 0 < e.X.length := by omega
        simpa [List.getD_eq_getElem?_getD, List.getElem?_set, hl] using this
    rw [philox_generate2_literal p hn _ hYi, philox_generate2_literal p hn e hYe, hKi, hXi, hr1,
      philox_rounds2_literal_ignores p r ((increase_counter p e).X.getD 0 0) (e.X.getD 0 0)]

/-- Witness for claim C20: the two-word configuration `philox2x32`, counters `(0, 7)`
and `(5, 7)` under the default key. -/
theorem philox_literal_two_words_low_word_witness :
    ((philox2x32 64).n = 2 ∧ 0 < (philox2x32 64).r ∧
      (⟨[0, 7], [20111115], [0, 0], 1⟩ : philox_engine).K
        = (⟨[5, 7], [20111115], [0, 0], 1⟩ : philox_engine).K ∧
      (⟨[0, 7], [20111115], [0, 0], 1⟩ : philox_engine).X.getD 1 0
        = (⟨[5, 7], [20111115], [0, 0], 1⟩ : philox_engine).X.getD 1 0 ∧
      (⟨[0, 7], [20111115], [0, 0], 1⟩ : philox_engine).X.length = 2 ∧
      (⟨[0, 7], [20111115], [0, 0], 1⟩ : philox_engine).Y.length = 2 ∧
      (⟨[5, 7], [20111115], [0, 0], 1⟩ : philox_engine).Y.length = 2) ∧
    ((generate (philox2x32 64) false ⟨[0, 7], [20111115], [0, 0], 1⟩).Y
        = (generate (philox2x32 64) false ⟨[5, 7], [20111115], [0, 0], 1⟩).Y ∧
      ((((([0, 7] : List Nat).getD 0 0 + 1) % 2 ^ (philox2x32 64).digits)
          &&& philox_engine.max (philox2x32 64)) ≠ 0 →
        (generate (philox2x32 64) false
            (increase_counter (philox2x32 64) ⟨[0, 7], [20111115], [0, 0], 1⟩)).Y
          = (generate (philox2x32 64) false ⟨[0, 7], [20111115], [0, 0], 1⟩).Y)) :=
  ⟨⟨rfl, by decide, rfl, rfl, rfl, rfl, rfl⟩,
    philox_literal_two_words_low_word (philox2x32 64) rfl (by decide)
      ⟨[0, 7], [20111115], [0, 0], 1⟩ ⟨[5, 7], [20111115], [0, 0], 1⟩ rfl rfl rfl rfl rfl⟩

end PhiloxTheoremsTwo

/-! ## Theorems: the forward step of the lagged-carry engine -/

section SwcTheoremsThree
open stdfix stdfix.subtract_with_carry_engine

/-- The short-lag index is `(i - s) mod r`. -/
theorem swc_shortIndex_mod (p : SwcParams) (hs : p.s < p.r) (i : Nat) (hi : i < p.r) :
    shortIndex p i = (i + p.r - p.s) % p.r := by
  unfold shortIndex
  split
  · rw [Nat.mod_eq_of_lt (by omega)]
  · have : i + p.r - p.s = (i - p.s) + p.r := by omega
    rw [this, Nat.add_mod_right, Nat.mod_eq_of_lt (by omega)]

/-- The forward step in closed form, for a state satisfying the invariant. -/
theorem swc_forward_eq (p : SwcParams) (hw : p.w < p.digits) (hs1 : 1 ≤ p.s)
    (hs : p.s < p.r) (e : subtract_with_carry_engine) (hinv : Inv p e) :
    (forward p e).1.x = e.x.set e.i
        ((e.x.getD ((e.i + p.r - p.s) % p.r) 0 + 2 ^ p.w - (e.x.getD e.i 0 + e.carry))
          % 2 ^ p.w) ∧
    (forward p e).1.carry
      = (if e.x.getD ((e.i + p.r - p.s) % p.r) 0 < e.x.getD e.i 0 + e.carry then 1 else 0) ∧
    (forward p e).2 = (e.x.getD ((e.i + p.r - p.s) % p.r) 0 + 2 ^ p.w
        - (e.x.getD e.i 0 + e.carry)) % 2 ^ p.w ∧
    (forward p e).1.i = (e.i + 1) % p.r ∧
    (∀ j, j ≠ e.i → (forward p e).1.x.getD j 0 = e.x.getD j 0) ∧
    Inv p (forward p e).1 := by
  obtain ⟨hlen, hx, hc, hi⟩ := hinv
  have hm := swc_modulus_eq p hw
  have hsi := swc_shortIndex_mod p hs e.i hi
  have hpow : 2 ^ p.w * 2 ≤ 2 ^ p.digits := by
    rw [← pow_succ]
    exact Nat.pow_le_pow_right (by norm_num) hw
  have hxi := hx e.i
  have hxs := hx ((e.i + p.r - p.s) % p.r)
  have hpos : 0 < 2 ^ p.w := Nat.pos_of_ne_zero (by positivity)
  have hget : ∀ v, (e.x.set e.i v).getD e.i 0 = v := by
    intro v
    simp [List.getD_eq_getElem?_getD, List.getElem?_set, hlen, hi]
  have hi' : (if e.i = p.r - 1 then 0 else e.i + 1) = (e.i + 1) % p.r := by
    split
    · have : e.i + 1 = p.r := by omega
      rw [this, Nat.mod_self]
    · rw [Nat.mod_eq_of_lt (by omega)]
  have hf : forward p e =
      (⟨e.x.set e.i ((e.x.getD ((e.i + p.r - p.s) % p.r) 0 + 2 ^ p.w
            - (e.x.getD e.i 0 + e.carry)) % 2 ^ p.w),
          (e.i + 1) % p.r,
          if e.x.getD ((e.i + p.r - p.s) % p.r) 0 < e.x.getD e.i 0 + e.carry then 1 else 0⟩,
        (e.x.getD ((e.i + p.r - p.s) % p.r) 0 + 2 ^ p.w
          - (e.x.getD e.i 0 + e.carry)) % 2 ^ p.w) := by
    unfold forward
    simp only [hsi, hm]
    generalize e.x.getD e.i 0 = a at *
    generalize e.x.getD ((e.i + p.r - p.s) % p.r) 0 = s at *
    have e1 : uadd p a e.carry = a + e.carry := swc_uadd_small _ _ _ (by omega)
    rw [e1]
    by_cases h : s ≥ a + e.carry
    · have e2 : usub p s (a + e.carry) = s - (a + e.carry) := swc_usub_le _ _ _ h (by omega)
      have e3 : (s + 2 ^ p.w - (a + e.carry)) % 2 ^ p.w = s - (a + e.carry) := by
        have : s + 2 ^ p.w - (a + e.carry) = (s - (a + e.carry)) + 2 ^ p.w := by omega
        rw [this, Nat.add_mod_right, Nat.mod_eq_of_lt (by omega)]
      have h2 : ¬ s < a + e.carry := by omega
      simp only [h, e2, e3, h2, if_true, if_false, hget, hi']
    · have e2 : usub p (2 ^ p.w) (a + e.carry) = 2 ^ p.w - (a + e.carry) :=
        swc_usub_le _ _ _ (by omega) (by omega)
      have e4 : uadd p (2 ^ p.w - (a + e.carry)) s = 2 ^ p.w - (a + e.carry) + s :=
        swc_uadd_small _ _ _ (by omega)
      have e3 : (s + 2 ^ p.w - (a + e.carry)) % 2 ^ p.w = 2 ^ p.w - (a + e.carry) + s := by
        rw [Nat.mod_eq_of_lt (by omega)]; omega
      have h2 : s < a + e.carry := by omega
      simp only [h, e2, e3, e4, h2, if_true, if_false, hget, hi']
  rw [hf]
  refine ⟨rfl, rfl, rfl, rfl, ?_, ?_⟩
  · intro j hj
    simp [List.getD_eq_getElem?_getD, List.getElem?_set, Ne.symm hj]
  · refine ⟨by simpa using hlen, ?_, ?_, Nat.mod_lt _ (by omega)⟩
    · intro j
      by_cases hj : j = e.i
      · subst hj
        rw [hget]
        exact Nat.mod_lt _ hpos
      · have : (e.x.set e.i ((e.x.getD ((e.i + p.r - p.s) % p.r) 0 + 2 ^ p.w
            - (e.x.getD e.i 0 + e.carry)) % 2 ^ p.w)).getD j 0 = e.x.getD j 0 := by
          simp [List.getD_eq_getElem?_getD, List.getElem?_set, Ne.symm hj]
        rw [this]
        exact hx j
    · show (if _ then 1 else 0) ≤ 1
      split <;> omega

/-- A state of the test configuration that satisfies the invariant. -/
theorem swc_inv_example : Inv (testEngine 64) ⟨[5, 2, 3, 4], 0, 1⟩ := by
  refine ⟨rfl, ?_, by decide, by decide⟩
  intro j
  have h : (2 : Nat) ^ (testEngine 64).w = 65536 := by decide
  rw [h]
  match j with
  | 0 => decide
  | 1 => decide
  | 2 => decide
  | 3 => decide
  | n + 4 => simp

/-- Claim C12.  In a configuration with `1 ≤ s < r` and `w` below the width of the
storage word, for every state satisfying the invariant (`r` words below `2^w`, a carry
bit, `i < r`): one forward step writes `(x[short] - x[i] - carry) mod 2^w` into slot `i`,
where `short = (i - s) mod r`; sets the carry to 1 exactly when
`x[short] < x[i] + carry`; returns the written word; advances `i` to `(i + 1) mod r`;
leaves the other slots unchanged; and the new state satisfies the invariant. -/
theorem swc_forward_spec (p : SwcParams) (hw : p.w < p.digits) (hs1 : 1 ≤ p.s)
    (hs : p.s < p.r) (e : subtract_with_carry_engine) (hinv : Inv p e) :
    (forward p e).1.x = e.x.set e.i (forward p e).2 ∧
    ((forward p e).2 : Int)
      = ((e.x.getD ((e.i + p.r - p.s) % p.r) 0 : Int) - e.x.getD e.i 0 - e.carry)
          % 2 ^ p.w ∧
    (forward p e).2
      = (e.x.getD ((e.i + p.r - p.s) % p.r) 0 + 2 ^ p.w - (e.x.getD e.i 0 + e.carry))
          % 2 ^ p.w ∧
    ((e.x.getD ((e.i + p.r - p.s) % p.r) 0 < e.x.getD e.i 0 + e.carry →
        (forward p e).1.carry = 1) ∧
      (e.x.getD e.i 0 + e.carry ≤ e.x.getD ((e.i + p.r - p.s) % p.r) 0 →
        (forward p e).1.carry = 0)) ∧
    (forward p e).1.i = (e.i + 1) % p.r ∧
    (∀ j, j ≠ e.i → (forward p e).1.x.getD j 0 = e.x.getD j 0) ∧
    Inv p (forward p e).1 := by
  obtain ⟨h1, h2, h3, h4, h5, h6⟩ := swc_forward_eq p hw hs1 hs e hinv
  have hxi := hinv.2.1 e.i
  have hc := hinv.2.2.1
  refine ⟨by rw [h1, h3], ?_, h3, ⟨?_, ?_⟩, h4, h5, h6⟩
  · rw [h3]
    generalize e.x.getD ((e.i + p.r - p.s) % p.r) 0 = s at *
    generalize e.x.getD e.i 0 = a at *
    have hle : a + e.carry ≤ s + 2 ^ p.w := by omega
    have e1 : (((s + 2 ^ p.w - (a + e.carry)) % 2 ^ p.w : Nat) : Int)
        = ((s : Int) + 2 ^ p.w - (a + e.carry)) % 2 ^ p.w := by
      push_cast [Nat.cast_sub hle]
      rfl
    rw [e1]
    have e2 : (s : Int) + 2 ^ p.w - (a + e.carry) = (s : Int) - a - e.carry + 2 ^ p.w := by
      ring
    rw [e2, Int.add_emod_self]
  · intro h
    rw [h2, if_pos h]
  · intro h
    rw [h2, if_neg (by omega)]

/-- Witness for claim C12: the test configuration with a 64-bit `std::uint_fast32_t`, at
the state `(x = {5, 2, 3, 4}, i = 0, carry = 1)`, where the step borrows. -/
theorem swc_forward_spec_witness :
    Inv (testEngine 64) ⟨[5, 2, 3, 4], 0, 1⟩ ∧
    (forward (testEngine 64) ⟨[5, 2, 3, 4], 0, 1⟩).1.x = [65533, 2, 3, 4] ∧
    (forward (testEngine 64) ⟨[5, 2, 3, 4], 0, 1⟩).1.carry = 1 ∧
    (forward (testEngine 64) ⟨[5, 2, 3, 4], 0, 1⟩).2 = 65533 ∧
    (forward (testEngine 64) ⟨[5, 2, 3, 4], 0, 1⟩).1.i = 1 ∧
    Inv (testEngine 64) (forward (testEngine 64) ⟨[5, 2, 3, 4], 0, 1⟩).1 := by
  have h := swc_forward_spec (testEngine 64) (by decide) (by decide) (by decide)
    ⟨[5, 2, 3, 4], 0, 1⟩ swc_inv_example
  exact ⟨swc_inv_example, by decide, by decide, by decide, by decide, h.2.2.2.2.2.2⟩

end SwcTheoremsThree

/-! ## Theorems: the counter and the block structure of the counter-based engine -/

section PhiloxTheoremsThree
open stdmock stdmock.philox_engine

/-- Masking with `max()` after a cast to `UIntType` is reduction modulo `2^w`. -/
theorem philox_mask_mod (p : PhiloxParams) (hw : p.w ≤ p.digits) (x : Nat) :
    (x % 2 ^ p.digits) &&& philox_engine.max p = x % 2 ^ p.w := by
  rw [philox_max_eq p hw, Nat.and_pow_two_sub_one_eq_mod, Nat.mod_mod_of_dvd _ (pow_dvd_pow 2 hw)]

/-- The do-while loop of `increase_counter`, started at the end of `pre`, performs the
reference increment on the remaining words. -/
theorem philox_increase_counter_loop_eq (p : PhiloxParams) (hw : p.w ≤ p.digits)
    (post : List Nat) :
    ∀ (pre : List Nat) (fuel : Nat), post ≠ [] → post.length ≤ fuel →
      (pre ++ post).length = p.n →
      increase_counter_loop p fuel pre.length (pre ++ post) = pre ++ specIncrement p.w post := by
  induction post with
  | nil => intro pre fuel h; exact absurd rfl h
  | cons x rest ih =>
    intro pre fuel _ hfuel hlen
    obtain ⟨f, rfl⟩ : ∃ f, fuel = f + 1 := ⟨fuel - 1, by simp at hfuel; omega⟩
    have hget : (pre ++ x :: rest).getD pre.length 0 = x := by
      rw [List.getD_eq_getElem?_getD, List.getElem?_append_right (Nat.le_refl _), Nat.sub_self]
      simp
    have hset : ∀ v, (pre ++ x :: rest).set pre.length v = pre ++ v :: rest := by
      intro v
      simp [List.set_append]
    have hget2 : ∀ v, (pre ++ v :: rest).getD pre.length 0 = v := by
      intro v
      rw [List.getD_eq_getElem?_getD, List.getElem?_append_right (Nat.le_refl _), Nat.sub_self]
      simp
    simp only [increase_counter_loop, hget, philox_mask_mod p hw, hset, hget2, specIncrement]
    have hn : p.n = pre.length + 1 + rest.length := by
      rw [← hlen]; simp; omega
    by_cases hv : (x + 1) % 2 ^ p.w = 0
    · rw [hv]
      simp only [if_true]
      by_cases hr : rest = []
      · subst hr
        have : ¬ (pre.length + 1 < p.n) := by simp at hn; omega
        simp [this, specIncrement]
      · have hlt : pre.length + 1 < p.n := by
          have : 0 < rest.length := List.length_pos.mpr hr
          omega
        simp only [hlt, true_and, if_true]
        have h := ih (pre ++ [0]) f hr (by simp at hfuel; omega) (by simp; omega)
        simpa using h
    · simp [hv]

/-- A counter of words below `2^w` has a value below `2^(w * length)`. -/
theorem philox_counterValue_lt (w : Nat) (X : List Nat) (hx : ∀ v ∈ X, v < 2 ^ w) :
    counterValue w X < 2 ^ (w * X.length) := by
  induction X with
  | nil => simp [counterValue]
  | cons x xs ih =>
    have h1 := hx x (by simp)
    have h2 := ih (fun v hv => hx v (by simp [hv]))
    simp only [counterValue, List.length_cons, Nat.mul_succ, pow_add]
    generalize 2 ^ w = B at *
    generalize 2 ^ (w * xs.length) = P at *
    generalize counterValue w xs = V at *
    have : B * (V + 1) ≤ B * P := Nat.mul_le_mul_left B (by omega)
    have e1 : B * (V + 1) = B * V + B := by ring
    have e2 : P * B = B * P := Nat.mul_comm _ _
    omega

/-- The reference increment keeps the length and the range of the words and adds one to
the value modulo `2^(w * length)`. -/
theorem philox_specIncrement_value (w : Nat) (X : List Nat) (hx : ∀ v ∈ X, v < 2 ^ w) :
    (specIncrement w X).length = X.length ∧ (∀ v ∈ specIncrement w X, v < 2 ^ w) ∧
    counterValue w (specIncrement w X) = (counterValue w X + 1) % 2 ^ (w * X.length) := by
  induction X with
  | nil => simp [specIncrement, counterValue]
  | cons x xs ih =>
    have h1 := hx x (by simp)
    have hxs : ∀ v ∈ xs, v < 2 ^ w := fun v hv => hx v (by simp [hv])
    obtain ⟨i1, i2, i3⟩ := ih hxs
    have hV := philox_counterValue_lt w xs hxs
    have hpos : 0 < 2 ^ w := Nat.pos_of_ne_zero (by positivity)
    have e2 : 2 ^ (w * (xs.length + 1)) = 2 ^ w * 2 ^ (w * xs.length) := by
      rw [Nat.mul_succ, pow_add, Nat.mul_comm]
    simp only [specIncrement]
    by_cases hv : (x + 1) % 2 ^ w = 0
    · have hx1 : x + 1 = 2 ^ w := by
        rcases Nat.lt_or_ge (x + 1) (2 ^ w) with h | h
        · rw [Nat.mod_eq_of_lt h] at hv
          omega
        · omega
      rw [if_pos hv]
      refine ⟨by simp [i1], ?_, ?_⟩
      · intro v hv2
        rcases List.mem_cons.mp hv2 with h | h
        · rw [h]; exact hpos
        · exact i2 v h
      · have e : x + 2 ^ w * counterValue w xs + 1 = 2 ^ w * (counterValue w xs + 1) := by
          rw [Nat.mul_add, Nat.mul_one]; omega
        simp only [counterValue, List.length_cons, Nat.zero_add]
        rw [e2, e, Nat.mul_mod_mul_left, i3]
    · have hlt : x + 1 < 2 ^ w := by
        rcases Nat.lt_or_ge (x + 1) (2 ^ w) with h | h
        · exact h
        · have : x + 1 = 2 ^ w := by omega
          rw [this, Nat.mod_self] at hv
          exact absurd rfl hv
      have hm : (x + 1) % 2 ^ w = x + 1 := Nat.mod_eq_of_lt hlt
      rw [if_neg hv, hm]
      refine ⟨by simp, ?_, ?_⟩
      · intro v hv2
        rcases List.mem_cons.mp hv2 with h | h
        · rw [h]; exact hlt
        · exact hxs v h
      · simp only [counterValue, List.length_cons]
        rw [e2, Nat.mod_eq_of_lt]
        · omega
        · generalize 2 ^ w = B at *
          generalize 2 ^ (w * xs.length) = P at *
          generalize counterValue w xs = V at *
          have : B * (V + 1) ≤ B * P := Nat.mul_le_mul_left B (by omega)
          have e1 : B * (V + 1) = B * V + B := by ring
          omega

/-- The member `increase_counter` performs the reference increment on `X`. -/
theorem philox_increase_counter_X (p : PhiloxParams) (hw : p.w ≤ p.digits) (hn : 0 < p.n)
    (e : philox_engine) (hlen : e.X.length = p.n) :
    (increase_counter p e).X = specIncrement p.w e.X := by
  have hne : e.X ≠ [] := by
    intro h
    rw [h] at hlen
    simp at hlen
    omega
  have h := philox_increase_counter_loop_eq p hw e.X [] p.n hne (by omega) (by simpa using hlen)
  simpa [increase_counter] using h

/-- The all-zero counter has value 0. -/
theorem philox_counterValue_zeros (w n : Nat) : counterValue w (List.replicate n 0) = 0 := by
  induction n with
  | zero => rfl
  | succ n ih => simp [List.replicate, counterValue, ih]

/-- The counter of value `v` has `n` words below `2^w` and value `v mod 2^(w*n)`. -/
theorem philox_counterOf_props (p : PhiloxParams) (v : Nat) :
    (counterOf p v).length = p.n ∧ (∀ x ∈ counterOf p v, x < 2 ^ p.w) ∧
    counterValue p.w (counterOf p v) = v % 2 ^ (p.w * p.n) := by
  have hpos : 0 < 2 ^ (p.w * p.n) := Nat.pos_of_ne_zero (by positivity)
  induction v with
  | zero =>
    refine ⟨by simp [counterOf], ?_, ?_⟩
    · intro x hx
      have : x = 0 := by
        simp only [counterOf, Function.iterate_zero, id_eq] at hx
        exact (List.mem_replicate.mp hx).2
      rw [this]
      exact Nat.pos_of_ne_zero (by positivity)
    · simp [counterOf, philox_counterValue_zeros, Nat.zero_mod]
  | succ v ih =>
    obtain ⟨i1, i2, i3⟩ := ih
    have hs : counterOf p (v + 1) = specIncrement p.w (counterOf p v) := by
      simp only [counterOf, Function.iterate_succ_apply']
    obtain ⟨s1, s2, s3⟩ := philox_specIncrement_value p.w (counterOf p v) i2
    rw [hs]
    refine ⟨by rw [s1, i1], s2, ?_⟩
    rw [s3, i1, i3, Nat.add_mod, Nat.mod_mod, ← Nat.add_mod]

/-- The member `generate` overwrites `Y` with the block of `(K, X)` and changes nothing
else. -/
theorem philox_blockOf_eq (p : PhiloxParams) (Fix : Bool) (e : philox_engine)
    (hY : e.Y.length = p.n) (hY0 : (p.n = 2 ∨ p.n = 4) ∨ e.Y = List.replicate p.n 0) :
    (generate p Fix e).Y = blockOf p Fix e.K e.X ∧ (generate p Fix e).X = e.X ∧
    (generate p Fix e).K = e.K ∧ (generate p Fix e).j = e.j ∧
    (blockOf p Fix e.K e.X).length = p.n ∧
    ((p.n = 2 ∨ p.n = 4) ∨ blockOf p Fix e.K e.X = List.replicate p.n 0) := by
  obtain ⟨X, K, Y, j⟩ := e
  by_cases h2 : p.n = 2
  · simp only [h2] at hY
    match Y, hY with
    | [a, b], _ => simp [generate, blockOf, h2, List.replicate]
  · by_cases h4 : p.n = 4
    · simp only [h4] at hY
      match Y, hY with
      | [a, b, c, d], _ => simp [generate, blockOf, h4, List.replicate]
    · have hz : Y = List.replicate p.n 0 := by
        rcases hY0 with (h | h) | h
        · exact absurd h h2
        · exact absurd h h4
        · exact h
      simp [generate, blockOf, h2, h4, hz]

/-- A discard of `m + 1` is a discard of `m` followed by one call. -/
theorem philox_discard_succ_last (p : PhiloxParams) (Fix : Bool) (m : Nat) (e : philox_engine) :
    discard p Fix (m + 1) e = (next p (if Fix then 1 else 0) (discard p Fix m e)).1 := by
  rw [philox_discard_add]
  rfl

/-- Quotient and remainder of `m + 1` by `n`. -/
theorem philox_succ_div_mod (m n : Nat) (hn : 0 < n) :
    (m % n = n - 1 → (m + 1) / n = m / n + 1 ∧ (m + 1) % n = 0) ∧
    (m % n ≠ n - 1 → (m + 1) / n = m / n ∧ (m + 1) % n = m % n + 1) := by
  have hlt := Nat.mod_lt m hn
  have hdm := Nat.div_add_mod m n
  constructor
  · intro h
    have e : m + 1 = n * (m / n + 1) := by rw [Nat.mul_add, Nat.mul_one]; omega
    rw [e, Nat.mul_div_cancel_left _ hn, Nat.mul_mod_right]
    exact ⟨rfl, rfl⟩
  · intro h
    have e : m + 1 = (m % n + 1) + n * (m / n) := by omega
    have hl : m % n + 1 < n := by omega
    rw [e, Nat.add_mul_div_left _ _ hn, Nat.add_mul_mod_self_left, Nat.div_eq_of_lt hl,
      Nat.mod_eq_of_lt hl]
    exact ⟨by omega, rfl⟩

/-- The state of a freshly constructed engine after `m + 1` calls of `operator()<V>`. -/
theorem philox_state_after_calls (p : PhiloxParams) (hpos : 0 < p.n)
    (hw : p.w ≤ p.digits) (seed : Nat) (V : Bool) (m : Nat) :
    discard p V (m + 1) (init p seed) =
      ⟨counterOf p (m / p.n + 1), (init p seed).K,
        blockOf p V (init p seed).K (counterOf p (m / p.n)), m % p.n⟩ := by
  have hver : (decide ((if V = true then 1 else 0) ≠ 0)) = V := by cases V <;> simp
  have hstep : ∀ (c : Nat) (K Y : List Nat), Y.length = p.n →
      ((p.n = 2 ∨ p.n = 4) ∨ Y = List.replicate p.n 0) →
      (next p (if V then 1 else 0) ⟨counterOf p c, K, Y, p.n - 1⟩).1
        = ⟨counterOf p (c + 1), K, blockOf p V K (counterOf p c), 0⟩ := by
    intro c K Y hY hY0
    obtain ⟨g1, g2, g3, g4, g5, g6⟩ :=
      philox_blockOf_eq p V ⟨counterOf p c, K, Y, p.n - 1 + 1⟩ hY hY0
    have hj : p.n - 1 + 1 = p.n := by omega
    simp only [next, hj, if_true, hver]
    have hX : (increase_counter p (generate p V ⟨counterOf p c, K, Y, p.n⟩)).X
        = counterOf p (c + 1) := by
      rw [hj] at g2
      rw [philox_increase_counter_X p hw hpos _ (by rw [g2]; exact (philox_counterOf_props p c).1),
        g2]
      simp only [counterOf, Function.iterate_succ_apply']
    rw [hj] at g1 g3
    have hK : (increase_counter p (generate p V ⟨counterOf p c, K, Y, p.n⟩)).K = K := g3
    have hYY : (increase_counter p (generate p V ⟨counterOf p c, K, Y, p.n⟩)).Y
        = blockOf p V K (counterOf p c) := g1
    rw [hX, hK, hYY]
  induction m with
  | zero =>
    rw [philox_discard_succ_last]
    have h0 : discard p V 0 (init p seed) = ⟨counterOf p 0, (init p seed).K,
        List.replicate p.n 0, p.n - 1⟩ := rfl
    rw [h0, hstep 0 _ _ (by simp) (Or.inr rfl), Nat.zero_div, Nat.zero_mod]
  | succ m ih =>
    rw [philox_discard_succ_last, ih]
    obtain ⟨_, _, _, _, hlen, hrep⟩ := philox_blockOf_eq p V
      ⟨counterOf p (m / p.n), (init p seed).K, List.replicate p.n 0, 0⟩ (by simp) (Or.inr rfl)
    obtain ⟨hA, hB⟩ := philox_succ_div_mod m p.n hpos
    by_cases hlast : m % p.n = p.n - 1
    · obtain ⟨hd, hmod⟩ := hA hlast
      rw [hlast, hstep (m / p.n + 1) _ _ hlen hrep, hd, hmod]
    · obtain ⟨hd, hmod⟩ := hB hlast
      have hne : ¬ (m % p.n + 1 = p.n) := by omega
      simp only [next, hne, if_false, hd, hmod]

/-- Word `i` of the incremented counter: it is incremented when every lower word was
`2^w - 1` (and so wrapped to 0), and is left alone otherwise. -/
theorem philox_specIncrement_getD (w : Nat) (X : List Nat) (hx : ∀ v ∈ X, v < 2 ^ w) :
    ∀ i, i < X.length →
      ((∀ k, k < i → X.getD k 0 = 2 ^ w - 1) →
        (specIncrement w X).getD i 0 = (X.getD i 0 + 1) % 2 ^ w) ∧
      ((∃ k, k < i ∧ X.getD k 0 ≠ 2 ^ w - 1) → (specIncrement w X).getD i 0 = X.getD i 0) := by
  induction X with
  | nil => intro i hi; simp at hi
  | cons x xs ih =>
    intro i hi
    have h1 := hx x (by simp)
    have hxs : ∀ v ∈ xs, v < 2 ^ w := fun v hv => hx v (by simp [hv])
    have hwrap : (x + 1) % 2 ^ w = 0 ↔ x = 2 ^ w - 1 := by
      constructor
      · intro hv
        rcases Nat.lt_or_ge (x + 1) (2 ^ w) with h | h
        · rw [Nat.mod_eq_of_lt h] at hv
          omega
        · omega
      · intro hv
        have : x + 1 = 2 ^ w := by omega
        rw [this, Nat.mod_self]
    simp only [specIncrement]
    cases i with
    | zero =>
      constructor
      · intro _
        by_cases hv : (x + 1) % 2 ^ w = 0
        · rw [if_pos hv]; simp [hv]
        · rw [if_neg hv]; simp
      · rintro ⟨k, hk, _⟩
        omega
    | succ i =>
      have hi2 : i < xs.length := by simpa using hi
      obtain ⟨ihA, ihB⟩ := ih hxs i hi2
      constructor
      · intro hall
        have h0 : x = 2 ^ w - 1 := by simpa using hall 0 (by omega)
        rw [if_pos (hwrap.mpr h0)]
        have := ihA (fun k hk => by simpa using hall (k + 1) (by omega))
        simpa using this
      · rintro ⟨k, hk, hne⟩
        by_cases hv : (x + 1) % 2 ^ w = 0
        · rw [if_pos hv]
          have h0 := hwrap.mp hv
          cases k with
          | zero => exact absurd h0 (by simpa using hne)
          | succ k =>
            have := ihB ⟨k, by omega, by simpa using hne⟩
            simpa using this
        · rw [if_neg hv]
          simp

/-- Claim C16.  For a counter `X` of `n` words, each below `2^w`, `increase_counter`
leaves `n` words below `2^w` whose little-endian value is the old value plus one modulo
`2^(w*n)`; word `i` is incremented modulo `2^w` when all lower words were `2^w - 1` (they
wrapped to 0 and carried) and is unchanged otherwise; the result is the reference
increment `specIncrement`, and `K`, `Y`, `j` are not touched. -/
theorem philox_increase_counter_value (p : PhiloxParams) (hw : p.w ≤ p.digits)
    (hn : 0 < p.n) (e : philox_engine) (hlen : e.X.length = p.n)
    (hx : ∀ v ∈ e.X, v < 2 ^ p.w) :
    (increase_counter p e).X.length = p.n ∧
    (∀ v ∈ (increase_counter p e).X, v < 2 ^ p.w) ∧
    counterValue p.w (increase_counter p e).X
      = (counterValue p.w e.X + 1) % 2 ^ (p.w * p.n) ∧
    (∀ i, i < p.n → (∀ k, k < i → e.X.getD k 0 = 2 ^ p.w - 1) →
      (increase_counter p e).X.getD i 0 = (e.X.getD i 0 + 1) % 2 ^ p.w) ∧
    (∀ i, i < p.n → (∃ k, k < i ∧ e.X.getD k 0 ≠ 2 ^ p.w - 1) →
      (increase_counter p e).X.getD i 0 = e.X.getD i 0) ∧
    (increase_counter p e).X = specIncrement p.w e.X ∧
    (increase_counter p e).K = e.K ∧ (increase_counter p e).Y = e.Y ∧
    (increase_counter p e).j = e.j := by
  have hX := philox_increase_counter_X p hw hn e hlen
  obtain ⟨s1, s2, s3⟩ := philox_specIncrement_value p.w e.X hx
  have hg := philox_specIncrement_getD p.w e.X hx
  rw [hX]
  refine ⟨by rw [s1, hlen], s2, by rw [s3, hlen], ?_, ?_, rfl, rfl, rfl, rfl⟩
  · intro i hi hall
    exact (hg i (by omega)).1 hall
  · intro i hi hex
    exact (hg i (by omega)).2 hex

/-- Witness for claim C16: `philox4x32` with the counter `{2^32 - 1, 2^32 - 1, 7, 0}`. -/
theorem philox_increase_counter_value_witness :
    (increase_counter (philox4x32 64) ⟨[4294967295, 4294967295, 7, 0], [1, 2], [0, 0, 0, 0], 3⟩).X
      = [0, 0, 8, 0] ∧
    counterValue 32 [0, 0, 8, 0] = (counterValue 32 [4294967295, 4294967295, 7, 0] + 1)
      % 2 ^ (32 * 4) := by
  have h := philox_increase_counter_value (philox4x32 64) (by decide) (by decide)
    ⟨[4294967295, 4294967295, 7, 0], [1, 2], [0, 0, 0, 0], 3⟩ rfl (by decide)
  have hX : (increase_counter (philox4x32 64)
      ⟨[4294967295, 4294967295, 7, 0], [1, 2], [0, 0, 0, 0], 3⟩).X = [0, 0, 8, 0] := by decide
  refine ⟨hX, ?_⟩
  have h3 := h.2.2.1
  rw [hX] at h3
  exact h3

/-- Claim C17.  For every seed, variant `V` and `m` with `m / n < 2^(w*n)`: the
`(m+1)`-th call of `operator()<V>` on a freshly constructed engine returns word `m % n`
of the block that `generate<V>` computes from the constructed key and the counter of
value `m / n`; no number of calls changes the stored key; after the call `Y` is that
block, `X` is that counter incremented once, and `j = m % n`. -/
theorem philox_call_returns_block_word (p : PhiloxParams) (hn : 0 < p.n)
    (hw : p.w ≤ p.digits) (seed : Nat) (V : Bool) (m : Nat)
    (hm : m / p.n < 2 ^ (p.w * p.n)) :
    (next p (if V then 1 else 0) (discard p V m (init p seed))).2
      = (blockOf p V (init p seed).K (counterOf p (m / p.n))).getD (m % p.n) 0 ∧
    ((counterOf p (m / p.n)).length = p.n ∧ (∀ x ∈ counterOf p (m / p.n), x < 2 ^ p.w) ∧
      counterValue p.w (counterOf p (m / p.n)) = m / p.n) ∧
    (∀ z, (discard p V z (init p seed)).K = (init p seed).K) ∧
    (next p (if V then 1 else 0) (discard p V m (init p seed))).1.Y
      = blockOf p V (next p (if V then 1 else 0) (discard p V m (init p seed))).1.K
          (counterOf p (m / p.n)) ∧
    (next p (if V then 1 else 0) (discard p V m (init p seed))).1.X
      = specIncrement p.w (counterOf p (m / p.n)) ∧
    counterValue p.w (next p (if V then 1 else 0) (discard p V m (init p seed))).1.X
      = (m / p.n + 1) % 2 ^ (p.w * p.n) ∧
    (next p (if V then 1 else 0) (discard p V m (init p seed))).1.j = m % p.n := by
  have hS := philox_state_after_calls p hn hw seed V m
  rw [philox_discard_succ_last] at hS
  obtain ⟨c1, c2, c3⟩ := philox_counterOf_props p (m / p.n)
  obtain ⟨d1, d2, d3⟩ := philox_counterOf_props p (m / p.n + 1)
  have hK : ∀ z, (discard p V z (init p seed)).K = (init p seed).K := by
    intro z
    cases z with
    | zero => rfl
    | succ z => rw [philox_state_after_calls p hn hw seed V z]
  have hret : (next p (if V then 1 else 0) (discard p V m (init p seed))).2
      = (next p (if V then 1 else 0) (discard p V m (init p seed))).1.Y.getD
          (next p (if V then 1 else 0) (discard p V m (init p seed))).1.j 0 := rfl
  rw [hret, hS]
  refine ⟨rfl, ⟨c1, c2, ?_⟩, hK, rfl, ?_, d3, rfl⟩
  · rw [c3, Nat.mod_eq_of_lt hm]
  · simp only [counterOf, Function.iterate_succ_apply']

set_option maxRecDepth 100000 in
/-- Witness for claim C17: the sixth call (`m = 5`) on the default-seeded `philox4x32`
with the corrected round function returns word 1 of the block for counter 1. -/
theorem philox_call_returns_block_word_witness :
    (next (philox4x32 64) 1 (discard (philox4x32 64) true 5
        (init (philox4x32 64) default_seed))).2
      = (blockOf (philox4x32 64) true [20111115, 0] [1, 0, 0, 0]).getD 1 0 := by
  have h := (philox_call_returns_block_word (philox4x32 64) (by decide) (by decide)
    default_seed true 5 (by decide)).1
  have hc : counterOf (philox4x32 64) (5 / (philox4x32 64).n) = [1, 0, 0, 0] := by decide
  have hk : (init (philox4x32 64) default_seed).K = [20111115, 0] := by decide
  rw [hc, hk] at h
  exact h

end PhiloxTheoremsThree

/-! ## Theorems: `uint128` right shift and `mulhilo` -/

section MulhiloTheorems
open stdmock stdmock.uint128 stdmock.philox_engine

/-- Both halves of a product computed by `operator*` are 64-bit words. -/
theorem uint128_mul_halves_lt (a b : uint128) :
    (mul a b).high < 2 ^ 64 ∧ (mul a b).low < 2 ^ 64 := by
  constructor
  · simp only [mul, add]
    exact Nat.mod_lt _ (by norm_num)
  · simp only [mul, add]
    exact Nat.mod_lt _ (by norm_num)

/-- The right shift `operator>>=` on a value with 64-bit halves divides by `2^n`. -/
theorem uint128_shr_value (a : uint128) (hh : a.high < 2 ^ 64) (hl : a.low < 2 ^ 64)
    (n : Nat) :
    toNat (shr a n) = toNat a / 2 ^ n ∧ (shr a n).high < 2 ^ 64 ∧ (shr a n).low < 2 ^ 64 := by
  unfold shr
  by_cases hn : n ≥ 64
  · rw [if_pos hn]
    simp only [uint128.toNat, Nat.shiftRight_eq_div_pow, Nat.zero_mul, Nat.zero_add]
    have e : 2 ^ n = 2 ^ 64 * 2 ^ (n - 64) := by
      rw [← pow_add]
      congr 1
      omega
    refine ⟨?_, by norm_num, lt_of_le_of_lt (Nat.div_le_self _ _) hh⟩
    rw [e, ← Nat.div_div_eq_div_mul]
    congr 1
    omega
  · rw [if_neg hn]
    have hAB : 2 ^ n * 2 ^ (64 - n) = 2 ^ 64 := by
      rw [← pow_add]
      congr 1
      omega
    have hA : 0 < 2 ^ n := Nat.pos_of_ne_zero (by positivity)
    have hB : 0 < 2 ^ (64 - n) := Nat.pos_of_ne_zero (by positivity)
    have hlow : a.low / 2 ^ n < 2 ^ (64 - n) := by
      rw [Nat.div_lt_iff_lt_mul hA, Nat.mul_comm, hAB]
      exact hl
    have hmid : (a.high <<< (64 - n)) % 2 ^ 64 = (a.high % 2 ^ n) <<< (64 - n) := by
      rw [Nat.shiftLeft_eq, Nat.shiftLeft_eq, ← hAB, Nat.mul_mod_mul_right]
    have hor : ((a.high <<< (64 - n)) % 2 ^ 64) ||| (a.low / 2 ^ n)
        = (a.high % 2 ^ n) * 2 ^ (64 - n) + a.low / 2 ^ n := by
      rw [hmid, Nat.shiftLeft_eq, Nat.mul_comm, ← Nat.mul_add_lt_is_or hlow]
    simp only [uint128.toNat, Nat.shiftRight_eq_div_pow]
    rw [hor]
    clear hor hmid
    have hr : a.high % 2 ^ n < 2 ^ n := Nat.mod_lt _ hA
    have hdm := Nat.div_add_mod a.high (2 ^ n)
    have hq : a.high / 2 ^ n ≤ a.high := Nat.div_le_self _ _
    generalize a.high / 2 ^ n = q at *
    generalize a.high % 2 ^ n = r at *
    generalize ht : a.low / 2 ^ n = t at *
    refine ⟨?_, by omega, ?_⟩
    · have e1 : a.high * 2 ^ 64 + a.low = a.low + (a.high * 2 ^ (64 - n)) * 2 ^ n := by
        rw [← hAB]; ring
      rw [e1, Nat.add_mul_div_right _ _ hA, ← hdm, ← hAB, ht]
      ring
    · have : (r + 1) * 2 ^ (64 - n) ≤ 2 ^ n * 2 ^ (64 - n) :=
        Nat.mul_le_mul_right _ (by omega)
      rw [hAB] at this
      have e2 : (r + 1) * 2 ^ (64 - n) = r * 2 ^ (64 - n) + 2 ^ (64 - n) := by ring
      omega

/-- The native type chosen by `mulhilo` for `w ≤ 32` has at least `2 * w` bits. -/
theorem philox_upgraded_width (p : PhiloxParams) (hw32 : p.w ≤ 32) (h16 : 16 ≤ p.fast16)
    (h32 : 32 ≤ p.fast32) (h64 : 64 ≤ p.fast64) : 2 * p.w ≤ upgradedDigits p := by
  unfold upgradedDigits
  split_ifs <;> omega

/-- The product of two `w`-bit words is below `2^(2*w)`. -/
theorem philox_product_lt (w a b : Nat) (ha : a < 2 ^ w) (hb : b < 2 ^ w) :
    a * b < 2 ^ (2 * w) := by
  have e : 2 ^ (2 * w) = 2 ^ w * 2 ^ w := by rw [two_mul, pow_add]
  rw [e]
  exact Nat.mul_lt_mul_of_lt_of_le ha (Nat.le_of_lt hb) (Nat.pos_of_ne_zero (by positivity))

/-- The pair `mulhilo` returns, in terms of the exact product. -/
theorem philox_mulhilo_eq (p : PhiloxParams) (hw64 : p.w ≤ 64)
    (hwd : p.w ≤ p.digits) (h16 : 16 ≤ p.fast16) (h32 : 32 ≤ p.fast32) (h64 : 64 ≤ p.fast64)
    (a b : Nat) (ha : a < 2 ^ p.w) (hb : b < 2 ^ p.w) :
    mulhilo p a b = (a * b / 2 ^ p.w, a * b % 2 ^ p.w) := by
  have hprod := philox_product_lt p.w a b ha hb
  have hpw : 0 < 2 ^ p.w := Nat.pos_of_ne_zero (by positivity)
  have hhi : a * b / 2 ^ p.w < 2 ^ p.w := by
    rw [Nat.div_lt_iff_lt_mul hpw, ← pow_add, ← two_mul]
    exact hprod
  have hhid : a * b / 2 ^ p.w < 2 ^ p.digits :=
    lt_of_lt_of_le hhi (Nat.pow_le_pow_right (by norm_num) hwd)
  unfold mulhilo
  by_cases hw32 : p.w ≤ 32
  · rw [if_pos hw32]
    have hU := philox_upgraded_width p hw32 h16 h32 h64
    have hfit : a * b < 2 ^ upgradedDigits p :=
      lt_of_lt_of_le hprod (Nat.pow_le_pow_right (by norm_num) hU)
    simp only [Nat.mod_eq_of_lt hfit, Nat.shiftRight_eq_div_pow, philox_mask_mod p hwd,
      Nat.mod_eq_of_lt hhid]
  · rw [if_neg hw32]
    have ha64 : a < 2 ^ 64 := lt_of_lt_of_le ha (Nat.pow_le_pow_right (by norm_num) hw64)
    have hb64 : b < 2 ^ 64 := lt_of_lt_of_le hb (Nat.pow_le_pow_right (by norm_num) hw64)
    have hv := uint128_mul_high_low a b ha64 hb64
    obtain ⟨hh, hl⟩ := uint128_mul_halves_lt (ofWord a) (ofWord b)
    obtain ⟨s1, s2, s3⟩ := uint128_shr_value _ hh hl p.w
    have hvn : toNat (mul (ofWord a) (ofWord b)) = a * b := hv
    rw [hvn] at s1
    have hw2 : (2 : Nat) ^ p.w ≤ 2 ^ 64 := Nat.pow_le_pow_right (by norm_num) hw64
    have hlowS : (shr (mul (ofWord a) (ofWord b)) p.w).low = a * b / 2 ^ p.w := by
      unfold uint128.toNat at s1
      omega
    have hlowP : (mul (ofWord a) (ofWord b)).low = a * b % 2 ^ 64 := by
      omega
    simp only [toWord, hlowS, hlowP, philox_mask_mod p hwd, Nat.mod_eq_of_lt hhid,
      Nat.mod_mod_of_dvd _ (pow_dvd_pow 2 hw64)]

/-- Claim C15.  For every word size `1 ≤ w ≤ 64` (with `w` at most the width of
`UIntType`, and the `uint_fastN_t` types at least `N` bits wide) and all `a, b < 2^w`:
`mulhilo(a, b)` returns `(hi, lo)` with `hi < 2^w`, `lo < 2^w` and
`hi * 2^w + lo = a * b`.  For `w ≤ 32` the product is formed in the native type
`upgraded_type`, where it does not wrap (the type has 64 bits when the three
`uint_fastN_t` types do); for `w > 32` it is the `uint128` product, which is exact. -/
theorem philox_mulhilo_exact (p : PhiloxParams) (hw1 : 1 ≤ p.w) (hw64 : p.w ≤ 64)
    (hwd : p.w ≤ p.digits) (h16 : 16 ≤ p.fast16) (h32 : 32 ≤ p.fast32) (h64 : 64 ≤ p.fast64)
    (a b : Nat) (ha : a < 2 ^ p.w) (hb : b < 2 ^ p.w) :
    (mulhilo p a b).1 < 2 ^ p.w ∧ (mulhilo p a b).2 < 2 ^ p.w ∧
    (mulhilo p a b).1 * 2 ^ p.w + (mulhilo p a b).2 = a * b ∧
    (p.w ≤ 32 →
      mulhilo p a b = ((((a * b) % 2 ^ upgradedDigits p) >>> p.w) % 2 ^ p.digits,
        (((a * b) % 2 ^ upgradedDigits p) % 2 ^ p.digits) &&& philox_engine.max p) ∧
      (a * b) % 2 ^ upgradedDigits p = a * b ∧
      (p.fast16 = 64 → p.fast32 = 64 → p.fast64 = 64 → upgradedDigits p = 64)) ∧
    (32 < p.w →
      mulhilo p a b
        = ((toWord (shr (mul (ofWord a) (ofWord b)) p.w)) % 2 ^ p.digits,
          ((toWord (mul (ofWord a) (ofWord b))) % 2 ^ p.digits) &&& philox_engine.max p) ∧
      toNat (mul (ofWord a) (ofWord b)) = a * b) := by
  have heq := philox_mulhilo_eq p hw64 hwd h16 h32 h64 a b ha hb
  have hprod := philox_product_lt p.w a b ha hb
  have hpw : 0 < 2 ^ p.w := Nat.pos_of_ne_zero (by positivity)
  refine ⟨?_, ?_, ?_, ?_, ?_⟩
  · rw [heq]
    show a * b / 2 ^ p.w < 2 ^ p.w
    rw [Nat.div_lt_iff_lt_mul hpw, ← pow_add, ← two_mul]
    exact hprod
  · rw [heq]
    exact Nat.mod_lt _ hpw
  · rw [heq]
    show a * b / 2 ^ p.w * 2 ^ p.w + a * b % 2 ^ p.w = a * b
    exact Nat.div_add_mod' _ _
  · intro hw32
    refine ⟨?_, ?_, ?_⟩
    · unfold mulhilo
      rw [if_pos hw32]
    · exact Nat.mod_eq_of_lt (lt_of_lt_of_le hprod
        (Nat.pow_le_pow_right (by norm_num) (philox_upgraded_width p hw32 h16 h32 h64)))
    · intro e1 e2 e3
      unfold upgradedDigits
      split_ifs <;> assumption
  · intro hw32
    refine ⟨?_, ?_⟩
    · unfold mulhilo
      rw [if_neg (by omega)]
    · exact uint128_mul_high_low a b
        (lt_of_lt_of_le ha (Nat.pow_le_pow_right (by norm_num) hw64))
        (lt_of_lt_of_le hb (Nat.pow_le_pow_right (by norm_num) hw64))

set_option maxRecDepth 100000 in
/-- Witness for claim C15: `philox4x64` at `a = 2^64 - 1`, `b = 0xD2E7470EE14C6C93`, and
`philox4x32` at `a = 2^32 - 1`, `b = 0xD2511F53`. -/
theorem philox_mulhilo_exact_witness :
    (mulhilo philox4x64 18446744073709551615 0xD2E7470EE14C6C93).1 * 2 ^ 64
        + (mulhilo philox4x64 18446744073709551615 0xD2E7470EE14C6C93).2
      = 18446744073709551615 * 0xD2E7470EE14C6C93 ∧
    (mulhilo (philox4x32 64) 4294967295 0xD2511F53).1 * 2 ^ 32
        + (mulhilo (philox4x32 64) 4294967295 0xD2511F53).2
      = 4294967295 * 0xD2511F53 :=
  ⟨(philox_mulhilo_exact philox4x64 (by decide) (by decide) (by decide) (by decide)
      (by decide) (by decide) 18446744073709551615 0xD2E7470EE14C6C93 (by decide)
      (by decide)).2.2.1,
    (philox_mulhilo_exact (philox4x32 64) (by decide) (by decide) (by decide) (by decide)
      (by decide) (by decide) 4294967295 0xD2511F53 (by decide) (by decide)).2.2.1⟩

end MulhiloTheorems

/-! ## Theorems: `uint128::operator%=` -/

section Uint128ModTheorems
open stdmock stdmock.uint128

/-- The `operator<=` of the source compares values. -/
theorem uint128_le_iff (a o : uint128) (ha : a.low < 2 ^ 64) (ho : o.low < 2 ^ 64) :
    le a o = true ↔ toNat a ≤ toNat o := by
  simp only [le, uint128.toNat, Bool.or_eq_true, Bool.and_eq_true, decide_eq_true_eq,
    beq_iff_eq]
  constructor
  · rintro (h | ⟨h1, h2⟩) <;> omega
  · intro h
    by_cases h1 : a.high < o.high
    · exact Or.inl h1
    · exact Or.inr ⟨by omega, by omega⟩

/-- The `operator>=` of the source compares values. -/
theorem uint128_ge_iff (a o : uint128) (ha : a.low < 2 ^ 64) (ho : o.low < 2 ^ 64) :
    ge a o = true ↔ toNat o ≤ toNat a := by
  simp only [ge, uint128.toNat, Bool.or_eq_true, Bool.and_eq_true, decide_eq_true_eq,
    beq_iff_eq]
  constructor
  · rintro (h | ⟨h1, h2⟩) <;> omega
  · intro h
    by_cases h1 : a.high > o.high
    · exact Or.inl h1
    · exact Or.inr ⟨by omega, by omega⟩

/-- A left shift by one bit of a value below `2^127` doubles it without overflow, and
evaluates no undefined native shift. -/
theorem uint128_shlAssign_one (x : uint128) (hh : x.high < 2 ^ 64) (hl : x.low < 2 ^ 64)
    (h : toNat x < 2 ^ 127) :
    ∃ x1, shlAssign x 1 = some x1 ∧ toNat x1 = 2 * toNat x ∧ x1.high < 2 ^ 64 ∧
      x1.low < 2 ^ 64 := by
  have h63 : x.high < 2 ^ 63 := by
    unfold uint128.toNat at h
    omega
  have hs : shlAssign x 1 = some ⟨(x.high <<< 1) % 2 ^ 64 ||| x.low >>> 63,
      (x.low <<< 1) % 2 ^ 64⟩ := by
    simp [shlAssign, shl64, shr64]
  have hor : (x.high <<< 1) % 2 ^ 64 ||| x.low >>> 63 = 2 * x.high + x.low / 2 ^ 63 := by
    have hb : x.low / 2 ^ 63 < 2 ^ 1 := by omega
    have e := Nat.mul_add_lt_is_or hb x.high
    rw [Nat.shiftLeft_eq, Nat.shiftRight_eq_div_pow, Nat.mod_eq_of_lt (by omega)]
    rw [pow_one] at e
    rw [Nat.mul_comm x.high, pow_one, ← e]
  rw [hor] at hs
  refine ⟨_, hs, ?_, ?_, ?_⟩
  · simp only [uint128.toNat, Nat.shiftLeft_eq]
    omega
  · show 2 * x.high + x.low / 2 ^ 63 < 2 ^ 64
    omega
  · exact Nat.mod_lt _ (by norm_num)

/-- A right shift by one bit halves the value and evaluates no undefined native shift. -/
theorem uint128_shrChecked_one (x : uint128) (hh : x.high < 2 ^ 64) (hl : x.low < 2 ^ 64) :
    shrChecked x 1 = some (shr x 1) ∧ toNat (shr x 1) = toNat x / 2 ∧
      (shr x 1).high < 2 ^ 64 ∧ (shr x 1).low < 2 ^ 64 := by
  have h := uint128_shr_value x hh hl 1
  rw [pow_one] at h
  refine ⟨?_, h⟩
  simp [shrChecked, shr, shl64, shr64]

/-- The `operator-=` of the source is exact when the subtrahend is not larger. -/
theorem uint128_sub_value (a v : uint128) (hah : a.high < 2 ^ 64) (hal : a.low < 2 ^ 64)
    (hvh : v.high < 2 ^ 64) (hvl : v.low < 2 ^ 64) (h : toNat v ≤ toNat a) :
    toNat (sub a v) = toNat a - toNat v ∧ (sub a v).high < 2 ^ 64 ∧ (sub a v).low < 2 ^ 64 := by
  simp only [sub, uint128.toNat] at h ⊢
  split_ifs <;> omega

/-- The first loop of `operator%=`: from `x` it returns `x * 2^k`, the first doubling of
`x` that exceeds `y`, provided `y < 2^127`; `f + 1` evaluations of the loop test are
enough when `y < x * 2^f`. -/
theorem uint128_modLoop1_spec (y : uint128) (hyl : y.low < 2 ^ 64) (hy : toNat y < 2 ^ 127) :
    ∀ (f : Nat) (x : uint128), x.high < 2 ^ 64 → x.low < 2 ^ 64 →
      toNat y < toNat x * 2 ^ f →
      ∃ x1 k, modLoop1 (f + 1) x y = some x1 ∧ toNat x1 = toNat x * 2 ^ k ∧ k ≤ f ∧
        x1.high < 2 ^ 64 ∧ x1.low < 2 ^ 64 ∧ toNat y < toNat x1 ∧
        (k = 0 ∨ toNat x * 2 ^ (k - 1) ≤ toNat y) := by
  intro f
  induction f with
  | zero =>
    intro x hxh hxl hlt
    have hnle : ¬ (le x y = true) := by
      rw [uint128_le_iff x y hxl hyl]
      omega
    refine ⟨x, 0, ?_, by simp, le_refl _, hxh, hxl, by omega, Or.inl rfl⟩
    simp [modLoop1, hnle]
  | succ f ih =>
    intro x hxh hxl hlt
    by_cases hle : le x y = true
    · have hv := (uint128_le_iff x y hxl hyl).mp hle
      obtain ⟨x1, hs, hx1, hx1h, hx1l⟩ := uint128_shlAssign_one x hxh hxl (by omega)
      have hlt1 : toNat y < toNat x1 * 2 ^ f := by
        rw [hx1]
        have e : 2 * toNat x * 2 ^ f = toNat x * 2 ^ (f + 1) := by ring
        rw [e]
        exact hlt
      obtain ⟨x2, k, h1, h2, h3, h4, h5, h6, h7⟩ := ih x1 hx1h hx1l hlt1
      refine ⟨x2, k + 1, ?_, ?_, by omega, h4, h5, h6, Or.inr ?_⟩
      · rw [modLoop1, if_pos hle, hs]
        exact h1
      · rw [h2, hx1]
        ring
      · rw [Nat.add_sub_cancel]
        rcases h7 with h7 | h7
        · rw [h7]
          simpa using hv
        · have hkpos : 0 < k := by
            rcases Nat.eq_zero_or_pos k with hk0 | hk0
            · rw [hk0] at h7 h2
              simp only [Nat.zero_sub, pow_zero, Nat.mul_one] at h7 h2
              omega
            · exact hk0
          rw [hx1] at h7
          have e : toNat x * 2 ^ k = 2 * toNat x * 2 ^ (k - 1) := by
            have hk : k = (k - 1) + 1 := by omega
            conv_lhs => rw [hk]
            ring
          rw [e]
          exact h7
    · have hv : ¬ toNat x ≤ toNat y := fun h => hle ((uint128_le_iff x y hxl hyl).mpr h)
      refine ⟨x, 0, ?_, by simp, by omega, hxh, hxl, by omega, Or.inl rfl⟩
      rw [modLoop1, if_neg hle]

/-- The second loop of `operator%=`: started with `x = b * 2^j` and `*this < 2 * x`, it
returns `*this mod b`; `j + 2` evaluations of the loop test are enough. -/
theorem uint128_modLoop2_spec (b : uint128) (hbl : b.low < 2 ^ 64) :
    ∀ (f j : Nat) (t x : uint128), t.high < 2 ^ 64 → t.low < 2 ^ 64 → x.high < 2 ^ 64 →
      x.low < 2 ^ 64 → toNat x = toNat b * 2 ^ j → toNat t < 2 * toNat x → j + 2 ≤ f →
      ∃ r, modLoop2 b f t x = some r ∧ toNat r = toNat t % toNat b ∧ r.high < 2 ^ 64 ∧
        r.low < 2 ^ 64 := by
  intro f
  induction f with
  | zero =>
    intro j t x _ _ _ _ _ _ hf
    omega
  | succ f ih =>
    intro j t x hth htl hxh hxl hx ht hf
    by_cases hge : ge t b = true
    · have hv := (uint128_ge_iff t b htl hbl).mp hge
      obtain ⟨hs, hsv, hsh, hsl⟩ := uint128_shrChecked_one x hxh hxl
      have ht1 : ∃ t1, (if ge t x = true then sub t x else t) = t1 ∧ toNat t1 < toNat x ∧
          toNat t1 % toNat b = toNat t % toNat b ∧ t1.high < 2 ^ 64 ∧ t1.low < 2 ^ 64 ∧
          (toNat x ≤ toNat t → toNat t1 = toNat t - toNat x) := by
        by_cases hgx : ge t x = true
        · have hvx := (uint128_ge_iff t x htl hxl).mp hgx
          obtain ⟨s1, s2, s3⟩ := uint128_sub_value t x hth htl hxh hxl hvx
          refine ⟨_, rfl, ?_, ?_, ?_, ?_, ?_⟩
          · rw [if_pos hgx, s1]; omega
          · rw [if_pos hgx, s1, hx]
            rw [hx] at hvx
            exact Nat.sub_mul_mod hvx
          · rw [if_pos hgx]; exact s2
          · rw [if_pos hgx]; exact s3
          · intro _; rw [if_pos hgx, s1]
        · have hvx : ¬ toNat x ≤ toNat t := fun h => hgx ((uint128_ge_iff t x htl hxl).mpr h)
          refine ⟨_, rfl, ?_, ?_, ?_, ?_, ?_⟩
          · rw [if_neg hgx]; omega
          · rw [if_neg hgx]
          · rw [if_neg hgx]; exact hth
          · rw [if_neg hgx]; exact htl
          · intro h; exact absurd h hvx
      obtain ⟨t1, ht1e, ht1lt, ht1m, ht1h, ht1l, ht1s⟩ := ht1
      have hstep : modLoop2 b (f + 1) t x = modLoop2 b f t1 (shr x 1) := by
        rw [modLoop2, if_pos hge, hs]
        simp only [ht1e]
      rw [hstep]
      cases j with
      | zero =>
        rw [pow_zero, Nat.mul_one] at hx
        have hsub := ht1s (by omega)
        have hlt : toNat t1 < toNat b := by omega
        have hnge : ¬ (ge t1 b = true) := by
          rw [uint128_ge_iff t1 b ht1l hbl]
          omega
        obtain ⟨f1, rfl⟩ : ∃ f1, f = f1 + 1 := ⟨f - 1, by omega⟩
        refine ⟨t1, ?_, ?_, ht1h, ht1l⟩
        · rw [modLoop2, if_neg hnge]
        · rw [← ht1m, Nat.mod_eq_of_lt hlt]
      | succ j =>
        have hx1 : toNat (shr x 1) = toNat b * 2 ^ j := by
          rw [hsv, hx, pow_succ, ← Nat.mul_assoc, Nat.mul_div_cancel _ (by norm_num)]
        have hx2 : toNat x = 2 * toNat (shr x 1) := by
          rw [hx1, hx]; ring
        obtain ⟨r, h1, h2, h3, h4⟩ := ih j t1 (shr x 1) ht1h ht1l hsh hsl hx1 (by omega)
          (by omega)
        exact ⟨r, h1, by rw [h2, ht1m], h3, h4⟩
    · have hv : ¬ toNat b ≤ toNat t := fun h => hge ((uint128_ge_iff t b htl hbl).mpr h)
      refine ⟨t, ?_, ?_, hth, htl⟩
      · rw [modLoop2, if_neg hge]
      · rw [Nat.mod_eq_of_lt (by omega)]

/-- With more evaluations allowed, the first loop returns the same result. -/
theorem uint128_modLoop1_mono (y : uint128) :
    ∀ (f : Nat) (x r : uint128), modLoop1 f x y = some r → ∀ g, f ≤ g →
      modLoop1 g x y = some r := by
  intro f
  induction f with
  | zero => intro x r h; simp [modLoop1] at h
  | succ f ih =>
    intro x r h g hg
    obtain ⟨g1, rfl⟩ : ∃ g1, g = g1 + 1 := ⟨g - 1, by omega⟩
    rw [modLoop1] at h ⊢
    by_cases hle : le x y = true
    · rw [if_pos hle] at h ⊢
      cases hs : shlAssign x 1 with
      | none => rw [hs] at h; simp at h
      | some x1 =>
        rw [hs] at h
        simp only at h ⊢
        exact ih x1 r h g1 (by omega)
    · rw [if_neg hle] at h ⊢
      exact h

/-- Claim C13.  For every 128-bit `a` and every non-zero 128-bit `b`, `a % b` returns
(with 129 evaluations of each loop test allowed, or more) the value `a mod b`: the
unique `r < b` with `a = q * b + r`.  The first loop leaves `x = b * 2^k`, the first
doubling of `b` above `a / 2`, computed exactly; and every doubling `x <<= 1` executed
under the loop test `x <= y` is exact, staying below `2^128`. -/
theorem uint128_mod_correct (a b : uint128) (hah : a.high < 2 ^ 64) (hal : a.low < 2 ^ 64)
    (hbh : b.high < 2 ^ 64) (hbl : b.low < 2 ^ 64) (hb0 : toNat b ≠ 0) (fuel : Nat)
    (hf : 129 ≤ fuel) :
    ∃ r, modAssign fuel a b = some r ∧ toNat r = toNat a % toNat b ∧
      r.high < 2 ^ 64 ∧ r.low < 2 ^ 64 ∧ toNat r < toNat b ∧
      toNat a = toNat a / toNat b * toNat b + toNat r ∧
      (∀ q s, s < toNat b → toNat a = q * toNat b + s → s = toNat r) ∧
      (∃ x k, modLoop1 fuel b (shr a 1) = some x ∧ toNat x = toNat b * 2 ^ k ∧
        toNat x < 2 ^ 128 ∧ toNat a / 2 < toNat x ∧
        (k = 0 ∨ toNat b * 2 ^ (k - 1) ≤ toNat a / 2)) ∧
      (∀ x : uint128, x.high < 2 ^ 64 → x.low < 2 ^ 64 → le x (shr a 1) = true →
        ∃ x1, shlAssign x 1 = some x1 ∧ toNat x1 = 2 * toNat x ∧ toNat x1 < 2 ^ 128) := by
  have hbpos : 0 < toNat b := Nat.pos_of_ne_zero hb0
  obtain ⟨hs, hsv, hsh, hsl⟩ := uint128_shrChecked_one a hah hal
  have ha128 : toNat a < 2 ^ 128 := by unfold uint128.toNat; omega
  have hy : toNat (shr a 1) < 2 ^ 127 := by rw [hsv]; omega
  have hlt : toNat (shr a 1) < toNat b * 2 ^ 127 := by
    have : 1 * 2 ^ 127 ≤ toNat b * 2 ^ 127 := Nat.mul_le_mul_right _ hbpos
    omega
  obtain ⟨x, k, h1, h2, h3, h4, h5, h6, h7⟩ :=
    uint128_modLoop1_spec (shr a 1) hsl hy 127 b hbh hbl hlt
  have h1f := uint128_modLoop1_mono (shr a 1) _ b x h1 fuel (by omega)
  obtain ⟨r, g1, g2, g3, g4⟩ := uint128_modLoop2_spec b hbl fuel k a x hah hal h4 h5 h2
    (by omega) (by omega)
  have hrlt : toNat r < toNat b := by rw [g2]; exact Nat.mod_lt _ hbpos
  refine ⟨r, ?_, g2, g3, g4, hrlt, ?_, ?_, ⟨x, k, h1f, h2, ?_, by omega, ?_⟩, ?_⟩
  · rw [modAssign, hs]
    simp only [h1f]
    exact g1
  · rw [g2]
    exact (Nat.div_add_mod' _ _).symm
  · intro q s hs2 heq
    rw [g2, heq, Nat.mul_comm, Nat.mul_add_mod, Nat.mod_eq_of_lt hs2]
  · unfold uint128.toNat; omega
  · rw [← hsv]; exact h7
  · intro x0 hx0h hx0l hle
    have hv := (uint128_le_iff x0 (shr a 1) hx0l hsl).mp hle
    obtain ⟨x1, e1, e2, e3, e4⟩ := uint128_shlAssign_one x0 hx0h hx0l (by omega)
    exact ⟨x1, e1, e2, by unfold uint128.toNat; omega⟩

set_option maxRecDepth 100000 in
/-- Witness for claim C13: `(2^64 + 5) % 10 = 1`. -/
theorem uint128_mod_correct_witness :
    modAssign 129 ⟨1, 5⟩ ⟨0, 10⟩ = some ⟨0, 1⟩ ∧
    ∃ r, modAssign 129 ⟨1, 5⟩ ⟨0, 10⟩ = some r ∧
      toNat r = toNat ⟨1, 5⟩ % toNat ⟨0, 10⟩ := by
  refine ⟨by decide, ?_⟩
  obtain ⟨r, h1, h2, _⟩ := uint128_mod_correct ⟨1, 5⟩ ⟨0, 10⟩ (by decide) (by decide)
    (by decide) (by decide) (by decide) 129 (by decide)
  exact ⟨r, h1, h2⟩

end Uint128ModTheorems

/-! ## Theorems: the `uint128` shifts -/

section Uint128ShiftTheorems
open stdmock stdmock.uint128

/-- The `operator<<` of the source evaluates no undefined native shift for amounts below
128, so its checked form agrees with `shl`. -/
theorem uint128_shlChecked_defined (a : uint128) (n : Nat) (hn : n < 128) :
    shlChecked a n = some (shl a n) := by
  unfold shlChecked shl
  by_cases h64 : n ≥ 64
  · have : n - 64 < 64 := by omega
    simp [h64, shl64, this]
  · by_cases h0 : n = 0
    · simp [h0]
    · have h1 : n < 64 := by omega
      have h2 : 64 - n < 64 := by omega
      simp [h64, h0, shl64, shr64, h1, h2]

/-- The `operator>>=` of the source evaluates no undefined native shift for amounts from
1 to 127, so its checked form agrees with `shr`. -/
theorem uint128_shrChecked_defined (a : uint128) (n : Nat) (h0 : 0 < n) (hn : n < 128) :
    shrChecked a n = some (shr a n) := by
  unfold shrChecked shr
  by_cases h64 : n ≥ 64
  · have : n - 64 < 64 := by omega
    simp [h64, shr64, this]
  · have h1 : n < 64 := by omega
    have h2 : 64 - n < 64 := by omega
    simp [h64, shl64, shr64, h1, h2]

/-- The `operator<<=` of the source evaluates no undefined native shift for amounts from
1 to 63, where it agrees with `operator<<`. -/
theorem uint128_shlAssign_defined (a : uint128) (hl : a.low < 2 ^ 64) (n : Nat) (h0 : 0 < n)
    (hn : n < 64) :
    shlAssign a n = some (shl a n) := by
  have e1 : n % 2 ^ 8 = n := Nat.mod_eq_of_lt (by omega)
  have e2 : (64 + 2 ^ 32 - n) % 2 ^ 32 = 64 - n := by omega
  have h2 : 64 - n < 64 := by omega
  have h3 : ¬ n ≥ 64 := by omega
  have h4 : n ≠ 0 := by omega
  have hor : ((a.high <<< n) % 2 ^ 64 ||| a.low >>> (64 - n)) % 2 ^ 64
      = (a.high <<< n) % 2 ^ 64 ||| a.low >>> (64 - n) := by
    apply Nat.mod_eq_of_lt
    apply Nat.or_lt_two_pow (Nat.mod_lt _ (by norm_num))
    rw [Nat.shiftRight_eq_div_pow]
    exact lt_of_le_of_lt (Nat.div_le_self _ _) hl
  simp only [shlAssign, shl, e1, e2, shl64, shr64, hn, h2, h3, h4, if_true, if_false, ofHalves,
    hor, Nat.mod_mod]

/-- The `operator<<=` of the source evaluates `low >> 64` when the amount is 0. -/
theorem uint128_shlAssign_zero (a : uint128) : shlAssign a 0 = none := by
  simp [shlAssign, shl64, shr64]

/-- The `operator<<=` of the source evaluates `high << amount` with an amount of 64 or
more when its 8-bit argument is 64 or more. -/
theorem uint128_shlAssign_large (a : uint128) (n : Nat) (h : 64 ≤ n) (hn : n < 256) :
    shlAssign a n = none := by
  have e1 : n % 2 ^ 8 = n := Nat.mod_eq_of_lt (by omega)
  have h3 : ¬ n < 64 := by omega
  unfold shlAssign
  simp only [e1, shl64, if_neg h3]

/-- The `operator>>=` of the source evaluates `high << 64` when the amount is 0. -/
theorem uint128_shrChecked_zero (a : uint128) : shrChecked a 0 = none := by
  simp [shrChecked, shl64]

/-- The `operator<<` of the source on a value with 64-bit halves multiplies by `2^n`
modulo `2^128`. -/
theorem uint128_shl_value (a : uint128) (hh : a.high < 2 ^ 64) (hl : a.low < 2 ^ 64) (n : Nat)
    (hn : n < 128) :
    toNat (shl a n) = (toNat a * 2 ^ n) % 2 ^ 128 := by
  unfold shl
  by_cases h64 : n ≥ 64
  · rw [if_pos h64]
    simp only [ofHalves, uint128.toNat, Nat.shiftLeft_eq, Nat.mod_mod, Nat.zero_mod,
      Nat.add_zero]
    have e : 2 ^ n = 2 ^ (n - 64) * 2 ^ 64 := by
      rw [← pow_add]
      congr 1
      omega
    have e128 : (2 : Nat) ^ 128 = 2 ^ 64 * 2 ^ 64 := by norm_num
    rw [e, e128, ← Nat.mul_assoc, Nat.mul_mod_mul_right]
    congr 1
    rw [Nat.add_mul, Nat.mul_assoc, Nat.mul_comm (2 ^ 64), ← Nat.mul_assoc]
    omega
  · rw [if_neg h64]
    by_cases h0 : n = 0
    · rw [if_pos h0, h0, pow_zero, Nat.mul_one, Nat.mod_eq_of_lt]
      unfold uint128.toNat
      omega
    · rw [if_neg h0]
      have hAB : 2 ^ n * 2 ^ (64 - n) = 2 ^ 64 := by
        rw [← pow_add]
        congr 1
        omega
      have hA : 0 < 2 ^ n := Nat.pos_of_ne_zero (by positivity)
      have hB : 0 < 2 ^ (64 - n) := Nat.pos_of_ne_zero (by positivity)
      have hlow : a.low / 2 ^ (64 - n) < 2 ^ n := by
        rw [Nat.div_lt_iff_lt_mul hB, hAB]
        exact hl
      have hmid : (a.high <<< n) % 2 ^ 64 = 2 ^ n * (a.high % 2 ^ (64 - n)) := by
        rw [Nat.shiftLeft_eq, ← hAB, Nat.mul_comm a.high, Nat.mul_mod_mul_left]
      have hor : ((a.high <<< n) % 2 ^ 64) ||| (a.low >>> (64 - n))
          = 2 ^ n * (a.high % 2 ^ (64 - n)) + a.low / 2 ^ (64 - n) := by
        rw [hmid, Nat.shiftRight_eq_div_pow, ← Nat.mul_add_lt_is_or hlow]
      have hlo : (a.low <<< n) % 2 ^ 64 = 2 ^ n * (a.low % 2 ^ (64 - n)) := by
        rw [Nat.shiftLeft_eq, ← hAB, Nat.mul_comm a.low, Nat.mul_mod_mul_left]
      have hrh : a.high % 2 ^ (64 - n) < 2 ^ (64 - n) := Nat.mod_lt _ hB
      have hrl : a.low % 2 ^ (64 - n) < 2 ^ (64 - n) := Nat.mod_lt _ hB
      have hdh := Nat.div_add_mod a.high (2 ^ (64 - n))
      have hdl := Nat.div_add_mod a.low (2 ^ (64 - n))
      rw [hor, hlo]
      simp only [ofHalves, uint128.toNat, Nat.mod_mod]
      generalize a.high / 2 ^ (64 - n) = qh at *
      generalize a.high % 2 ^ (64 - n) = rh at *
      generalize a.low / 2 ^ (64 - n) = ql at *
      generalize a.low % 2 ^ (64 - n) = rl at *
      generalize hAe : 2 ^ n = A at *
      generalize hBe : 2 ^ (64 - n) = B at *
      have b1 : A * rh + ql < 2 ^ 64 := by
        have : A * (rh + 1) ≤ A * B := Nat.mul_le_mul_left A (by omega)
        have e1 : A * (rh + 1) = A * rh + A := by ring
        omega
      have b2 : A * rl < 2 ^ 64 := by
        have : A * rl < A * B := Nat.mul_lt_mul_of_pos_left hrl hA
        omega
      rw [Nat.mod_eq_of_lt b1, Nat.mod_eq_of_lt b2, ← hdh, ← hdl]
      have e128 : (2 : Nat) ^ 128 = 2 ^ 64 * 2 ^ 64 := by norm_num
      have e3 : ((B * qh + rh) * 2 ^ 64 + (B * ql + rl)) * A
          = ((A * rh + ql) * 2 ^ 64 + A * rl) + 2 ^ 128 * qh := by
        rw [e128, ← hAB]
        ring
      rw [e3, Nat.add_mul_mod_self_left, Nat.mod_eq_of_lt]
      have : (A * rh + ql + 1) * 2 ^ 64 ≤ 2 ^ 64 * 2 ^ 64 := Nat.mul_le_mul_right _ (by omega)
      have e4 : (A * rh + ql + 1) * 2 ^ 64 = (A * rh + ql) * 2 ^ 64 + 2 ^ 64 := by ring
      rw [e128]
      omega

/-- Claim C14 (evaluation at failing inputs).  For every `v`, the statement `v <<= 0`
evaluates the native shift `low >> 64`, the statements `v <<= 64` and `v <<= 127`
evaluate `high << 64` and `high << 127`, and `v >> 0` (through `operator>>=`) evaluates
`high << 64`: each is an undefined native 64-bit shift.  The sibling `operator<<` returns
`v` for an amount of 0 and moves the low half up for an amount of 64. -/
theorem uint128_shift_assign_unguarded (v : uint128) :
    shlAssign v 0 = none ∧ shlAssign v 64 = none ∧ shlAssign v 127 = none ∧
    shrChecked v 0 = none ∧
    shlChecked v 0 = some v ∧
    shlChecked ⟨0, 1⟩ 64 = some ⟨1, 0⟩ ∧
    shrChecked ⟨1, 0⟩ 64 = some ⟨0, 1⟩ :=
  ⟨uint128_shlAssign_zero v, uint128_shlAssign_large v 64 (by decide) (by decide),
    uint128_shlAssign_large v 127 (by decide) (by decide), uint128_shrChecked_zero v,
    by simp [shlChecked], by decide, by decide⟩

end Uint128ShiftTheorems

/-! ## Theorems: injectivity of the corrected four-word block function -/

section PhiloxInjectivity
open stdmock stdmock.philox_engine

/-- Multiplication by an odd number modulo `2^w` is injective on words below `2^w`. -/
theorem philox_odd_mul_injective (w M a b : Nat) (hM : M % 2 = 1) (ha : a < 2 ^ w)
    (hb : b < 2 ^ w) (h : a * M % 2 ^ w = b * M % 2 ^ w) : a = b := by
  have hc : Nat.gcd (2 ^ w) M = 1 :=
    Nat.Coprime.pow_left w (Nat.coprime_two_left.mpr (Nat.odd_iff.mpr hM))
  have h1 : a ≡ b [MOD 2 ^ w] := Nat.ModEq.cancel_right_of_coprime hc h
  have h2 : a % 2 ^ w = b % 2 ^ w := h1
  rwa [Nat.mod_eq_of_lt ha, Nat.mod_eq_of_lt hb] at h2

/-- One round of the corrected four-word round function, in terms of exact products. -/
theorem philox_rounds4_corrected_step (p : PhiloxParams) (hw64 : p.w ≤ 64)
    (hwd : p.w ≤ p.digits) (h16 : 16 ≤ p.fast16) (h32 : 32 ≤ p.fast32) (h64 : 64 ≤ p.fast64)
    (hM0 : p.consts.getD 0 0 < 2 ^ p.w) (hM2 : p.consts.getD 2 0 < 2 ^ p.w)
    (i S0 S1 S2 S3 K0 K1 : Nat) (h0 : S0 < 2 ^ p.w) (h2 : S2 < 2 ^ p.w) :
    rounds4 p true (i + 1) (S0, S1, S2, S3, K0, K1) =
      rounds4 p true i
        (S2 * p.consts.getD 2 0 / 2 ^ p.w ^^^ K0 ^^^ S1, S2 * p.consts.getD 2 0 % 2 ^ p.w,
          S0 * p.consts.getD 0 0 / 2 ^ p.w ^^^ K1 ^^^ S3, S0 * p.consts.getD 0 0 % 2 ^ p.w,
          (K0 + p.consts.getD 1 0) % 2 ^ p.w, (K1 + p.consts.getD 3 0) % 2 ^ p.w) := by
  have e0 := philox_mulhilo_eq p hw64 hwd h16 h32 h64 S2 (p.consts.getD 2 0) h2 hM2
  have e2 := philox_mulhilo_eq p hw64 hwd h16 h32 h64 S0 (p.consts.getD 0 0) h0 hM0
  simp only [rounds4, if_true, e0, e2, philox_mask_mod p hwd]

/-- The corrected four-word round loop is injective on the four state words, for a fixed
key, when the two multipliers are odd. -/
theorem philox_rounds4_corrected_injective (p : PhiloxParams) (hw64 : p.w ≤ 64)
    (hwd : p.w ≤ p.digits) (h16 : 16 ≤ p.fast16) (h32 : 32 ≤ p.fast32) (h64 : 64 ≤ p.fast64)
    (hM0 : p.consts.getD 0 0 < 2 ^ p.w) (hM2 : p.consts.getD 2 0 < 2 ^ p.w)
    (hodd0 : p.consts.getD 0 0 % 2 = 1) (hodd2 : p.consts.getD 2 0 % 2 = 1) :
    ∀ (i S0 S1 S2 S3 T0 T1 T2 T3 K0 K1 : Nat),
      S0 < 2 ^ p.w → S1 < 2 ^ p.w → S2 < 2 ^ p.w → S3 < 2 ^ p.w →
      T0 < 2 ^ p.w → T1 < 2 ^ p.w → T2 < 2 ^ p.w → T3 < 2 ^ p.w →
      K0 < 2 ^ p.w → K1 < 2 ^ p.w →
      (rounds4 p true i (S0, S1, S2, S3, K0, K1)).1
        = (rounds4 p true i (T0, T1, T2, T3, K0, K1)).1 →
      (rounds4 p true i (S0, S1, S2, S3, K0, K1)).2.1
        = (rounds4 p true i (T0, T1, T2, T3, K0, K1)).2.1 →
      (rounds4 p true i (S0, S1, S2, S3, K0, K1)).2.2.1
        = (rounds4 p true i (T0, T1, T2, T3, K0, K1)).2.2.1 →
      (rounds4 p true i (S0, S1, S2, S3, K0, K1)).2.2.2.1
        = (rounds4 p true i (T0, T1, T2, T3, K0, K1)).2.2.2.1 →
      S0 = T0 ∧ S1 = T1 ∧ S2 = T2 ∧ S3 = T3 := by
  intro i
  have hpw : 0 < 2 ^ p.w := Nat.pos_of_ne_zero (by positivity)
  have hhi : ∀ a b, a < 2 ^ p.w → b < 2 ^ p.w → a * b / 2 ^ p.w < 2 ^ p.w := by
    intro a b ha hb
    rw [Nat.div_lt_iff_lt_mul hpw, ← pow_add, ← two_mul]
    exact philox_product_lt p.w a b ha hb
  induction i with
  | zero =>
    intro S0 S1 S2 S3 T0 T1 T2 T3 K0 K1 _ _ _ _ _ _ _ _ _ _ e0 e1 e2 e3
    exact ⟨e0, e1, e2, e3⟩
  | succ i ih =>
    intro S0 S1 S2 S3 T0 T1 T2 T3 K0 K1 s0 s1 s2 s3 t0 t1 t2 t3 k0 k1
    rw [philox_rounds4_corrected_step p hw64 hwd h16 h32 h64 hM0 hM2 i S0 S1 S2 S3 K0 K1 s0 s2,
      philox_rounds4_corrected_step p hw64 hwd h16 h32 h64 hM0 hM2 i T0 T1 T2 T3 K0 K1 t0 t2]
    intro e0 e1 e2 e3
    obtain ⟨a0, a1, a2, a3⟩ := ih _ _ _ _ _ _ _ _ _ _
      (Nat.xor_lt_two_pow (Nat.xor_lt_two_pow (hhi _ _ s2 hM2) k0) s1)
      (Nat.mod_lt _ hpw)
      (Nat.xor_lt_two_pow (Nat.xor_lt_two_pow (hhi _ _ s0 hM0) k1) s3)
      (Nat.mod_lt _ hpw)
      (Nat.xor_lt_two_pow (Nat.xor_lt_two_pow (hhi _ _ t2 hM2) k0) t1)
      (Nat.mod_lt _ hpw)
      (Nat.xor_lt_two_pow (Nat.xor_lt_two_pow (hhi _ _ t0 hM0) k1) t3)
      (Nat.mod_lt _ hpw)
      (Nat.mod_lt _ hpw) (Nat.mod_lt _ hpw) e0 e1 e2 e3
    have r2 : S2 = T2 := philox_odd_mul_injective p.w _ S2 T2 hodd2 s2 t2 a1
    have r0 : S0 = T0 := philox_odd_mul_injective p.w _ S0 T0 hodd0 s0 t0 a3
    rw [r2] at a0
    rw [r0] at a2
    exact ⟨r0, Nat.xor_right_injective a0, r2, Nat.xor_right_injective a2⟩

/-- A word read with `getD` from a list of words below a positive bound is below it. -/
theorem philox_getD_lt (L : List Nat) (B : Nat) (hB : 0 < B) (h : ∀ x ∈ L, x < B) (i : Nat) :
    L.getD i 0 < B := by
  rw [List.getD_eq_getElem?_getD]
  cases hi : L[i]? with
  | none => simpa using hB
  | some v => simpa using h v (List.getElem?_mem hi)

/-- The block of a four-word configuration is the four state words left by the round
loop. -/
theorem philox_blockOf_four (p : PhiloxParams) (hn : p.n = 4) (Fix : Bool) (K X : List Nat) :
    blockOf p Fix K X =
      [(rounds4 p Fix p.r
          (X.getD 0 0, X.getD 1 0, X.getD 2 0, X.getD 3 0, K.getD 0 0, K.getD 1 0)).1,
        (rounds4 p Fix p.r
          (X.getD 0 0, X.getD 1 0, X.getD 2 0, X.getD 3 0, K.getD 0 0, K.getD 1 0)).2.1,
        (rounds4 p Fix p.r
          (X.getD 0 0, X.getD 1 0, X.getD 2 0, X.getD 3 0, K.getD 0 0, K.getD 1 0)).2.2.1,
        (rounds4 p Fix p.r
          (X.getD 0 0, X.getD 1 0, X.getD 2 0, X.getD 3 0, K.getD 0 0, K.getD 1 0)).2.2.2.1] := by
  simp [blockOf, generate, hn, List.replicate]

/-- For a four-word configuration with odd multipliers, the corrected block function is
injective on counters of words below `2^w`, for every key of words below `2^w`. -/
theorem philox_block_injective (p : PhiloxParams) (hn : p.n = 4) (hw64 : p.w ≤ 64)
    (hwd : p.w ≤ p.digits) (h16 : 16 ≤ p.fast16) (h32 : 32 ≤ p.fast32) (h64 : 64 ≤ p.fast64)
    (hM0 : p.consts.getD 0 0 < 2 ^ p.w) (hM2 : p.consts.getD 2 0 < 2 ^ p.w)
    (hodd0 : p.consts.getD 0 0 % 2 = 1) (hodd2 : p.consts.getD 2 0 % 2 = 1)
    (K X X' : List Nat) (hK : ∀ k ∈ K, k < 2 ^ p.w) (hX : X.length = 4) (hX' : X'.length = 4)
    (hx : ∀ x ∈ X, x < 2 ^ p.w) (hx' : ∀ x ∈ X', x < 2 ^ p.w)
    (h : blockOf p true K X = blockOf p true K X') : X = X' := by
  have hpw : 0 < 2 ^ p.w := Nat.pos_of_ne_zero (by positivity)
  rw [philox_blockOf_four p hn, philox_blockOf_four p hn] at h
  simp only [List.cons.injEq, and_true] at h
  obtain ⟨e0, e1, e2, e3⟩ := h
  obtain ⟨r0, r1, r2, r3⟩ := philox_rounds4_corrected_injective p hw64 hwd h16 h32 h64 hM0 hM2
    hodd0 hodd2 p.r _ _ _ _ _ _ _ _ _ _
    (philox_getD_lt X _ hpw hx 0) (philox_getD_lt X _ hpw hx 1) (philox_getD_lt X _ hpw hx 2)
    (philox_getD_lt X _ hpw hx 3) (philox_getD_lt X' _ hpw hx' 0)
    (philox_getD_lt X' _ hpw hx' 1) (philox_getD_lt X' _ hpw hx' 2)
    (philox_getD_lt X' _ hpw hx' 3) (philox_getD_lt K _ hpw hK 0) (philox_getD_lt K _ hpw hK 1)
    e0 e1 e2 e3
  match X, hX, X', hX' with
  | [a, b, c, d], _, [a', b', c', d'], _ =>
    simp only [List.getD_cons_zero, List.getD_cons_succ] at r0 r1 r2 r3
    rw [r0, r1, r2, r3]

/-- The key stored by the integer constructor consists of words below `2^w`. -/
theorem philox_init_key_lt (p : PhiloxParams) (hwd : p.w ≤ p.digits) (value : Nat) :
    ∀ k ∈ (init p value).K, k < 2 ^ p.w := by
  intro k hk
  have hpw : 0 < 2 ^ p.w := Nat.pos_of_ne_zero (by positivity)
  rcases List.mem_or_eq_of_mem_set hk with h | h
  · rw [(List.mem_replicate.mp h).2]
    exact hpw
  · rw [h, philox_mask_mod p hwd]
    exact Nat.mod_lt _ hpw


/-- Claim C21.  For `philox4x32` (over a `std::uint_fast32_t` of at least 32 bits) and
`philox4x64`, both with `n = 4` and 10 rounds: the multipliers `consts[0]` and
`consts[2]` are odd, and for every key of words below `2^w` the corrected block function
`generate<true>` is injective on counters, that is two 4-word counters with words below
`2^w` that produce the same block are equal. -/
theorem philox_corrected_block_injective (fast32 : Nat) (h32 : 32 ≤ fast32) :
    ((philox4x32 fast32).n = 4 ∧ (philox4x32 fast32).r = 10 ∧
      (philox4x32 fast32).consts.getD 0 0 % 2 = 1 ∧
      (philox4x32 fast32).consts.getD 2 0 % 2 = 1 ∧
      ∀ K X X' : List Nat, (∀ k ∈ K, k < 2 ^ 32) → X.length = 4 → X'.length = 4 →
        (∀ x ∈ X, x < 2 ^ 32) → (∀ x ∈ X', x < 2 ^ 32) →
        blockOf (philox4x32 fast32) true K X = blockOf (philox4x32 fast32) true K X' →
        X = X') ∧
    (philox4x64.n = 4 ∧ philox4x64.r = 10 ∧
      philox4x64.consts.getD 0 0 % 2 = 1 ∧ philox4x64.consts.getD 2 0 % 2 = 1 ∧
      ∀ K X X' : List Nat, (∀ k ∈ K, k < 2 ^ 64) → X.length = 4 → X'.length = 4 →
        (∀ x ∈ X, x < 2 ^ 64) → (∀ x ∈ X', x < 2 ^ 64) →
        blockOf philox4x64 true K X = blockOf philox4x64 true K X' → X = X') := by
  have o0 : (philox4x32 fast32).consts.getD 0 0 % 2 = 1 := by
    show 0xD2511F53 % 2 = 1
    decide
  have o2 : (philox4x32 fast32).consts.getD 2 0 % 2 = 1 := by
    show 0xCD9E8D57 % 2 = 1
    decide
  have m0 : (philox4x32 fast32).consts.getD 0 0 < 2 ^ (philox4x32 fast32).w := by
    show 0xD2511F53 < 2 ^ 32
    decide
  have m2 : (philox4x32 fast32).consts.getD 2 0 < 2 ^ (philox4x32 fast32).w := by
    show 0xCD9E8D57 < 2 ^ 32
    decide
  have w64 : (philox4x32 fast32).w ≤ 64 := by
    show 32 ≤ 64
    decide
  have f16 : 16 ≤ (philox4x32 fast32).fast16 := Nat.le_refl 16
  have f64 : 64 ≤ (philox4x32 fast32).fast64 := Nat.le_refl 64
  refine ⟨⟨rfl, rfl, o0, o2, ?_⟩, ⟨rfl, rfl, by decide, by decide, ?_⟩⟩
  · intro K X X' hK hX hX' hx hx' h
    exact philox_block_injective (philox4x32 fast32) rfl w64 h32 f16 h32 f64 m0 m2 o0 o2
      K X X' hK hX hX' hx hx' h
  · intro K X X' hK hX hX' hx hx' h
    exact philox_block_injective philox4x64 rfl (by decide) (by decide) (by decide)
      (by decide) (by decide) (by decide) (by decide) (by decide) (by decide) K X X' hK hX hX'
      hx hx' h

set_option maxRecDepth 100000 in
/-- Witness for claim C21: with the default key, the counters `{0, 0, 0, 0}` and
`{1, 0, 0, 0}` give different blocks under both presets. -/
theorem philox_corrected_block_injective_witness :
    32 ≤ 64 ∧
    blockOf (philox4x32 64) true [20111115, 0] [0, 0, 0, 0]
      ≠ blockOf (philox4x32 64) true [20111115, 0] [1, 0, 0, 0] ∧
    blockOf philox4x64 true [20111115, 0] [0, 0, 0, 0]
      ≠ blockOf philox4x64 true [20111115, 0] [1, 0, 0, 0] := by
  have h := philox_corrected_block_injective 64 (by decide)
  refine ⟨by decide, ?_, ?_⟩
  · intro hb
    have := h.1.2.2.2.2 [20111115, 0] [0, 0, 0, 0] [1, 0, 0, 0] (by decide) rfl rfl
      (by decide) (by decide) hb
    exact absurd this (by decide)
  · intro hb
    have := h.2.2.2.2.2 [20111115, 0] [0, 0, 0, 0] [1, 0, 0, 0] (by decide) rfl rfl
      (by decide) (by decide) hb
    exact absurd this (by decide)

end PhiloxInjectivity
